import Mathlib

/-!
Verification of the CCD inverse-kinematics engine (`src/kinematics.ts`).

The development is a shallow embedding of the `Kinematics` class.  JavaScript
numbers are modelled by an arbitrary linear ordered field `K`; the pieces of
external three.js math whose values the engine only reads back (local-to-world
matrix composition, `Math.atan2`, `Math.sqrt`, `Math.PI`, and the ambient
world matrices of the host's scene at construction time) are collected in a
`ThreeMath` record of abstract functions over `K`, so every theorem below
holds for every instantiation of that record.  JavaScript objects used as
dictionaries are modelled by insertion-ordered association lists with
overwrite-on-assignment semantics (`objSet`/`objGet`); the `undefined` value
that flows into numeric slots in a few corner paths is modelled by the
unspecified constant `ThreeMath.nan`.  A thrown `TypeError` (reading a
property of `undefined`) is modelled by `Except.error ()`.
-/

section Model

variable {K : Type} [LinearOrderedField K]

/-- Marker substring `"_XYZ_"` denoting a 3-DOF joint in a node name. -/
def mXYZ : String := "_XYZ_"

/-- Marker substring `"_Z_"` denoting a 1-DOF joint in a node name. -/
def mZ : String := "_Z_"

/-- Name prefix `"RJoint_"` of recognized joint nodes. -/
def mRJoint : String := "RJoint_"

/-- Label suffix `"/x"`. -/
def sufX : String := "/x"

/-- Label suffix `"/y"`. -/
def sufY : String := "/y"

/-- Label suffix `"/z"`. -/
def sufZ : String := "/z"

/-- Slash separator used when building DOF labels. -/
def slashS : String := "/"

/-- JavaScript `name.includes(marker)`: substring containment. -/
def includesS (s marker : String) : Bool := decide (marker.data <:+: s.data)

/-- JavaScript `name.startsWith(p)`. -/
def startsWithS (s p : String) : Bool := decide (p.data <+: s.data)

/-- JavaScript `name.endsWith(suf)`. -/
def endsWithS (s suf : String) : Bool := decide (suf.data <:+ s.data)

/-- JavaScript `s.substring(0, s.length - 2)`: drop the last two characters. -/
def substringDrop2 (s : String) : String := String.mk s.data.dropLast.dropLast

/-- Rotation triple `{x, y, z}` (the source's `Rot3Angles`, also used for a
node's local Euler rotation, whose order the engine always sets to XYZ). -/
structure Rot3Angles (K : Type) where
  x : K
  y : K
  z : K
deriving DecidableEq, Repr

/-- Value of one configuration entry: `number | Rot3Angles`. -/
inductive JointValue (K : Type) where
  | num (v : K)
  | rot (r : Rot3Angles K)
deriving DecidableEq, Repr

/-- A JavaScript object used as a configuration dictionary, modelled as an
insertion-ordered association list with unique keys maintained by `objSet`. -/
abbrev JointAngles (K : Type) := List (String × JointValue K)

/-- Property read `obj[k]` on a dictionary, `none` when the key is absent. -/
def objGet {α : Type} : List (String × α) → String → Option α
  | [], _ => none
  | (k', v) :: rest, k => if k' = k then some v else objGet rest k

/-- Property write `obj[k] = v`: overwrite in place when the key exists,
append at the end otherwise (JavaScript insertion-order semantics). -/
def objSet {α : Type} : List (String × α) → String → α → List (String × α)
  | [], k, v => [(k, v)]
  | (k', v') :: rest, k, v =>
    if k' = k then (k, v) :: rest else (k', v') :: objSet rest k v

/-- Key list of a dictionary in iteration order. -/
def objKeys {α : Type} (l : List (String × α)) : List String := l.map Prod.fst

/-- Three-component vector (three.js `Vector3`). -/
structure Vector3K (K : Type) where
  x : K
  y : K
  z : K
deriving DecidableEq, Repr

/-- Componentwise difference, `new Vector3().subVectors(a, b)`. -/
def Vector3K.subv (a b : Vector3K K) : Vector3K K := ⟨a.x - b.x, a.y - b.y, a.z - b.z⟩

/-- Dot product. -/
def Vector3K.dotv (a b : Vector3K K) : K := a.x * b.x + a.y * b.y + a.z * b.z

/-- Cross product. -/
def Vector3K.crossv (a b : Vector3K K) : Vector3K K :=
  ⟨a.y * b.z - a.z * b.y, a.z * b.x - a.x * b.z, a.x * b.y - a.y * b.x⟩

/-- Scalar multiple. -/
def Vector3K.scale (a : Vector3K K) (c : K) : Vector3K K := ⟨a.x * c, a.y * c, a.z * c⟩

/-- Scalar division (`divideScalar`). -/
def Vector3K.divScalar (a : Vector3K K) (c : K) : Vector3K K := ⟨a.x / c, a.y / c, a.z / c⟩

/-- Squared Euclidean length (`lengthSq`). -/
def Vector3K.lengthSq (a : Vector3K K) : K := a.x * a.x + a.y * a.y + a.z * a.z

/-- Column-major 4x4 matrix (three.js `Matrix4.elements`). -/
structure Matrix4K (K : Type) where
  e0 : K
  e1 : K
  e2 : K
  e3 : K
  e4 : K
  e5 : K
  e6 : K
  e7 : K
  e8 : K
  e9 : K
  e10 : K
  e11 : K
  e12 : K
  e13 : K
  e14 : K
  e15 : K
deriving DecidableEq, Repr

/-- Identity matrix, `new Matrix4()`. -/
def Matrix4K.ident : Matrix4K K :=
  ⟨1, 0, 0, 0, 0, 1, 0, 0, 0, 0, 1, 0, 0, 0, 0, 1⟩

/-- The source's `getPosition`: translation column `me[12..14]`. -/
def getPosition (m : Matrix4K K) : Vector3K K := ⟨m.e12, m.e13, m.e14⟩

/-- External three.js math the engine relies on but whose numeric content it
never inspects, abstracted as an arbitrary record of functions over `K`:
`step` is one `updateMatrixWorld` update (compose the node's local transform,
identified by the node's name and its current rotation, onto the parent's
world matrix, `none` for a parentless node); `mw0` gives the world matrices
the host's scene carries when the engine is constructed; `nan` stands for
the float `NaN` produced by arithmetic on `undefined`. -/
structure ThreeMath (K : Type) where
  step : Option (Matrix4K K) → String → Rot3Angles K → Matrix4K K
  atan2 : K → K → K
  sqrtK : K → K
  pi : K
  nan : K
  mw0 : String → Matrix4K K

/-- Vector normalization; three.js divides by `length() || 1`, so a vector of
length zero is left unchanged. -/
def Vector3K.normalizeWith (P : ThreeMath K) (a : Vector3K K) : Vector3K K :=
  let l := P.sqrtK a.lengthSq
  a.divScalar (if l = 0 then 1 else l)

/-- A node of the host's scene graph (three.js `Object3D`): a name, the local
rotation it carries when the engine is constructed, and its children. -/
inductive Object3DK (K : Type) where
  | node (name : String) (rotation0 : Rot3Angles K) (children : List (Object3DK K))

/-- Name of a node. -/
def Object3DK.name : Object3DK K → String
  | .node n _ _ => n

/-- Initial local rotation of a node. -/
def Object3DK.rotation0 : Object3DK K → Rot3Angles K
  | .node _ r _ => r

/-- Children of a node. -/
def Object3DK.children : Object3DK K → List (Object3DK K)
  | .node _ _ cs => cs

mutual

/-- Names of all nodes in `traverse` (preorder) order. -/
def Object3DK.names : Object3DK K → List String
  | .node n _ cs => n :: Object3DK.namesList cs

/-- Names of all nodes of a forest, in order. -/
def Object3DK.namesList : List (Object3DK K) → List String
  | [] => []
  | c :: cs => Object3DK.names c ++ Object3DK.namesList cs

end

mutual

/-- Path of names from this root down to the first node (in preorder) with
the given name, inclusive; `none` when the name is absent. -/
def Object3DK.pathTo : Object3DK K → String → Option (List String)
  | .node n _ cs, target =>
    if n = target then some [n]
    else (Object3DK.pathToList cs target).map (fun p => n :: p)

/-- Path search over a forest. -/
def Object3DK.pathToList : List (Object3DK K) → String → Option (List String)
  | [], _ => none
  | c :: cs, target =>
    match Object3DK.pathTo c target with
    | some p => some p
    | none => Object3DK.pathToList cs target

end

mutual

/-- First node (in preorder) carrying the given name. -/
def Object3DK.findNode : Object3DK K → String → Option (Object3DK K)
  | .node n r cs, target =>
    if n = target then some (.node n r cs)
    else Object3DK.findNodeList cs target

/-- Node search over a forest. -/
def Object3DK.findNodeList : List (Object3DK K) → String → Option (Object3DK K)
  | [], _ => none
  | c :: cs, target =>
    match Object3DK.findNode c target with
    | some t => some t
    | none => Object3DK.findNodeList cs target

end

/-- Name of the parent of the (first) node with the given name; `none` when
the name is absent or names the root (whose `parent` is `null`). -/
def Object3DK.parentOf (t : Object3DK K) (target : String) : Option String :=
  (t.pathTo target).bind fun p => p.dropLast.getLast?

/-- String `"x"`. -/
def strX : String := "x"

/-- String `"y"`. -/
def strY : String := "y"

/-- String `"z"`. -/
def strZ : String := "z"

/-- The `Kinematics` class.  Static data computed once by the constructor
(`root`, `yup`, the sorted key list `map` of the name-to-node dictionary, the
configuration index) together with the mutable state the engine aliases: each
named node's current local rotation `rot` and cached world matrix `mw`.
Operations thread the whole record, so mutation of the index fields would be
visible in their results. -/
structure Kinematics (K : Type) where
  root : Object3DK K
  yup : Bool
  map : List String
  qConfigIndex : String → Option Nat
  qConfigIndexReversed : List String
  qConfigLength : Nat
  rot : String → Rot3Angles K
  mw : String → Matrix4K K
  homePositionConfig : JointAngles K
  homePositionFwd : List (String × Matrix4K K)

/-- Key list of the object built by `getNameChildMap` via `traverse`: every
node name in preorder, duplicates collapsed onto their first position (a
later node with the same name overwrites the value, not the key slot). -/
def getNameChildMapKeys (t : Object3DK K) : List String := t.names.dedup

/-- The source's `sortObjectKeys`, acting on the key list of the object:
`Object.keys(obj).sort()` sorts the keys in ascending lexicographic
(character-code) string order; modelled by a stable sort under the
lexicographic order on the character lists. -/
def sortObjectKeys (keys : List String) : List String :=
  keys.insertionSort (fun a b => a.data ≤ b.data)

/-- One assignment `obj[k] = v` on a string-keyed JavaScript object modelled
as a lookup function. -/
def objWrite (f : String → Option Nat) (k : String) (v : Nat) : String → Option Nat :=
  fun l => if l = k then some v else f l

/-- Loop body of `confIndex`: fold over the sorted joint names, a 3-DOF
(`_XYZ_`) name pushing labels `name/x`, `name/y`, `name/z` at three
consecutive counts and a 1-DOF (`_Z_`) name pushing its own name at one. -/
def confIndexAux (idx : String → Option Nat) (rev : List String) (count : Nat) :
    List String → (String → Option Nat) × List String
  | [] => (idx, rev)
  | joint :: rest =>
    if includesS joint mXYZ then
      confIndexAux
        (objWrite (objWrite (objWrite idx (joint ++ sufX) count)
          (joint ++ sufY) (count + 1)) (joint ++ sufZ) (count + 2))
        (rev ++ [joint ++ sufX, joint ++ sufY, joint ++ sufZ])
        (count + 3) rest
    else if includesS joint mZ then
      confIndexAux (objWrite idx joint count) (rev ++ [joint]) (count + 1) rest
    else
      confIndexAux idx rev count rest

/-- The source's `confIndex`. -/
def confIndex (map : List String) : (String → Option Nat) × List String :=
  confIndexAux (fun _ => none) [] 0 map

/-- Initial rotation state captured from the host's tree: the name-to-node
dictionary read through to each node's local rotation. -/
def initRot (t : Object3DK K) : String → Rot3Angles K :=
  fun n =>
    match t.findNode n with
    | some nd => nd.rotation0
    | none => ⟨0, 0, 0⟩

/-- Constructor part that runs before the home-position block: build the
sorted map, the configuration index and its reverse, and capture the tree
state.  (`homePositionConfig`/`homePositionFwd` are filled by
`Kinematics.new` below.) -/
def Kinematics.make (P : ThreeMath K) (root : Object3DK K) (yup : Bool) : Kinematics K :=
  let map := sortObjectKeys (getNameChildMapKeys root)
  let ir := confIndex map
  { root := root, yup := yup, map := map,
    qConfigIndex := ir.1, qConfigIndexReversed := ir.2,
    qConfigLength := ir.2.length,
    rot := initRot root, mw := P.mw0,
    homePositionConfig := [], homePositionFwd := [] }

/-- The source's `getCurrentStateConfig`: iterate the sorted map; for every
`RJoint_`-prefixed name take the full rotation triple when the name carries
the `_XYZ_` marker, the z component when it carries `_Z_`.  (The
`rotation.isEuler` guard is always true for scene nodes.) -/
def getCurrentStateConfig (kin : Kinematics K) : JointAngles K :=
  kin.map.foldl
    (fun q name =>
      if startsWithS name mRJoint then
        if includesS name mXYZ then
          objSet q name (JointValue.rot (kin.rot name))
        else if includesS name mZ then
          objSet q name (JointValue.num (kin.rot name).z)
        else q
      else q)
    []

mutual

/-- Three.js `updateMatrixWorld(true)` on a subtree: recompute this node's
world matrix from the parent world matrix and the node's current local data,
then propagate to the children. -/
def updateMWSub (P : ThreeMath K) (rot : String → Rot3Angles K) :
    Object3DK K → Option (Matrix4K K) → (String → Matrix4K K) → (String → Matrix4K K)
  | .node n _ cs, pmw, mw =>
    let m := P.step pmw n (rot n)
    updateMWSubList P rot cs (some m) (fun x => if x = n then m else mw x)

/-- Propagation of `updateMatrixWorld` over a forest, left to right. -/
def updateMWSubList (P : ThreeMath K) (rot : String → Rot3Angles K) :
    List (Object3DK K) → Option (Matrix4K K) → (String → Matrix4K K) → (String → Matrix4K K)
  | [], _, mw => mw
  | c :: cs, pmw, mw => updateMWSubList P rot cs pmw (updateMWSub P rot c pmw mw)

end

/-- Effect of `child.updateMatrixWorld(true)` for the node with the given
name: its subtree's world matrices are recomputed from the parent's cached
world matrix; a name absent from the tree changes nothing. -/
def updateMatrixWorldAt (P : ThreeMath K) (kin : Kinematics K) (joint : String) : Kinematics K :=
  match kin.root.findNode joint with
  | some sub =>
    { kin with mw := updateMWSub P kin.rot sub ((kin.root.parentOf joint).map kin.mw) kin.mw }
  | none => kin

/-- Effect of `child.rotation.set(...)` in `setConfiguration` on a rotation
`r`: a dictionary value sets all three Euler angles; a scalar sets z, or y
under the y-up convention, keeping the other two components. -/
def entryRot (yup : Bool) (r : Rot3Angles K) : JointValue K → Rot3Angles K
  | .rot qc => ⟨qc.x, qc.y, qc.z⟩
  | .num v => if !yup then ⟨r.x, r.y, v⟩ else ⟨r.x, v, r.z⟩

/-- One loop iteration of `setConfiguration` for a joint present in the map:
`child.rotation.set(...)` (see `entryRot`), then
`child.updateMatrixWorld(true)`. -/
def applyEntry (P : ThreeMath K) (kin : Kinematics K) (joint : String) (qv : JointValue K) :
    Kinematics K :=
  let r' := entryRot kin.yup (kin.rot joint) qv
  updateMatrixWorldAt P { kin with rot := fun n => if n = joint then r' else kin.rot n } joint

/-- The source's `setConfiguration`: apply the entries in iteration order.
An entry whose joint name is not a key of the map makes `this.map[joint]`
`undefined` and the subsequent `child.rotation` access throws a `TypeError`,
modelled by `Except.error ()`. -/
def setConfiguration (P : ThreeMath K) (kin : Kinematics K) :
    JointAngles K → Except Unit (Kinematics K)
  | [] => .ok kin
  | (joint, qv) :: rest =>
    if joint ∈ kin.map then setConfiguration P (applyEntry P kin joint qv) rest
    else .error ()

mutual

/-- The source's `forwardKinematicsRec`: snapshot `root.matrixWorld.clone()`
for every node in preorder.  (The `q` and `A` parameters of the source are
passed through unused.) -/
def forwardKinematicsRec (kin : Kinematics K) :
    Object3DK K → List (String × Matrix4K K) → List (String × Matrix4K K)
  | .node n _ cs, links => forwardKinematicsRecList kin cs (objSet links n (kin.mw n))

/-- Preorder snapshot over a forest. -/
def forwardKinematicsRecList (kin : Kinematics K) :
    List (Object3DK K) → List (String × Matrix4K K) → List (String × Matrix4K K)
  | [], links => links
  | c :: cs, links => forwardKinematicsRecList kin cs (forwardKinematicsRec kin c links)

end

/-- The source's `forwardKinematics`: save the current configuration, apply
`q`, snapshot every node's world matrix, restore the saved configuration;
returns the snapshot together with the mutated engine state.  (`A` is
accepted and ignored, as in the source.) -/
def forwardKinematics (P : ThreeMath K) (kin : Kinematics K) (q : JointAngles K)
    (A : Matrix4K K) : Except Unit (List (String × Matrix4K K) × Kinematics K) := do
  let q_old := getCurrentStateConfig kin
  let kin1 ← setConfiguration P kin q
  let links := forwardKinematicsRec kin1 kin1.root []
  let kin2 ← setConfiguration P kin1 q_old
  return (links, kin2)

/-- The source's `qConfigStringToIndex`. -/
def qConfigStringToIndex (kin : Kinematics K) (label : String) : Option Nat :=
  kin.qConfigIndex label

/-- Array write `vec[i] = v` at a possibly undefined index: `vec[undefined]`
creates a non-index property and leaves the numeric slots unchanged. -/
def setVecAt (vec : List K) : Option Nat → K → List K
  | none, _ => vec
  | some i, v => vec.set i v

/-- The source's `configToVector`: a vector of length `qConfigLength` filled
with the sentinel `-1000`, then each configuration entry written into its
indexed slot (dictionary values through the three axis labels, scalars
through the joint name). -/
def configToVector (kin : Kinematics K) (q : JointAngles K) : List K :=
  q.foldl
    (fun vec jv =>
      match jv.2 with
      | .rot qc =>
        setVecAt (setVecAt (setVecAt vec (kin.qConfigIndex (jv.1 ++ sufX)) qc.x)
          (kin.qConfigIndex (jv.1 ++ sufY)) qc.y) (kin.qConfigIndex (jv.1 ++ sufZ)) qc.z
      | .num v => setVecAt vec (kin.qConfigIndex jv.1) v)
    (List.replicate kin.qConfigLength (-1000))

/-- Loop body of `vectorToConfig` over the remaining vector values, `i` the
current slot.  Reading `qConfigIndexReversed[i]` past the end gives
`undefined`, whose `.endsWith` throws; creating `{} as Rot3Angles` leaves the
two unwritten components `undefined` (modelled by `nan`); assigning `.x` on
an entry that holds a primitive number throws in strict mode. -/
def vectorToConfigAux (P : ThreeMath K) (kin : Kinematics K) :
    JointAngles K → Nat → List K → Except Unit (JointAngles K)
  | q, _, [] => .ok q
  | q, i, v :: rest =>
    match kin.qConfigIndexReversed.get? i with
    | none => .error ()
    | some jLabel =>
      if endsWithS jLabel sufX then
        match objGet q (substringDrop2 jLabel) with
        | none =>
          vectorToConfigAux P kin
            (objSet q (substringDrop2 jLabel) (.rot ⟨v, P.nan, P.nan⟩)) (i + 1) rest
        | some (.rot r) =>
          vectorToConfigAux P kin
            (objSet q (substringDrop2 jLabel) (.rot ⟨v, r.y, r.z⟩)) (i + 1) rest
        | some (.num _) => .error ()
      else if endsWithS jLabel sufY then
        match objGet q (substringDrop2 jLabel) with
        | none =>
          vectorToConfigAux P kin
            (objSet q (substringDrop2 jLabel) (.rot ⟨P.nan, v, P.nan⟩)) (i + 1) rest
        | some (.rot r) =>
          vectorToConfigAux P kin
            (objSet q (substringDrop2 jLabel) (.rot ⟨r.x, v, r.z⟩)) (i + 1) rest
        | some (.num _) => .error ()
      else if endsWithS jLabel sufZ then
        match objGet q (substringDrop2 jLabel) with
        | none =>
          vectorToConfigAux P kin
            (objSet q (substringDrop2 jLabel) (.rot ⟨P.nan, P.nan, v⟩)) (i + 1) rest
        | some (.rot r) =>
          vectorToConfigAux P kin
            (objSet q (substringDrop2 jLabel) (.rot ⟨r.x, r.y, v⟩)) (i + 1) rest
        | some (.num _) => .error ()
      else
        vectorToConfigAux P kin (objSet q jLabel (.num v)) (i + 1) rest

/-- The source's `vectorToConfig`. -/
def vectorToConfig (P : ThreeMath K) (kin : Kinematics K) (vec : List K) :
    Except Unit (JointAngles K) :=
  vectorToConfigAux P kin [] 0 vec

/-- The source's `getCurrentStateVector`. -/
def getCurrentStateVector (kin : Kinematics K) : List K :=
  configToVector kin (getCurrentStateConfig kin)

/-- Loop of `getChain`, replayed over the list of ancestor names of the
effector's map node, nearest first (the live `parent`-pointer walk visits
exactly these nodes): stop at the first ancestor carrying the root's name,
push every visited name with the `RJoint_` prefix. -/
def chainLoopAux (rootName : String) (chain : List String) : List String → List String
  | [] => chain
  | a :: rest =>
    if a = rootName then chain
    else chainLoopAux rootName (if startsWithS a mRJoint then chain ++ [a] else chain) rest

/-- The source's `getChain`: `this.map[endEffector]?.parent` is `undefined`
exactly when the effector name is not a key of the map, in which case the
walk is empty and the chain is the singleton. -/
def getChain (kin : Kinematics K) (endEffector : String) : List String :=
  let ups := (((kin.root.pathTo endEffector).getD []).dropLast).reverse
  (chainLoopAux kin.root.name [endEffector] ups).reverse

/-- Working state of the CCD loop: the configuration vector, the latest FK
snapshot, the latest residual, and the threaded engine state. -/
structure IKState (K : Type) where
  vec : List K
  fwd : List (String × Matrix4K K)
  dErr : Vector3K K
  kin : Kinematics K

/-- Result quadruple of `inverseKinematics` (with the threaded engine
state). -/
structure IKOut (K : Type) where
  finalQ : JointAngles K
  dErr : Vector3K K
  count : Nat
  fwd : List (String × Matrix4K K)
  kin : Kinematics K

/-- Innermost body of the CCD sweep: one DOF of one chain joint.  A label
absent from the index is skipped; a chain joint or the effector missing from
the snapshot makes the JavaScript read `undefined.elements` and throws; a
near-degenerate projection is skipped; otherwise the signed angle is applied
to the vector slot and FK is immediately re-evaluated. -/
def ikDofStep (P : ThreeMath K) (joint : String) (target : Vector3K K) (A : Matrix4K K)
    (alpha : K) (jointName : String) (S : IKState K) (dof : String) :
    Except Unit (IKState K) :=
  let label := if includesS jointName mXYZ then jointName ++ slashS ++ dof else jointName
  match S.kin.qConfigIndex label with
  | none => .ok S
  | some i =>
    match objGet S.fwd jointName with
    | none => .error ()
    | some matrix =>
      let axisO : Option (Vector3K K) :=
        if dof = strX then some ⟨matrix.e0, matrix.e1, matrix.e2⟩
        else if dof = strY then some ⟨matrix.e4, matrix.e5, matrix.e6⟩
        else if dof = strZ then some ⟨matrix.e8, matrix.e9, matrix.e10⟩
        else none
      match axisO with
      | none => .ok S
      | some axis0 =>
        let axis := axis0.normalizeWith P
        let p_joint := getPosition matrix
        match objGet S.fwd joint with
        | none => .error ()
        | some mEnd =>
          let p_end := getPosition mEnd
          let v_current := p_end.subv p_joint
          let v_target := target.subv p_joint
          let v_curr_proj := v_current.subv (axis.scale (v_current.dotv axis))
          let v_targ_proj := v_target.subv (axis.scale (v_target.dotv axis))
          if v_curr_proj.lengthSq < 1 / 10000 ∨ v_targ_proj.lengthSq < 1 / 10000 then .ok S
          else
            let vcp := v_curr_proj.normalizeWith P
            let vtp := v_targ_proj.normalizeWith P
            let dotp := max (-1) (min 1 (vcp.dotv vtp))
            let crossp := vcp.crossv vtp
            let theta := P.atan2 (crossp.dotv axis) dotp
            let vec' := S.vec.set i (S.vec.getD i 0 + alpha * theta)
            match vectorToConfig P S.kin vec' with
            | .error e => .error e
            | .ok q2 =>
              match forwardKinematics P S.kin q2 A with
              | .error e => .error e
              | .ok (fwd', kin') =>
                match objGet fwd' joint with
                | none => .error ()
                | some mE2 => .ok ⟨vec', fwd', target.subv (getPosition mE2), kin'⟩

/-- One chain joint of the CCD sweep: its DOF list is `x, y, z` for a
3-DOF-marked name and `z` otherwise. -/
def ikJointStep (P : ThreeMath K) (joint : String) (target : Vector3K K) (A : Matrix4K K)
    (alpha : K) (S : IKState K) (jointName : String) : Except Unit (IKState K) :=
  let dofs := if includesS jointName mXYZ then [strX, strY, strZ] else [strZ]
  dofs.foldlM (ikDofStep P joint target A alpha jointName) S

/-- One full CCD sweep: visit the chain in reverse (effector-nearest joint
first). -/
def ikSweep (P : ThreeMath K) (joint : String) (target : Vector3K K) (A : Matrix4K K)
    (alpha : K) (chain : List String) (S : IKState K) : Except Unit (IKState K) :=
  chain.reverse.foldlM (ikJointStep P joint target A alpha) S

/-- The `while` loop of `inverseKinematics`, in fuel form: `fuel` is
`maxIterations - count`, so the guard `count < maxIterations` is `fuel > 0`
and the residual guard is tested at the head of every iteration. -/
def ikLoopAux (P : ThreeMath K) (joint : String) (target : Vector3K K) (A : Matrix4K K)
    (alpha limit : K) (chain : List String) :
    Nat → IKState K → Nat → Except Unit (IKState K × Nat)
  | 0, S, count => .ok (S, count)
  | fuel + 1, S, count =>
    if limit < S.dErr.lengthSq then
      match ikSweep P joint target A alpha chain S with
      | .error e => .error e
      | .ok S' => ikLoopAux P joint target A alpha limit chain fuel S' (count + 1)
    else .ok (S, count)

/-- The source's `inverseKinematics` (CCD solver).  Defaults as in the
source: `alpha = 0.5`, `limit = 0.0001`, `maxIterations = 100`.  A missing
effector snapshot entry is the JavaScript `undefined.elements` throw. -/
def inverseKinematics (P : ThreeMath K) (kin : Kinematics K) (q : JointAngles K)
    (joint : String) (target : Vector3K K) (A : Matrix4K K) (alpha : K := 1 / 2)
    (limit : K := 1 / 10000) (maxIterations : Nat := 100) : Except Unit (IKOut K) :=
  let vec := configToVector kin q
  match vectorToConfig P kin vec with
  | .error e => .error e
  | .ok q1 =>
    match forwardKinematics P kin q1 A with
    | .error e => .error e
    | .ok fk =>
      match objGet fk.1 joint with
      | none => .error ()
      | some m =>
        let p_end := getPosition m
        let dErr := target.subv p_end
        let chain := getChain fk.2 joint
        match ikLoopAux P joint target A alpha limit chain maxIterations
            ⟨vec, fk.1, dErr, fk.2⟩ 0 with
        | .error e => .error e
        | .ok (S, count) =>
          match vectorToConfig P S.kin S.vec with
          | .error e => .error e
          | .ok finalQ => .ok ⟨finalQ, S.dErr, count, S.fwd, S.kin⟩

/-- The source's `calcJacobian`: finite differences around `q`, one vector
slot at a time. -/
def calcJacobian (P : ThreeMath K) (kin : Kinematics K) (q : JointAngles K) (joint : String)
    (pos : Vector3K K) (dq : K) (A : Matrix4K K) :
    Except Unit (List (Vector3K K) × Kinematics K) :=
  let cVec := configToVector kin q
  (List.range kin.qConfigLength).foldlM
    (fun st i =>
      let vec := cVec.set i (cVec.getD i 0 + dq)
      match vectorToConfig P st.2 vec with
      | .error e => .error e
      | .ok q2 =>
        match forwardKinematics P st.2 q2 A with
        | .error e => .error e
        | .ok fk =>
          match objGet fk.1 joint with
          | none => .error ()
          | some m2 => .ok (st.1 ++ [((getPosition m2).subv pos).divScalar dq], fk.2))
    (([] : List (Vector3K K)), kin)

/-- Joint name `"RJoint_Back_Lower_Z_L"` biased by the constructor. -/
def nBackL : String := "RJoint_Back_Lower_Z_L"

/-- Joint name `"RJoint_Back_Lower_Z_R"` biased by the constructor. -/
def nBackR : String := "RJoint_Back_Lower_Z_R"

/-- Joint name `"RJoint_Front_Lower_Z_L"` biased by the constructor. -/
def nFrontL : String := "RJoint_Front_Lower_Z_L"

/-- Joint name `"RJoint_Front_Lower_Z_R"` biased by the constructor. -/
def nFrontR : String := "RJoint_Front_Lower_Z_R"

/-- Cast `q[k] as number`: a missing entry or a dictionary entry fed into
arithmetic yields `NaN`. -/
def asNum (P : ThreeMath K) : Option (JointValue K) → K
  | some (.num v) => v
  | _ => P.nan

/-- The home-position block of the constructor: add the fixed angular bias
to the four named joints of the captured configuration (an assignment whose
key is missing appends the key; `undefined + c` is `NaN`). -/
def homeBias (P : ThreeMath K) (q0 : JointAngles K) : JointAngles K :=
  let q1 := objSet q0 nBackL (.num (asNum P (objGet q0 nBackL) + P.pi / 4))
  let q2 := objSet q1 nBackR (.num (asNum P (objGet q1 nBackR) - P.pi / 4))
  let q3 := objSet q2 nFrontL (.num (asNum P (objGet q2 nFrontL) - P.pi / 8))
  objSet q3 nFrontR (.num (asNum P (objGet q3 nFrontR) + P.pi / 8))

/-- The full constructor: build the static data, capture the current
configuration, bias it (`homeBias`), store it as the home position and run
one FK evaluation on it.  That FK call throws whenever one of the four
biased names is not a key of the map. -/
def Kinematics.new (P : ThreeMath K) (root : Object3DK K) (yup : Bool) :
    Except Unit (Kinematics K) := do
  let kin := Kinematics.make P root yup
  let q4 := homeBias P (getCurrentStateConfig kin)
  let kin1 := { kin with homePositionConfig := q4 }
  let fk ← forwardKinematics P kin1 q4 Matrix4K.ident
  return { fk.2 with homePositionFwd := fk.1 }

/-! Derived notions the specification speaks about, each a direct function of
the embedded definitions above. -/

/-- DOF labels contributed by one joint name, in slot order: the three axis
labels for a 3-DOF-marked name, the name itself for a 1-DOF-marked name,
nothing otherwise. -/
def labelsOf (joint : String) : List String :=
  if includesS joint mXYZ then [joint ++ sufX, joint ++ sufY, joint ++ sufZ]
  else if includesS joint mZ then [joint] else []

/-- Number of DOFs a joint name contributes. -/
def dofCount (joint : String) : Nat := (labelsOf joint).length

/-- Joint names of the map that contribute DOF labels to the index. -/
def dofJoints (kin : Kinematics K) : List String :=
  kin.map.filter (fun n => includesS n mXYZ || includesS n mZ)

/-- Name carrying the 1-DOF marker but not the 3-DOF marker. -/
def zOnlyMarked (n : String) : Prop :=
  includesS n mZ = true ∧ includesS n mXYZ = false

instance (n : String) : Decidable (zOnlyMarked n) := by
  unfold zOnlyMarked
  infer_instance

/-- Name ending in one of the three axis suffixes. -/
def axisSuffixed (n : String) : Prop :=
  endsWithS n sufX = true ∨ endsWithS n sufY = true ∨ endsWithS n sufZ = true

instance (n : String) : Decidable (axisSuffixed n) := by
  unfold axisSuffixed
  infer_instance

/-- Regularity of the host's node names: no 1-DOF-marked name ends in an
axis suffix (such a name's own index label would be torn apart by
`vectorToConfig`'s suffix stripping). -/
def wellNamed (t : Object3DK K) : Prop :=
  ∀ n ∈ t.names, zOnlyMarked n → ¬ axisSuffixed n

instance (t : Object3DK K) : Decidable (wellNamed t) := by
  unfold wellNamed
  infer_instance

/-- Node name whose rotation `getCurrentStateConfig` reads as a triple. -/
def readsXYZ (n : String) : Prop :=
  startsWithS n mRJoint = true ∧ includesS n mXYZ = true

instance (n : String) : Decidable (readsXYZ n) := by
  unfold readsXYZ
  infer_instance

/-- Node name whose rotation `getCurrentStateConfig` reads as a z scalar. -/
def readsZ (n : String) : Prop :=
  startsWithS n mRJoint = true ∧ includesS n mXYZ = false ∧ includesS n mZ = true

instance (n : String) : Decidable (readsZ n) := by
  unfold readsZ
  infer_instance

/-- Static construction data of the engine, unchanged by every operation. -/
def sameStatic (a b : Kinematics K) : Prop :=
  a.root = b.root ∧ a.yup = b.yup ∧ a.map = b.map ∧ a.qConfigIndex = b.qConfigIndex ∧
  a.qConfigIndexReversed = b.qConfigIndexReversed ∧ a.qConfigLength = b.qConfigLength

/-- Strict ancestors of the (first) node with the given name, below the tree
root, in root-to-node order; empty when the name is absent or names the
root. -/
def ancestorsBelowRoot (t : Object3DK K) (e : String) : List String :=
  (((t.pathTo e).getD []).drop 1).dropLast

/-- Vector slots written by one configuration entry. -/
def entrySlots (kin : Kinematics K) (jv : String × JointValue K) : List Nat :=
  match jv.2 with
  | .rot _ =>
    (kin.qConfigIndex (jv.1 ++ sufX)).toList ++ (kin.qConfigIndex (jv.1 ++ sufY)).toList ++
      (kin.qConfigIndex (jv.1 ++ sufZ)).toList
  | .num _ => (kin.qConfigIndex jv.1).toList

/-- Vector slots covered by a configuration. -/
def coveredSlots (kin : Kinematics K) (q : JointAngles K) : List Nat :=
  q.flatMap (entrySlots kin)

/-- Iteration count of a solver result (`0` for a thrown call). -/
def ikIters : Except Unit (IKOut K) → Nat
  | .ok o => o.count
  | .error _ => 0

/-- Final configuration of a solver result (empty for a thrown call). -/
def ikFinalQ : Except Unit (IKOut K) → JointAngles K
  | .ok o => o.finalQ
  | .error _ => []

/-- Squared residual of a solver result (`0` for a thrown call). -/
def ikResidualSq : Except Unit (IKOut K) → K
  | .ok o => o.dErr.lengthSq
  | .error _ => 0

/-- Residual the solver computes before its first sweep: the prelude of
`inverseKinematics` (lines 178-181 of the source) in isolation. -/
def ikStartErr (P : ThreeMath K) (kin : Kinematics K) (q : JointAngles K) (joint : String)
    (target : Vector3K K) (A : Matrix4K K) : Except Unit (Vector3K K) :=
  let vec := configToVector kin q
  match vectorToConfig P kin vec with
  | .error e => .error e
  | .ok q1 =>
    match forwardKinematics P kin q1 A with
    | .error e => .error e
    | .ok fk =>
      match objGet fk.1 joint with
      | none => .error ()
      | some m => .ok (target.subv (getPosition m))

/-- Value of an `Except` with a default for the error case. -/
def exceptD {α : Type} : Except Unit α → α → α
  | .ok a, _ => a
  | .error _, d => d

/-- Value `getCurrentStateConfig` stores for a node name, if any. -/
def gcscVal (kin : Kinematics K) (n : String) : Option (JointValue K) :=
  if startsWithS n mRJoint then
    if includesS n mXYZ then some (.rot (kin.rot n))
    else if includesS n mZ then some (.num (kin.rot n).z)
    else none
  else none

/-- Value a configuration entry writes into vector slot `j` (the z component
checked first, matching the within-entry last-write-wins order of
`configToVector`); `none` when the entry does not write that slot. -/
def slotValue (kin : Kinematics K) (kv : String × JointValue K) (j : Nat) : Option K :=
  match kv.2 with
  | .rot r =>
    if kin.qConfigIndex (kv.1 ++ sufZ) = some j then some r.z
    else if kin.qConfigIndex (kv.1 ++ sufY) = some j then some r.y
    else if kin.qConfigIndex (kv.1 ++ sufX) = some j then some r.x
    else none
  | .num v => if kin.qConfigIndex kv.1 = some j then some v else none

/-- Discriminator: is this configuration value a scalar? -/
def JointValue.isNum : JointValue K → Bool
  | .num _ => true
  | .rot _ => false

/-- Discriminator: is this configuration value a rotation dictionary? -/
def JointValue.isRotV : JointValue K → Bool
  | .num _ => false
  | .rot _ => true

/-- Configuration that `vectorToConfig` reconstructs from a full vector:
walking the map names in order, a 3-DOF-marked name consumes three values
into one rotation dictionary, a 1-DOF-marked name consumes one value into a
scalar, and unmarked names contribute nothing. -/
def buildGroups : List String → List K → JointAngles K
  | [], _ => []
  | n :: rest, vs =>
    if includesS n mXYZ then
      match vs with
      | a :: b :: c :: vs' => (n, .rot ⟨a, b, c⟩) :: buildGroups rest vs'
      | _ => []
    else if includesS n mZ then
      match vs with
      | a :: vs' => (n, .num a) :: buildGroups rest vs'
      | _ => []
    else buildGroups rest vs

/-- Loop body of `configToVector`, one configuration entry written into the
vector. -/
def ctvStep (kin : Kinematics K) (vec : List K) (jv : String × JointValue K) : List K :=
  match jv.2 with
  | .rot qc =>
    setVecAt (setVecAt (setVecAt vec (kin.qConfigIndex (jv.1 ++ sufX)) qc.x)
      (kin.qConfigIndex (jv.1 ++ sufY)) qc.y) (kin.qConfigIndex (jv.1 ++ sufZ)) qc.z
  | .num v => setVecAt vec (kin.qConfigIndex jv.1) v

end Model

/-! Concrete instantiation over `ℚ` used to exercise the model on explicit
inputs: an arbitrary `ThreeMath` record (every abstract matrix step returns
the identity) and some small host trees. -/

/-- A concrete `ThreeMath` instantiation over `ℚ`. -/
def Pq : ThreeMath ℚ :=
  { step := fun _ _ _ => Matrix4K.ident, atan2 := fun _ _ => 0, sqrtK := fun _ => 0,
    pi := 0, nan := 0, mw0 := fun _ => Matrix4K.ident }

/-- Joint name used by the concrete trees. -/
def nA : String := "RJoint_A_Z_"

/-- Second joint name used by the concrete trees. -/
def nB : String := "RJoint_B_Z_"

/-- Root name of the concrete trees. -/
def nScene : String := "Scene"

/-- A name absent from every concrete tree. -/
def nGhost : String := "Ghost"

/-- A name carrying the 3-DOF marker but not the `RJoint_` prefix. -/
def nArmX : String := "Arm_XYZ_u"

/-- Zero rotation. -/
def rot0q : Rot3Angles ℚ := ⟨0, 0, 0⟩

/-- Tree with a single 1-DOF joint. -/
def treeA : Object3DK ℚ := .node nScene rot0q [.node nA rot0q []]

/-- Tree with two 1-DOF joints. -/
def treeB : Object3DK ℚ := .node nScene rot0q [.node nA rot0q [], .node nB rot0q []]

/-- Tree with one marker-carrying node that lacks the `RJoint_` prefix. -/
def treeX : Object3DK ℚ := .node nScene rot0q [.node nArmX rot0q []]

/-- Engine over `treeA`, z-up. -/
def kinA : Kinematics ℚ := Kinematics.make Pq treeA false

/-- Engine over `treeA`, y-up. -/
def kinAy : Kinematics ℚ := Kinematics.make Pq treeA true

/-- Engine over `treeB`, z-up. -/
def kinB : Kinematics ℚ := Kinematics.make Pq treeB false

/-- Engine over `treeX`, z-up. -/
def kinX : Kinematics ℚ := Kinematics.make Pq treeX false

/-! Lemmas about the JavaScript-object model. -/

/-- Induction over a scene tree in terms of a membership hypothesis on the
children, derived from the nested recursor. -/
theorem Object3DK.inductOn {motive : Object3DK K → Prop}
    (h : ∀ (n : String) (r : Rot3Angles K) (cs : List (Object3DK K)),
      (∀ c ∈ cs, motive c) → motive (.node n r cs)) :
    ∀ t, motive t := by
  intro t
  induction t using Object3DK.rec (motive_2 := fun cs => ∀ c ∈ cs, motive c) with
  | node n r cs ih => exact h n r cs ih
  | nil =>
    rename_i c hc
    cases hc
  | cons c cs ihc ihcs =>
    rename_i d hd
    rcases List.mem_cons.mp hd with rfl | hd
    · exact ihc
    · exact ihcs d hd

theorem objGet_objSet {α : Type} (q : List (String × α)) (k k' : String) (v : α) :
    objGet (objSet q k v) k' = if k = k' then some v else objGet q k' := by
  induction q with
  | nil =>
    by_cases h : k = k' <;> simp [objSet, objGet, h]
  | cons kv rest ih =>
    obtain ⟨k0, v0⟩ := kv
    by_cases h0 : k0 = k
    · subst h0
      by_cases h : k0 = k' <;> simp [objSet, objGet, h]
    · by_cases h : k0 = k'
      · subst h
        have hkk : ¬ k = k0 := fun he => h0 he.symm
        simp [objSet, objGet, h0, hkk]
      · simp [objSet, objGet, h0, h, ih]

theorem objGet_none_iff {α : Type} (q : List (String × α)) (k : String) :
    objGet q k = none ↔ k ∉ objKeys q := by
  induction q with
  | nil => simp [objGet, objKeys]
  | cons kv rest ih =>
    obtain ⟨k0, v0⟩ := kv
    by_cases h : k0 = k
    · subst h
      simp [objGet, objKeys]
    · have hne : k ≠ k0 := fun he => h he.symm
      simp only [objGet, h, if_false, objKeys, List.map_cons, List.mem_cons]
      rw [ih]
      unfold objKeys
      constructor
      · intro hnm hor
        rcases hor with he | hm
        · exact hne he
        · exact hnm hm
      · intro hnm hm
        exact hnm (Or.inr hm)

theorem objKeys_objSet {α : Type} (q : List (String × α)) (k : String) (v : α) :
    objKeys (objSet q k v) = if k ∈ objKeys q then objKeys q else objKeys q ++ [k] := by
  induction q with
  | nil => simp [objSet, objKeys]
  | cons kv rest ih =>
    obtain ⟨k0, v0⟩ := kv
    by_cases h0 : k0 = k
    · subst h0
      simp [objSet, objKeys]
    · have hne : ¬ k = k0 := fun he => h0 he.symm
      by_cases hm : k ∈ objKeys rest
      · have hm' : k ∈ List.map Prod.fst rest := by simpa [objKeys] using hm
        have hmc : k ∈ k0 :: List.map Prod.fst rest := List.mem_cons_of_mem _ hm'
        simp only [objSet, h0, if_false, objKeys, List.map_cons, if_pos hmc]
        have := ih
        simp only [objKeys] at this
        rw [this, if_pos hm']
      · have hm' : ¬ k ∈ List.map Prod.fst rest := by simpa [objKeys] using hm
        have hmc : ¬ k ∈ k0 :: List.map Prod.fst rest := by
          intro hk
          rcases List.mem_cons.mp hk with he | hk2
          · exact hne he
          · exact hm' hk2
        simp only [objSet, h0, if_false, objKeys, List.map_cons, if_neg hmc]
        have := ih
        simp only [objKeys] at this
        rw [this, if_neg hm']
        simp

theorem objKeys_objSet_nodup {α : Type} (q : List (String × α)) (k : String) (v : α)
    (h : (objKeys q).Nodup) : (objKeys (objSet q k v)).Nodup := by
  rw [objKeys_objSet]
  by_cases hm : k ∈ objKeys q
  · simpa [hm] using h
  · simp only [hm, if_false]
    exact List.Nodup.append h (List.nodup_singleton k) (by simpa using hm)

theorem objGet_mem {α : Type} (q : List (String × α)) (k : String) (v : α)
    (h : objGet q k = some v) : (k, v) ∈ q := by
  induction q with
  | nil => simp [objGet] at h
  | cons kv rest ih =>
    obtain ⟨k0, v0⟩ := kv
    by_cases h0 : k0 = k
    · subst h0
      simp [objGet] at h
      simp [h]
    · simp [objGet, h0] at h
      exact List.mem_cons_of_mem _ (ih h)

theorem objGet_of_mem_nodup {α : Type} (q : List (String × α)) (kv : String × α)
    (hn : (objKeys q).Nodup) (h : kv ∈ q) : objGet q kv.1 = some kv.2 := by
  induction q with
  | nil => simp at h
  | cons kv0 rest ih =>
    obtain ⟨k0, v0⟩ := kv0
    rcases List.mem_cons.mp h with rfl | h
    · simp [objGet]
    · have hk : kv.1 ≠ k0 := by
        intro he
        have : k0 ∈ objKeys rest := by
          have := List.mem_map_of_mem Prod.fst h
          simpa [objKeys, he] using this
        simp [objKeys] at hn
        exact hn.1 kv.2 (by
          have : (k0, kv.2) ∈ rest := by
            have hkv : kv = (k0, kv.2) := by
              cases kv
              simp_all
            exact hkv ▸ h
          exact this)
      have hn' : (objKeys rest).Nodup := by
        simp [objKeys] at hn
        exact hn.2
      unfold objGet
      rw [if_neg (fun he => hk he.symm)]
      exact ih hn' h

theorem objGet_mem_keys {α : Type} (q : List (String × α)) (k : String) (v : α)
    (h : objGet q k = some v) : k ∈ objKeys q := by
  have := objGet_mem q k v h
  simpa [objKeys] using List.mem_map_of_mem Prod.fst this

/-! Lemmas about the string helpers and DOF labels. -/

theorem substringDrop2_append (n s : String) (h : s.data.length = 2) :
    substringDrop2 (n ++ s) = n := by
  obtain ⟨a, b, hs⟩ := List.length_eq_two.mp h
  apply String.ext
  unfold substringDrop2
  rw [String.data_append, hs]
  show ((n.data ++ [a, b]).dropLast.dropLast) = n.data
  have : n.data ++ [a, b] = (n.data ++ [a]) ++ [b] := by simp
  rw [this, List.dropLast_concat, List.dropLast_concat]

theorem endsWithS_append_self (n s : String) : endsWithS (n ++ s) s = true := by
  unfold endsWithS
  rw [String.data_append]
  exact decide_eq_true (List.suffix_append _ _)

theorem endsWithS_append_ne (n : String) (s t : String) (hs : s.data.length = 2)
    (ht : t.data.length = 2) (hne : s ≠ t) : endsWithS (n ++ s) t = false := by
  unfold endsWithS
  rw [String.data_append]
  apply decide_eq_false
  intro hsuf
  apply hne
  apply String.ext
  have hd := List.suffix_iff_eq_drop.mp hsuf
  have hd2 := List.suffix_iff_eq_drop.mp (List.suffix_append n.data s.data)
  rw [hs] at hd2
  rw [ht] at hd
  exact (hd.trans hd2.symm).symm

theorem includesS_append_left (n s m : String) (h : includesS n m = true) :
    includesS (n ++ s) m = true := by
  unfold includesS at *
  rw [String.data_append]
  exact decide_eq_true
    ((of_decide_eq_true h).trans (List.prefix_append n.data s.data).isInfix)

theorem append_right_inj (n1 n2 s : String) (h : n1 ++ s = n2 ++ s) : n1 = n2 := by
  apply String.ext
  have := congrArg String.data h
  rw [String.data_append, String.data_append] at this
  exact List.append_cancel_right this

theorem append_suf_ne (n1 n2 s1 s2 : String) (h1 : s1.data.length = 2)
    (h2 : s2.data.length = 2) (hne : s1 ≠ s2) : n1 ++ s1 ≠ n2 ++ s2 := by
  intro he
  have := congrArg String.data he
  rw [String.data_append, String.data_append] at this
  have := (List.append_inj' this (h1.trans h2.symm)).2
  exact hne (String.ext this)

theorem append_suf_ne_of_marker (n m s : String) (hn : includesS n mXYZ = true)
    (hm : includesS m mXYZ = false) : n ++ s ≠ m := by
  intro he
  rw [← he] at hm
  rw [includesS_append_left n s mXYZ hn] at hm
  cases hm

theorem sufX_len : sufX.data.length = 2 := by decide

theorem sufY_len : sufY.data.length = 2 := by decide

theorem sufZ_len : sufZ.data.length = 2 := by decide

theorem sufX_ne_sufY : sufX ≠ sufY := by decide

theorem sufX_ne_sufZ : sufX ≠ sufZ := by decide

theorem sufY_ne_sufZ : sufY ≠ sufZ := by decide

/-- The three labels of a 3-DOF name strip back to the name. -/
theorem substringDrop2_labelX (n : String) : substringDrop2 (n ++ sufX) = n :=
  substringDrop2_append n sufX sufX_len

theorem substringDrop2_labelY (n : String) : substringDrop2 (n ++ sufY) = n :=
  substringDrop2_append n sufY sufY_len

theorem substringDrop2_labelZ (n : String) : substringDrop2 (n ++ sufZ) = n :=
  substringDrop2_append n sufZ sufZ_len

/-- Labels of distinct joint names are disjoint. -/
theorem labelsOf_disjoint (n1 n2 : String) (hne : n1 ≠ n2) :
    List.Disjoint (labelsOf n1) (labelsOf n2) := by
  intro l hl1 hl2
  unfold labelsOf at hl1 hl2
  by_cases hx1 : includesS n1 mXYZ = true
  · by_cases hx2 : includesS n2 mXYZ = true
    · simp only [hx1, hx2, if_true] at hl1 hl2
      simp only [List.mem_cons, List.mem_singleton, List.not_mem_nil, or_false] at hl1 hl2
      have inj : ∀ s1 s2 : String, s1.data.length = 2 → s2.data.length = 2 →
          n1 ++ s1 = n2 ++ s2 → False := by
        intro s1 s2 d1 d2 he
        by_cases hss : s1 = s2
        · subst hss
          exact hne (append_right_inj n1 n2 s1 he)
        · exact append_suf_ne n1 n2 s1 s2 d1 d2 hss he
      rcases hl1 with h1 | h1 | h1 <;> rcases hl2 with h2 | h2 | h2 <;>
        first
          | exact inj sufX sufX sufX_len sufX_len (h1 ▸ h2 ▸ rfl)
          | exact inj sufX sufY sufX_len sufY_len (h1 ▸ h2 ▸ rfl)
          | exact inj sufX sufZ sufX_len sufZ_len (h1 ▸ h2 ▸ rfl)
          | exact inj sufY sufX sufY_len sufX_len (h1 ▸ h2 ▸ rfl)
          | exact inj sufY sufY sufY_len sufY_len (h1 ▸ h2 ▸ rfl)
          | exact inj sufY sufZ sufY_len sufZ_len (h1 ▸ h2 ▸ rfl)
          | exact inj sufZ sufX sufZ_len sufX_len (h1 ▸ h2 ▸ rfl)
          | exact inj sufZ sufY sufZ_len sufY_len (h1 ▸ h2 ▸ rfl)
          | exact inj sufZ sufZ sufZ_len sufZ_len (h1 ▸ h2 ▸ rfl)
    · have hx2f : includesS n2 mXYZ = false := Bool.not_eq_true _ ▸ (by simpa using hx2)
      simp only [hx1, if_true] at hl1
      simp only [hx2f] at hl2
      by_cases hz2 : includesS n2 mZ = true
      · simp only [hz2, if_true, if_false, List.mem_singleton, Bool.false_eq_true] at hl2
        subst hl2
        simp only [List.mem_cons, List.mem_singleton, List.not_mem_nil, or_false] at hl1
        rcases hl1 with h1 | h1 | h1 <;>
          exact append_suf_ne_of_marker n1 l _ hx1 hx2f h1.symm
      · simp [hx2f, hz2] at hl2
  · have hx1f : includesS n1 mXYZ = false := by simpa using hx1
    by_cases hz1 : includesS n1 mZ = true
    · simp only [hx1f, hz1, Bool.false_eq_true, if_false, if_true,
        List.mem_singleton] at hl1
      subst hl1
      by_cases hx2 : includesS n2 mXYZ = true
      · simp only [labelsOf, hx2, if_true] at hl2
        simp only [List.mem_cons, List.mem_singleton, List.not_mem_nil, or_false] at hl2
        rcases hl2 with h2 | h2 | h2 <;>
          exact append_suf_ne_of_marker n2 l _ hx2 hx1f h2.symm
      · have hx2f : includesS n2 mXYZ = false := by simpa using hx2
        by_cases hz2 : includesS n2 mZ = true
        · simp only [hx2f, hz2, Bool.false_eq_true, if_false, if_true,
            List.mem_singleton] at hl2
          exact hne (hl2 ▸ rfl)
        · simp [hx2f, hz2] at hl2
    · simp [hx1f, hz1] at hl1

/-- The labels of one joint name are distinct. -/
theorem labelsOf_nodup (n : String) : (labelsOf n).Nodup := by
  unfold labelsOf
  by_cases hx : includesS n mXYZ = true
  · simp only [hx, if_true]
    refine List.nodup_cons.mpr ⟨?_, List.nodup_cons.mpr ⟨?_, List.nodup_singleton _⟩⟩
    · intro h
      rcases List.mem_cons.mp h with h | h
      · exact append_suf_ne n n sufX sufY sufX_len sufY_len sufX_ne_sufY h
      · exact append_suf_ne n n sufX sufZ sufX_len sufZ_len sufX_ne_sufZ
          (by simpa using h)
    · intro h
      exact append_suf_ne n n sufY sufZ sufY_len sufZ_len sufY_ne_sufZ
        (by simpa using h)
  · have hx1f : includesS n mXYZ = false := by simpa using hx
    by_cases hz : includesS n mZ = true <;> simp [hx1f, hz]

/-- Distinct joint names produce globally distinct labels. -/
theorem flatMap_labelsOf_nodup (names : List String) (h : names.Nodup) :
    (names.flatMap labelsOf).Nodup := by
  rw [List.nodup_flatMap]
  constructor
  · intro n _
    exact labelsOf_nodup n
  · exact h.imp (fun hne => labelsOf_disjoint _ _ hne)

/-! Characterization of the configuration index built by `confIndex`. -/

theorem confIndexAux_snd (idx : String → Option Nat) (rev : List String) (count : Nat)
    (names : List String) :
    (confIndexAux idx rev count names).2 = rev ++ names.flatMap labelsOf := by
  induction names generalizing idx rev count with
  | nil => simp [confIndexAux]
  | cons n rest ih =>
    unfold confIndexAux
    by_cases hx : includesS n mXYZ = true
    · simp only [hx, if_true, ih, labelsOf, List.flatMap_cons, List.append_assoc]
    · have hxf : includesS n mXYZ = false := by simpa using hx
      by_cases hz : includesS n mZ = true
      · simp only [hxf, hz, Bool.false_eq_true, if_false, if_true, ih, labelsOf,
          List.flatMap_cons, List.append_assoc]
      · have hzf : includesS n mZ = false := by simpa using hz
        simp [hxf, hzf, ih, labelsOf]

/-- Pushing one fresh label onto the reverse list and its index keeps the
position invariant. -/
theorem objWrite_inv (rev : List String) (idx : String → Option Nat) (l0 : String)
    (hinv : ∀ l j, idx l = some j ↔ rev[j]? = some l) (hfresh : l0 ∉ rev) :
    ∀ l j, objWrite idx l0 rev.length l = some j ↔ (rev ++ [l0])[j]? = some l := by
  intro l j
  unfold objWrite
  by_cases hl : l = l0
  · subst hl
    rw [if_pos rfl]
    constructor
    · intro h
      have hj : j = rev.length := by
        have := Option.some.inj h
        omega
      subst hj
      exact List.getElem?_concat_length rev l
    · intro h
      rcases Nat.lt_trichotomy j rev.length with hj | hj | hj
      · rw [List.getElem?_append_left hj] at h
        exact absurd (List.getElem?_mem h) hfresh
      · subst hj
        rfl
      · rw [List.getElem?_append_right (by omega)] at h
        have : j - rev.length ≥ 1 := by omega
        rw [List.getElem?_eq_none (by simpa using this)] at h
        cases h
  · rw [if_neg hl]
    rw [hinv l j]
    rcases Nat.lt_trichotomy j rev.length with hj | hj | hj
    · rw [List.getElem?_append_left hj]
    · subst hj
      rw [List.getElem?_concat_length]
      rw [List.getElem?_eq_none (le_refl _)]
      constructor
      · intro h
        cases h
      · intro h
        exact absurd (Option.some.inj h).symm hl
    · rw [List.getElem?_append_right (by omega)]
      rw [List.getElem?_eq_none (by omega : rev.length ≤ j)]
      have : j - rev.length ≥ 1 := by omega
      rw [List.getElem?_eq_none (by simpa using this)]


theorem confIndexAux_fst (names : List String) :
    ∀ (idx : String → Option Nat) (rev : List String),
    (∀ l j, idx l = some j ↔ rev[j]? = some l) →
    (rev ++ names.flatMap labelsOf).Nodup →
    ∀ l j, (confIndexAux idx rev rev.length names).1 l = some j ↔
      (rev ++ names.flatMap labelsOf)[j]? = some l := by
  induction names with
  | nil =>
    intro idx rev hinv _ l j
    simpa [confIndexAux] using hinv l j
  | cons n rest ih =>
    intro idx rev hinv hnd l j
    have hdisj : List.Disjoint rev ((n :: rest).flatMap labelsOf) :=
      List.disjoint_of_nodup_append hnd
    unfold confIndexAux
    by_cases hx : includesS n mXYZ = true
    · have hlabn : labelsOf n = [n ++ sufX, n ++ sufY, n ++ sufZ] := by
        simp [labelsOf, hx]
      have hmx : (n ++ sufX) ∈ (n :: rest).flatMap labelsOf := by
        simp only [List.flatMap_cons, List.mem_append, hlabn]
        left
        simp
      have hmy : (n ++ sufY) ∈ (n :: rest).flatMap labelsOf := by
        simp only [List.flatMap_cons, List.mem_append, hlabn]
        left
        simp
      have hmz : (n ++ sufZ) ∈ (n :: rest).flatMap labelsOf := by
        simp only [List.flatMap_cons, List.mem_append, hlabn]
        left
        simp
      have hfx : (n ++ sufX) ∉ rev := fun hm => hdisj hm hmx
      have hfy : (n ++ sufY) ∉ rev := fun hm => hdisj hm hmy
      have hfz : (n ++ sufZ) ∉ rev := fun hm => hdisj hm hmz
      have hyx : n ++ sufY ≠ n ++ sufX :=
        append_suf_ne n n sufY sufX sufY_len sufX_len (Ne.symm sufX_ne_sufY)
      have hzx : n ++ sufZ ≠ n ++ sufX :=
        append_suf_ne n n sufZ sufX sufZ_len sufX_len (Ne.symm sufX_ne_sufZ)
      have hzy : n ++ sufZ ≠ n ++ sufY :=
        append_suf_ne n n sufZ sufY sufZ_len sufY_len (Ne.symm sufY_ne_sufZ)
      have hfy1 : (n ++ sufY) ∉ rev ++ [n ++ sufX] := by
        intro hm
        rcases List.mem_append.mp hm with hm | hm
        · exact hfy hm
        · exact hyx (List.mem_singleton.mp hm)
      have hfz2 : (n ++ sufZ) ∉ (rev ++ [n ++ sufX]) ++ [n ++ sufY] := by
        intro hm
        rcases List.mem_append.mp hm with hm | hm
        · rcases List.mem_append.mp hm with hm | hm
          · exact hfz hm
          · exact hzx (List.mem_singleton.mp hm)
        · exact hzy (List.mem_singleton.mp hm)
      have inv1 := objWrite_inv rev idx (n ++ sufX) hinv hfx
      have inv2 := objWrite_inv (rev ++ [n ++ sufX]) _ (n ++ sufY) inv1 hfy1
      have h1 : (rev ++ [n ++ sufX]).length = rev.length + 1 := by simp
      rw [h1] at inv2
      have inv3 := objWrite_inv ((rev ++ [n ++ sufX]) ++ [n ++ sufY]) _ (n ++ sufZ) inv2 hfz2
      have h2 : ((rev ++ [n ++ sufX]) ++ [n ++ sufY]).length = rev.length + 2 := by simp
      rw [h2] at inv3
      have hr : (((rev ++ [n ++ sufX]) ++ [n ++ sufY]) ++ [n ++ sufZ]) =
          rev ++ [n ++ sufX, n ++ sufY, n ++ sufZ] := by
        simp
      rw [hr] at inv3
      have hnd3 : ((rev ++ [n ++ sufX, n ++ sufY, n ++ sufZ]) ++
          rest.flatMap labelsOf).Nodup := by
        have he : rev ++ (n :: rest).flatMap labelsOf =
            (rev ++ [n ++ sufX, n ++ sufY, n ++ sufZ]) ++ rest.flatMap labelsOf := by
          simp [List.flatMap_cons, hlabn]
        rw [← he]
        exact hnd
      have happ := ih _ (rev ++ [n ++ sufX, n ++ sufY, n ++ sufZ]) inv3 hnd3 l j
      rw [show (rev ++ [n ++ sufX, n ++ sufY, n ++ sufZ]).length = rev.length + 3
        from by simp] at happ
      rw [if_pos hx]
      rw [show rev ++ (n :: rest).flatMap labelsOf =
          (rev ++ [n ++ sufX, n ++ sufY, n ++ sufZ]) ++ rest.flatMap labelsOf
        from by simp [List.flatMap_cons, hlabn]]
      exact happ
    · have hxf : includesS n mXYZ = false := by simpa using hx
      by_cases hz : includesS n mZ = true
      · have hlabn : labelsOf n = [n] := by
          simp [labelsOf, hxf, hz]
        have hmn : n ∈ (n :: rest).flatMap labelsOf := by
          simp only [List.flatMap_cons, List.mem_append, hlabn]
          left
          simp
        have hfn : n ∉ rev := fun hm => hdisj hm hmn
        have inv1 := objWrite_inv rev idx n hinv hfn
        have hnd1 : ((rev ++ [n]) ++ rest.flatMap labelsOf).Nodup := by
          have he : rev ++ (n :: rest).flatMap labelsOf =
              (rev ++ [n]) ++ rest.flatMap labelsOf := by
            simp [List.flatMap_cons, hlabn]
          rw [← he]
          exact hnd
        have happ := ih _ (rev ++ [n]) inv1 hnd1 l j
        rw [show (rev ++ [n]).length = rev.length + 1 from by simp] at happ
        rw [if_neg (by simp [hx]), if_pos hz]
        rw [show rev ++ (n :: rest).flatMap labelsOf = (rev ++ [n]) ++ rest.flatMap labelsOf
          from by simp [List.flatMap_cons, hlabn]]
        exact happ
      · have hzf : includesS n mZ = false := by simpa using hz
        have hlabn : labelsOf n = ([] : List String) := by
          simp [labelsOf, hxf, hzf]
        have hnd1 : (rev ++ rest.flatMap labelsOf).Nodup := by
          have he : rev ++ (n :: rest).flatMap labelsOf = rev ++ rest.flatMap labelsOf := by
            simp [List.flatMap_cons, hlabn]
          rw [← he]
          exact hnd
        rw [if_neg (by simp [hx]), if_neg (by simp [hz])]
        rw [show rev ++ (n :: rest).flatMap labelsOf = rev ++ rest.flatMap labelsOf
          from by simp [List.flatMap_cons, hlabn]]
        exact ih idx rev hinv hnd1 l j

/-! Static properties of the constructed engine. -/

section EngineLemmas

variable {K : Type} [LinearOrderedField K]

theorem sortObjectKeys_perm (keys : List String) : (sortObjectKeys keys).Perm keys :=
  List.perm_insertionSort _ keys

theorem make_map_def (P : ThreeMath K) (t : Object3DK K) (yup : Bool) :
    (Kinematics.make P t yup).map = sortObjectKeys (getNameChildMapKeys t) := rfl

theorem make_map_nodup (P : ThreeMath K) (t : Object3DK K) (yup : Bool) :
    (Kinematics.make P t yup).map.Nodup := by
  rw [make_map_def]
  exact ((sortObjectKeys_perm _).nodup_iff).mpr (List.nodup_dedup _)

theorem mem_make_map (P : ThreeMath K) (t : Object3DK K) (yup : Bool) (n : String) :
    n ∈ (Kinematics.make P t yup).map ↔ n ∈ t.names := by
  rw [make_map_def]
  unfold getNameChildMapKeys
  rw [List.Perm.mem_iff (sortObjectKeys_perm _)]
  exact List.mem_dedup

theorem make_map_sorted (P : ThreeMath K) (t : Object3DK K) (yup : Bool) :
    (Kinematics.make P t yup).map.Pairwise (fun a b : String => a.data ≤ b.data) := by
  rw [make_map_def]
  unfold sortObjectKeys
  haveI : IsTotal String (fun a b => a.data ≤ b.data) :=
    ⟨fun a b => le_total a.data b.data⟩
  haveI : IsTrans String (fun a b => a.data ≤ b.data) :=
    ⟨fun _ _ _ h1 h2 => le_trans h1 h2⟩
  exact List.sorted_insertionSort _ (getNameChildMapKeys t)

theorem make_rev_def (P : ThreeMath K) (t : Object3DK K) (yup : Bool) :
    (Kinematics.make P t yup).qConfigIndexReversed =
      (Kinematics.make P t yup).map.flatMap labelsOf := by
  show (confIndex (sortObjectKeys (getNameChildMapKeys t))).2 = _
  rw [make_map_def]
  unfold confIndex
  simpa using confIndexAux_snd (fun _ => none) [] 0 (sortObjectKeys (getNameChildMapKeys t))

theorem make_len_def (P : ThreeMath K) (t : Object3DK K) (yup : Bool) :
    (Kinematics.make P t yup).qConfigLength =
      (Kinematics.make P t yup).qConfigIndexReversed.length := rfl

theorem make_idx_iff (P : ThreeMath K) (t : Object3DK K) (yup : Bool) :
    ∀ l j, (Kinematics.make P t yup).qConfigIndex l = some j ↔
      (Kinematics.make P t yup).qConfigIndexReversed[j]? = some l := by
  intro l j
  have hnd : (([] : List String) ++
      ((Kinematics.make P t yup).map.flatMap labelsOf)).Nodup := by
    simpa using flatMap_labelsOf_nodup _ (make_map_nodup P t yup)
  have hinv : ∀ (l : String) (j : Nat),
      (fun _ : String => (none : Option Nat)) l = some j ↔ ([] : List String)[j]? = some l := by
    intro l j
    simp
  have h := confIndexAux_fst ((Kinematics.make P t yup).map) (fun _ => none) [] hinv hnd l j
  rw [make_rev_def]
  simpa using h

theorem make_idx_lt (P : ThreeMath K) (t : Object3DK K) (yup : Bool) (l : String) (j : Nat)
    (h : (Kinematics.make P t yup).qConfigIndex l = some j) :
    j < (Kinematics.make P t yup).qConfigLength := by
  have := (make_idx_iff P t yup l j).mp h
  rw [make_len_def]
  exact (List.getElem?_eq_some.mp this).1

end EngineLemmas

/-! Effect of `setConfiguration` on the engine state. -/

section EngineLemmas2

variable {K : Type} [LinearOrderedField K]

theorem sameStatic_refl (a : Kinematics K) : sameStatic a a :=
  ⟨rfl, rfl, rfl, rfl, rfl, rfl⟩

theorem sameStatic_trans {a b c : Kinematics K} (h1 : sameStatic a b) (h2 : sameStatic b c) :
    sameStatic a c := by
  obtain ⟨r1, y1, m1, i1, v1, l1⟩ := h1
  obtain ⟨r2, y2, m2, i2, v2, l2⟩ := h2
  exact ⟨r1.trans r2, y1.trans y2, m1.trans m2, i1.trans i2, v1.trans v2, l1.trans l2⟩

theorem updateMatrixWorldAt_rot (P : ThreeMath K) (kin : Kinematics K) (joint : String) :
    (updateMatrixWorldAt P kin joint).rot = kin.rot := by
  unfold updateMatrixWorldAt
  cases kin.root.findNode joint <;> rfl

theorem updateMatrixWorldAt_static (P : ThreeMath K) (kin : Kinematics K) (joint : String) :
    sameStatic kin (updateMatrixWorldAt P kin joint) := by
  unfold updateMatrixWorldAt
  cases kin.root.findNode joint <;> exact ⟨rfl, rfl, rfl, rfl, rfl, rfl⟩

theorem applyEntry_static (P : ThreeMath K) (kin : Kinematics K) (j : String) (v : JointValue K) :
    sameStatic kin (applyEntry P kin j v) := by
  show sameStatic kin (updateMatrixWorldAt P
    { kin with rot := fun n => if n = j then entryRot kin.yup (kin.rot j) v else kin.rot n } j)
  exact sameStatic_trans (⟨rfl, rfl, rfl, rfl, rfl, rfl⟩ :
    sameStatic kin
      { kin with rot := fun n => if n = j then entryRot kin.yup (kin.rot j) v else kin.rot n })
    (updateMatrixWorldAt_static P _ j)

theorem applyEntry_rot (P : ThreeMath K) (kin : Kinematics K) (j : String) (v : JointValue K) :
    (applyEntry P kin j v).rot =
      fun n => if n = j then entryRot kin.yup (kin.rot j) v else kin.rot n := by
  unfold applyEntry
  rw [updateMatrixWorldAt_rot]

theorem setConfiguration_static (P : ThreeMath K) (q : JointAngles K) :
    ∀ kin kin' : Kinematics K, setConfiguration P kin q = .ok kin' → sameStatic kin kin' := by
  induction q with
  | nil =>
    intro kin kin' h
    unfold setConfiguration at h
    injection h with h
    exact h ▸ sameStatic_refl kin
  | cons kv rest ih =>
    intro kin kin' h
    obtain ⟨k0, v0⟩ := kv
    unfold setConfiguration at h
    by_cases hm : k0 ∈ kin.map
    · rw [if_pos hm] at h
      exact sameStatic_trans (applyEntry_static P kin k0 v0) (ih _ _ h)
    · rw [if_neg hm] at h
      cases h

theorem setConfiguration_isOk_iff (P : ThreeMath K) (q : JointAngles K) :
    ∀ kin : Kinematics K,
      (setConfiguration P kin q).isOk = true ↔ ∀ k ∈ objKeys q, k ∈ kin.map := by
  induction q with
  | nil =>
    intro kin
    simp [setConfiguration, objKeys, Except.isOk, Except.toBool]
  | cons kv rest ih =>
    intro kin
    obtain ⟨k0, v0⟩ := kv
    unfold setConfiguration
    by_cases hm : k0 ∈ kin.map
    · rw [if_pos hm]
      have hmap : (applyEntry P kin k0 v0).map = kin.map :=
        ((applyEntry_static P kin k0 v0).2.2.1).symm
      rw [ih (applyEntry P kin k0 v0), hmap]
      constructor
      · intro hall k hk
        rcases List.mem_cons.mp hk with rfl | hk
        · exact hm
        · exact hall k hk
      · intro hall k hk
        exact hall k (List.mem_cons_of_mem _ hk)
    · rw [if_neg hm]
      constructor
      · intro h
        cases h
      · intro hall
        exact absurd (hall k0 (by simp [objKeys])) hm

theorem setConfiguration_ok_of_keys (P : ThreeMath K) (q : JointAngles K) (kin : Kinematics K)
    (h : ∀ k ∈ objKeys q, k ∈ kin.map) :
    ∃ kin', setConfiguration P kin q = .ok kin' := by
  have := (setConfiguration_isOk_iff P q kin).mpr h
  cases hres : setConfiguration P kin q with
  | ok kin' => exact ⟨kin', rfl⟩
  | error e =>
    rw [hres] at this
    cases this

theorem setConfiguration_error_of_missing (P : ThreeMath K) (q : JointAngles K)
    (kin : Kinematics K) (k : String) (hk : k ∈ objKeys q) (hm : k ∉ kin.map) :
    setConfiguration P kin q = .error () := by
  cases hres : setConfiguration P kin q with
  | ok kin' =>
    have := (setConfiguration_isOk_iff P q kin).mp (by rw [hres]; rfl)
    exact absurd (this k hk) hm
  | error e =>
    cases e
    rfl

theorem setConfiguration_rot_nodup (P : ThreeMath K) (q : JointAngles K)
    (hnod : (objKeys q).Nodup) :
    ∀ kin kin' : Kinematics K, setConfiguration P kin q = .ok kin' →
      ∀ n, kin'.rot n =
        match objGet q n with
        | some v => entryRot kin.yup (kin.rot n) v
        | none => kin.rot n := by
  induction q with
  | nil =>
    intro kin kin' h n
    unfold setConfiguration at h
    injection h with h
    subst h
    simp [objGet]
  | cons kv rest ih =>
    intro kin kin' h n
    obtain ⟨k0, v0⟩ := kv
    unfold setConfiguration at h
    by_cases hm : k0 ∈ kin.map
    · rw [if_pos hm] at h
      have hnod' : (objKeys rest).Nodup := by
        simp [objKeys] at hnod
        exact hnod.2
      have hk0 : k0 ∉ objKeys rest := by
        simp [objKeys] at hnod
        intro hmem
        obtain ⟨v, hv⟩ := by
          simpa [objKeys] using hmem
        exact hnod.1 v hv
      have hrec := ih hnod' _ _ h
      have hyup : (applyEntry P kin k0 v0).yup = kin.yup :=
        ((applyEntry_static P kin k0 v0).2.1).symm
      have happ : ∀ m, (applyEntry P kin k0 v0).rot m =
          if m = k0 then entryRot kin.yup (kin.rot k0) v0 else kin.rot m := by
        intro m
        rw [applyEntry_rot]
      by_cases hn : k0 = n
      · subst hn
        have hget : objGet rest k0 = none := (objGet_none_iff rest k0).mpr hk0
        have hr := hrec k0
        simp only [hget] at hr
        simp only [objGet, if_pos rfl]
        rw [hr, happ, if_pos rfl]
        simp
      · have hr := hrec n
        have hne : ¬ n = k0 := fun he => hn he.symm
        simp only [objGet, if_neg hn]
        cases hob : objGet rest n with
        | none =>
          simp only [hob] at hr
          rw [hr, happ, if_neg hne]
        | some v =>
          simp only [hob] at hr
          rw [hr, happ, if_neg hne, hyup]
    · rw [if_neg hm] at h
      cases h

theorem setConfiguration_rot_z_yup (P : ThreeMath K) (q : JointAngles K)
    (hq : ∀ kv ∈ q, ∀ r, kv.2 = .rot r → ¬ readsZ kv.1) :
    ∀ kin kin' : Kinematics K, kin.yup = true → setConfiguration P kin q = .ok kin' →
      ∀ n, readsZ n → (kin'.rot n).z = (kin.rot n).z := by
  induction q with
  | nil =>
    intro kin kin' _ h n _
    unfold setConfiguration at h
    injection h with h
    subst h
    rfl
  | cons kv rest ih =>
    intro kin kin' hyup h n hreads
    obtain ⟨k0, v0⟩ := kv
    unfold setConfiguration at h
    by_cases hm : k0 ∈ kin.map
    · rw [if_pos hm] at h
      have hq' : ∀ kv ∈ rest, ∀ r, kv.2 = .rot r → ¬ readsZ kv.1 := by
        intro kv hkv
        exact hq kv (List.mem_cons_of_mem _ hkv)
      have hyup1 : (applyEntry P kin k0 v0).yup = true :=
        ((applyEntry_static P kin k0 v0).2.1).symm.trans hyup
      have hrec := ih hq' _ _ hyup1 h n hreads
      have happ : (applyEntry P kin k0 v0).rot n =
          if n = k0 then entryRot kin.yup (kin.rot k0) v0 else kin.rot n := by
        rw [applyEntry_rot]
      rw [hrec, happ]
      by_cases hn : n = k0
      · subst hn
        rw [if_pos rfl]
        cases v0 with
        | num v =>
          unfold entryRot
          rw [hyup]
          rfl
        | rot r =>
          exact absurd hreads (hq (n, .rot r) (by simp) r rfl)
      · rw [if_neg hn]
    · rw [if_neg hm] at h
      cases h

end EngineLemmas2

/-! Characterization of `getCurrentStateConfig` and the FK restore protocol. -/

section EngineLemmas3

variable {K : Type} [LinearOrderedField K]

theorem gcsc_step_eq (kin : Kinematics K) (q : JointAngles K) (name : String) :
    (if startsWithS name mRJoint then
       if includesS name mXYZ then objSet q name (JointValue.rot (kin.rot name))
       else if includesS name mZ then objSet q name (JointValue.num (kin.rot name).z)
       else q
     else q) =
      match gcscVal kin name with
      | some v => objSet q name v
      | none => q := by
  unfold gcscVal
  by_cases h1 : startsWithS name mRJoint = true
  · by_cases h2 : includesS name mXYZ = true
    · simp [h1, h2]
    · by_cases h3 : includesS name mZ = true <;>
        simp [h1, h2, h3]
  · simp [h1]

theorem gcsc_fold_objGet (kin : Kinematics K) (names : List String) :
    ∀ (acc : JointAngles K) (n : String),
      objGet (names.foldl
        (fun q name =>
          if startsWithS name mRJoint then
            if includesS name mXYZ then objSet q name (JointValue.rot (kin.rot name))
            else if includesS name mZ then objSet q name (JointValue.num (kin.rot name).z)
            else q
          else q) acc) n =
        match gcscVal kin n with
        | some v => if n ∈ names then some v else objGet acc n
        | none => objGet acc n := by
  induction names with
  | nil =>
    intro acc n
    cases gcscVal kin n <;> simp
  | cons name rest ih =>
    intro acc n
    rw [List.foldl_cons]
    rw [show (if startsWithS name mRJoint then
          if includesS name mXYZ then objSet acc name (JointValue.rot (kin.rot name))
          else if includesS name mZ then objSet acc name (JointValue.num (kin.rot name).z)
          else acc
        else acc) =
        match gcscVal kin name with
        | some v => objSet acc name v
        | none => acc from gcsc_step_eq kin acc name]
    rw [ih]
    by_cases hn : name = n
    · subst hn
      cases hval : gcscVal kin name with
      | some v =>
        by_cases hr : name ∈ rest <;>
          simp [hr, objGet_objSet]
      | none => simp
    · have hne2 : ¬ n = name := fun he => hn he.symm
      cases hvn : gcscVal kin name with
      | some w =>
        cases hval : gcscVal kin n with
        | some v => simp [List.mem_cons, hne2, objGet_objSet, hn]
        | none => simp [objGet_objSet, hn]
      | none =>
        cases hval : gcscVal kin n with
        | some v => simp [List.mem_cons, hne2]
        | none => rfl

theorem objGet_gcsc (kin : Kinematics K) (n : String) :
    objGet (getCurrentStateConfig kin) n = if n ∈ kin.map then gcscVal kin n else none := by
  unfold getCurrentStateConfig
  rw [gcsc_fold_objGet]
  cases hval : gcscVal kin n with
  | some v =>
    by_cases hm : n ∈ kin.map <;> simp [hm, objGet]
  | none =>
    by_cases hm : n ∈ kin.map <;> simp [hm, objGet]

theorem gcsc_keys_nodup (kin : Kinematics K) :
    (objKeys (getCurrentStateConfig kin)).Nodup := by
  unfold getCurrentStateConfig
  have : ∀ (names : List String) (acc : JointAngles K), (objKeys acc).Nodup →
      (objKeys (names.foldl
        (fun q name =>
          if startsWithS name mRJoint then
            if includesS name mXYZ then objSet q name (JointValue.rot (kin.rot name))
            else if includesS name mZ then objSet q name (JointValue.num (kin.rot name).z)
            else q
          else q) acc)).Nodup := by
    intro names
    induction names with
    | nil =>
      intro acc h
      exact h
    | cons name rest ih =>
      intro acc h
      rw [List.foldl_cons]
      apply ih
      rw [gcsc_step_eq]
      cases gcscVal kin name with
      | some v => exact objKeys_objSet_nodup acc name v h
      | none => exact h
  exact this kin.map [] (by simp [objKeys])

theorem gcsc_keys_sub (kin : Kinematics K) :
    ∀ k ∈ objKeys (getCurrentStateConfig kin), k ∈ kin.map := by
  intro k hk
  by_contra hm
  have h := objGet_gcsc kin k
  rw [if_neg hm] at h
  exact (objGet_none_iff _ _).mp h hk

theorem gcsc_congr (kin kin' : Kinematics K) (hmap : kin'.map = kin.map)
    (hval : ∀ n ∈ kin.map, gcscVal kin' n = gcscVal kin n) :
    getCurrentStateConfig kin' = getCurrentStateConfig kin := by
  unfold getCurrentStateConfig
  rw [hmap]
  have : ∀ (names : List String), (∀ n ∈ names, gcscVal kin' n = gcscVal kin n) →
      ∀ (acc : JointAngles K),
      (names.foldl
        (fun q name =>
          if startsWithS name mRJoint then
            if includesS name mXYZ then objSet q name (JointValue.rot (kin'.rot name))
            else if includesS name mZ then objSet q name (JointValue.num (kin'.rot name).z)
            else q
          else q) acc) =
      (names.foldl
        (fun q name =>
          if startsWithS name mRJoint then
            if includesS name mXYZ then objSet q name (JointValue.rot (kin.rot name))
            else if includesS name mZ then objSet q name (JointValue.num (kin.rot name).z)
            else q
          else q) acc) := by
    intro names
    induction names with
    | nil =>
      intro _ acc
      rfl
    | cons name rest ih =>
      intro hv acc
      rw [List.foldl_cons, List.foldl_cons]
      rw [show (if startsWithS name mRJoint then
            if includesS name mXYZ then objSet acc name (JointValue.rot (kin'.rot name))
            else if includesS name mZ then objSet acc name (JointValue.num (kin'.rot name).z)
            else acc
          else acc) =
          match gcscVal kin' name with
          | some v => objSet acc name v
          | none => acc from gcsc_step_eq kin' acc name]
      rw [show (if startsWithS name mRJoint then
            if includesS name mXYZ then objSet acc name (JointValue.rot (kin.rot name))
            else if includesS name mZ then objSet acc name (JointValue.num (kin.rot name).z)
            else acc
          else acc) =
          match gcscVal kin name with
          | some v => objSet acc name v
          | none => acc from gcsc_step_eq kin acc name]
      rw [hv name (by simp)]
      exact ih (fun n hn => hv n (List.mem_cons_of_mem _ hn)) _
  exact this kin.map hval []

end EngineLemmas3

/-! Forward kinematics: snapshot coverage, success, and restoration. -/

section EngineLemmas4

variable {K : Type} [LinearOrderedField K]

theorem exceptBind_ok {a b : Type} (x : a) (f : a → Except Unit b) :
    (Except.ok x >>= f) = f x := rfl

theorem exceptPure_eq {a : Type} (x : a) : (pure x : Except Unit a) = Except.ok x := rfl

theorem fkRec_isSome (kin : Kinematics K) :
    ∀ t : Object3DK K, ∀ (acc : List (String × Matrix4K K)) (n : String),
      ((objGet acc n).isSome = true ∨ n ∈ t.names) →
      (objGet (forwardKinematicsRec kin t acc) n).isSome = true := by
  intro t
  induction t using Object3DK.inductOn with
  | h nm rt cs ih =>
    have inner : ∀ cs' : List (Object3DK K),
        (∀ c ∈ cs', ∀ (acc : List (String × Matrix4K K)) (n : String),
          ((objGet acc n).isSome = true ∨ n ∈ c.names) →
          (objGet (forwardKinematicsRec kin c acc) n).isSome = true) →
        ∀ (acc : List (String × Matrix4K K)) (n : String),
          ((objGet acc n).isSome = true ∨ n ∈ Object3DK.namesList cs') →
          (objGet (forwardKinematicsRecList kin cs' acc) n).isSome = true := by
      intro cs'
      induction cs' with
      | nil =>
        intro _ acc n hor
        rcases hor with hs | hmem
        · exact hs
        · simp [Object3DK.namesList] at hmem
      | cons c rest ihl =>
        intro hall acc n hor
        unfold forwardKinematicsRecList
        apply ihl (fun c hc => hall c (List.mem_cons_of_mem _ hc))
        rcases hor with hs | hmem
        · exact Or.inl (hall c (by simp) acc n (Or.inl hs))
        · unfold Object3DK.namesList at hmem
          rcases List.mem_append.mp hmem with hmem | hmem
          · exact Or.inl (hall c (by simp) acc n (Or.inr hmem))
          · exact Or.inr hmem
    intro acc n hor
    unfold forwardKinematicsRec
    apply inner cs ih
    rcases hor with hs | hmem
    · left
      rw [objGet_objSet]
      by_cases he : nm = n <;> simp [he, hs]
    · unfold Object3DK.names at hmem
      rcases List.mem_cons.mp hmem with rfl | hmem
      · left
        rw [objGet_objSet]
        simp
      · exact Or.inr hmem

theorem forwardKinematics_ok (P : ThreeMath K) (kin : Kinematics K) (q : JointAngles K)
    (A : Matrix4K K) (h : ∀ k ∈ objKeys q, k ∈ kin.map) :
    ∃ links kin2, forwardKinematics P kin q A = .ok (links, kin2) ∧ sameStatic kin kin2 ∧
      ∀ n ∈ kin.root.names, (objGet links n).isSome = true := by
  obtain ⟨kin1, h1⟩ := setConfiguration_ok_of_keys P q kin h
  have hs1 := setConfiguration_static P q kin kin1 h1
  have hkeys_old : ∀ k ∈ objKeys (getCurrentStateConfig kin), k ∈ kin1.map := by
    intro k hk
    rw [← hs1.2.2.1]
    exact gcsc_keys_sub kin k hk
  obtain ⟨kin2, h2⟩ := setConfiguration_ok_of_keys P _ kin1 hkeys_old
  refine ⟨forwardKinematicsRec kin1 kin1.root [], kin2, ?_,
    sameStatic_trans hs1 (setConfiguration_static P _ kin1 kin2 h2), ?_⟩
  · simp only [forwardKinematics, h1, exceptBind_ok, h2]
    rfl
  · intro n hn
    apply fkRec_isSome
    right
    rw [← hs1.1]
    exact hn

theorem forwardKinematics_restores (P : ThreeMath K) (kin : Kinematics K) (q : JointAngles K)
    (A : Matrix4K K)
    (hkeys : ∀ kv ∈ q, kv.1 ∈ kin.map)
    (hshape : ∀ kv ∈ q, ∀ r, kv.2 = JointValue.rot r → ¬ readsZ kv.1) :
    Except.map (fun x => getCurrentStateConfig x.2) (forwardKinematics P kin q A) =
      .ok (getCurrentStateConfig kin) := by
  have hkeys' : ∀ k ∈ objKeys q, k ∈ kin.map := by
    intro k hk
    obtain ⟨kv, hkv, hfst⟩ := List.mem_map.mp (show k ∈ q.map Prod.fst from hk)
    exact hfst ▸ hkeys kv hkv
  obtain ⟨kin1, h1⟩ := setConfiguration_ok_of_keys P q kin hkeys'
  have hs1 := setConfiguration_static P q kin kin1 h1
  have hkeys_old : ∀ k ∈ objKeys (getCurrentStateConfig kin), k ∈ kin1.map := by
    intro k hk
    rw [← hs1.2.2.1]
    exact gcsc_keys_sub kin k hk
  obtain ⟨kin2, h2⟩ := setConfiguration_ok_of_keys P _ kin1 hkeys_old
  have hs2 := setConfiguration_static P _ kin1 kin2 h2
  have hmap2 : kin2.map = kin.map := (sameStatic_trans hs1 hs2).2.2.1.symm
  have hrestore := setConfiguration_rot_nodup P (getCurrentStateConfig kin)
    (gcsc_keys_nodup kin) kin1 kin2 h2
  have hyup1 : kin1.yup = kin.yup := hs1.2.1.symm
  have hgc : getCurrentStateConfig kin2 = getCurrentStateConfig kin := by
    apply gcsc_congr kin kin2 hmap2
    intro n hn
    have hold := objGet_gcsc kin n
    rw [if_pos hn] at hold
    unfold gcscVal
    by_cases hpre : startsWithS n mRJoint = true
    · by_cases hxyz : includesS n mXYZ = true
      · have hval : gcscVal kin n = some (.rot (kin.rot n)) := by
          unfold gcscVal
          rw [if_pos hpre, if_pos hxyz]
        have hget : objGet (getCurrentStateConfig kin) n = some (.rot (kin.rot n)) :=
          hold.trans hval
        have hr := hrestore n
        rw [hget] at hr
        have : kin2.rot n = kin.rot n := by
          rw [hr]
          unfold entryRot
          rfl
        rw [if_pos hpre, if_pos hxyz, if_pos hpre, if_pos hxyz, this]
      · by_cases hz : includesS n mZ = true
        · have hreads : readsZ n := ⟨hpre, by simpa using hxyz, hz⟩
          have hval : gcscVal kin n = some (.num (kin.rot n).z) := by
            unfold gcscVal
            rw [if_pos hpre, if_neg hxyz, if_pos hz]
          have hget : objGet (getCurrentStateConfig kin) n = some (.num (kin.rot n).z) :=
            hold.trans hval
          have hr := hrestore n
          rw [hget] at hr
          have hzeq : (kin2.rot n).z = (kin.rot n).z := by
            rw [hr]
            unfold entryRot
            cases hyup : kin.yup with
            | false =>
              rw [hyup1, hyup]
              rfl
            | true =>
              rw [hyup1, hyup]
              simp only [Bool.not_true, Bool.false_eq_true, if_false]
              exact setConfiguration_rot_z_yup P q hshape kin kin1 hyup h1 n hreads
          rw [if_pos hpre, if_neg hxyz, if_pos hz, if_pos hpre, if_neg hxyz, if_pos hz, hzeq]
        · rw [if_pos hpre, if_neg hxyz, if_neg hz, if_pos hpre, if_neg hxyz, if_neg hz]
    · rw [if_neg hpre, if_neg hpre]
  calc Except.map (fun x => getCurrentStateConfig x.2) (forwardKinematics P kin q A)
      = .ok (getCurrentStateConfig kin2) := by
        simp only [forwardKinematics, h1, exceptBind_ok, h2]
        rfl
    _ = .ok (getCurrentStateConfig kin) := by rw [hgc]

end EngineLemmas4

/-! Small helpers on object keys and error propagation. -/

section EngineLemmas5

variable {K : Type} [LinearOrderedField K]

theorem mem_objKeys_objSet_self {α : Type} (q : List (String × α)) (k : String) (v : α) :
    k ∈ objKeys (objSet q k v) := by
  rw [objKeys_objSet]
  by_cases h : k ∈ objKeys q <;> simp [h]

theorem mem_objKeys_objSet_of {α : Type} (q : List (String × α)) (k k' : String) (v : α)
    (h : k ∈ objKeys q) : k ∈ objKeys (objSet q k' v) := by
  rw [objKeys_objSet]
  by_cases h' : k' ∈ objKeys q <;> simp [h', h]

theorem fk_error_of_set_error (P : ThreeMath K) (kin : Kinematics K) (q : JointAngles K)
    (A : Matrix4K K) (h : setConfiguration P kin q = .error ()) :
    forwardKinematics P kin q A = .error () := by
  unfold forwardKinematics
  rw [h]
  rfl

theorem isRotV_shape (kv : String × JointValue K)
    (h : kv.2.isNum = true ∨ ¬ readsZ kv.1) :
    ∀ r, kv.2 = JointValue.rot r → ¬ readsZ kv.1 := by
  intro r hr
  rcases h with h | h
  · rw [hr] at h
    cases h
  · exact h

end EngineLemmas5



/-! Preservation of the static construction data through every operation. -/

section EngineLemmas6

variable {K : Type} [LinearOrderedField K]

theorem exceptBind_error {a b : Type} (e : Unit) (f : a → Except Unit b) :
    ((Except.error e : Except Unit a) >>= f) = Except.error e := rfl

theorem forwardKinematics_static (P : ThreeMath K) (kin : Kinematics K) (q : JointAngles K)
    (A : Matrix4K K) (links : List (String × Matrix4K K)) (kin2 : Kinematics K)
    (h : forwardKinematics P kin q A = .ok (links, kin2)) : sameStatic kin kin2 := by
  unfold forwardKinematics at h
  cases h1 : setConfiguration P kin q with
  | error e =>
    rw [h1, exceptBind_error] at h
    cases h
  | ok kin1 =>
    rw [h1, exceptBind_ok] at h
    cases h2 : setConfiguration P kin1 (getCurrentStateConfig kin) with
    | error e =>
      rw [h2, exceptBind_error] at h
      cases h
    | ok kin2' =>
      rw [h2, exceptBind_ok] at h
      injection h with h
      injection h with hl hk
      exact hk ▸ sameStatic_trans (setConfiguration_static P q kin kin1 h1)
        (setConfiguration_static P _ kin1 kin2' h2)

theorem foldlM_except_inv {sigma beta : Type} (R : sigma → sigma → Prop)
    (hrefl : ∀ S, R S S) (htrans : ∀ a b c, R a b → R b c → R a c)
    (f : sigma → beta → Except Unit sigma)
    (hf : ∀ S d S', f S d = .ok S' → R S S') :
    ∀ (l : List beta) (S S' : sigma), l.foldlM f S = .ok S' → R S S' := by
  intro l
  induction l with
  | nil =>
    intro S S' h
    rw [List.foldlM_nil] at h
    injection h with h
    exact h ▸ hrefl S
  | cons d ds ih =>
    intro S S' h
    rw [List.foldlM_cons] at h
    cases h1 : f S d with
    | error e =>
      rw [h1, exceptBind_error] at h
      cases h
    | ok S1 =>
      rw [h1, exceptBind_ok] at h
      exact htrans _ _ _ (hf S d S1 h1) (ih S1 S' h)

theorem ikDofStep_static (P : ThreeMath K) (joint : String) (target : Vector3K K)
    (A : Matrix4K K) (alpha : K) (jointName : String) (S : IKState K) (dof : String)
    (S' : IKState K) (h : ikDofStep P joint target A alpha jointName S dof = .ok S') :
    sameStatic S.kin S'.kin := by
  simp only [ikDofStep] at h
  repeat' split at h
  all_goals
    first
      | (injection h with h
         exact h ▸ sameStatic_refl _)
      | (injection h with h
         subst h
         exact forwardKinematics_static P S.kin _ A _ _ (by assumption))
      | cases h
      | exact sameStatic_refl _

theorem ikJointStep_static (P : ThreeMath K) (joint : String) (target : Vector3K K)
    (A : Matrix4K K) (alpha : K) (S : IKState K) (jointName : String) (S' : IKState K)
    (h : ikJointStep P joint target A alpha S jointName = .ok S') :
    sameStatic S.kin S'.kin := by
  unfold ikJointStep at h
  exact foldlM_except_inv (fun a b => sameStatic a.kin b.kin) (fun S => sameStatic_refl _)
    (fun a b c => sameStatic_trans) _
    (fun S d S' hs => ikDofStep_static P joint target A alpha jointName S d S' hs) _ S S' h

theorem ikSweep_static (P : ThreeMath K) (joint : String) (target : Vector3K K)
    (A : Matrix4K K) (alpha : K) (chain : List String) (S S' : IKState K)
    (h : ikSweep P joint target A alpha chain S = .ok S') :
    sameStatic S.kin S'.kin := by
  unfold ikSweep at h
  exact foldlM_except_inv (fun a b => sameStatic a.kin b.kin) (fun S => sameStatic_refl _)
    (fun a b c => sameStatic_trans) _
    (fun S d S' hs => ikJointStep_static P joint target A alpha S d S' hs) _ S S' h

theorem ikLoopAux_static (P : ThreeMath K) (joint : String) (target : Vector3K K)
    (A : Matrix4K K) (alpha limit : K) (chain : List String) :
    ∀ (fuel : Nat) (S : IKState K) (count : Nat) (S' : IKState K) (count' : Nat),
      ikLoopAux P joint target A alpha limit chain fuel S count = .ok (S', count') →
      sameStatic S.kin S'.kin := by
  intro fuel
  induction fuel with
  | zero =>
    intro S count S' count' h
    unfold ikLoopAux at h
    injection h with h
    injection h with h1 h2
    exact h1 ▸ sameStatic_refl _
  | succ n ih =>
    intro S count S' count' h
    unfold ikLoopAux at h
    split at h
    · cases hsw : ikSweep P joint target A alpha chain S with
      | error e =>
        rw [hsw] at h
        cases h
      | ok S1 =>
        rw [hsw] at h
        exact sameStatic_trans (ikSweep_static P joint target A alpha chain S S1 hsw)
          (ih S1 (count + 1) S' count' h)
    · injection h with h
      injection h with h1 h2
      exact h1 ▸ sameStatic_refl _

theorem inverseKinematics_static (P : ThreeMath K) (kin : Kinematics K) (q : JointAngles K)
    (joint : String) (target : Vector3K K) (A : Matrix4K K) (alpha limit : K)
    (maxIterations : Nat) (out : IKOut K)
    (h : inverseKinematics P kin q joint target A alpha limit maxIterations = .ok out) :
    sameStatic kin out.kin := by
  simp only [inverseKinematics] at h
  split at h
  · cases h
  · rename_i q1 hq1
    split at h
    · cases h
    · rename_i fk hfk
      split at h
      · cases h
      · split at h
        · cases h
        · rename_i S count hloop
          split at h
          · cases h
          · injection h with h
            subst h
            exact sameStatic_trans (forwardKinematics_static P kin q1 A fk.1 fk.2 hfk)
              (ikLoopAux_static P joint target A alpha limit _ _ _ _ _ _ hloop)

theorem calcJacobian_static (P : ThreeMath K) (kin : Kinematics K) (q : JointAngles K)
    (joint : String) (pos : Vector3K K) (dq : K) (A : Matrix4K K)
    (jac : List (Vector3K K)) (kin2 : Kinematics K)
    (h : calcJacobian P kin q joint pos dq A = .ok (jac, kin2)) : sameStatic kin kin2 := by
  unfold calcJacobian at h
  refine foldlM_except_inv (fun a b : List (Vector3K K) × Kinematics K => sameStatic a.2 b.2)
    (fun S => sameStatic_refl _) (fun a b c => sameStatic_trans) _
    ?_ (List.range kin.qConfigLength) ([], kin) (jac, kin2) h
  intro S d S' hs
  simp only [] at hs
  split at hs
  · cases hs
  · rename_i q2 hq2
    split at hs
    · cases hs
    · rename_i fk hfk
      split at hs
      · cases hs
      · injection hs with hs
        subst hs
        exact forwardKinematics_static P S.2 q2 A fk.1 fk.2 hfk

end EngineLemmas6

/-! Chain extraction: path facts and the loop characterization. -/

section EngineLemmas7

variable {K : Type} [LinearOrderedField K]

theorem pathToList_spec (e : String) :
    ∀ cs : List (Object3DK K), (∀ c ∈ cs, ∀ p, Object3DK.pathTo c e = some p →
        p.getLast? = some e ∧ p.Sublist c.names ∧ ∃ p', p = c.name :: p') →
      ∀ p0, Object3DK.pathToList cs e = some p0 →
        p0.getLast? = some e ∧ p0.Sublist (Object3DK.namesList cs) := by
  intro cs
  induction cs with
  | nil =>
    intro _ p0 h
    unfold Object3DK.pathToList at h
    cases h
  | cons c rest ih =>
    intro hall p0 h
    unfold Object3DK.pathToList at h
    cases hc : Object3DK.pathTo c e with
    | some p =>
      rw [hc] at h
      injection h with h
      subst h
      obtain ⟨hlast, hsub, _⟩ := hall c (by simp) p hc
      refine ⟨hlast, ?_⟩
      unfold Object3DK.namesList
      exact hsub.trans (List.sublist_append_left _ _)
    | none =>
      rw [hc] at h
      obtain ⟨hlast, hsub⟩ := ih (fun c hc => hall c (List.mem_cons_of_mem _ hc)) p0 h
      refine ⟨hlast, ?_⟩
      unfold Object3DK.namesList
      exact hsub.trans (List.sublist_append_right _ _)

theorem pathTo_spec (e : String) :
    ∀ t : Object3DK K, ∀ p, Object3DK.pathTo t e = some p →
      p.getLast? = some e ∧ p.Sublist t.names ∧ ∃ p', p = t.name :: p' := by
  intro t
  induction t using Object3DK.inductOn with
  | h nm rt cs ih =>
    intro p h
    unfold Object3DK.pathTo at h
    by_cases he : nm = e
    · rw [if_pos he] at h
      injection h with h
      subst h
      subst he
      exact ⟨rfl, by
        unfold Object3DK.names
        simp [Object3DK.name], ⟨[], rfl⟩⟩
    · rw [if_neg he] at h
      cases hc : Object3DK.pathToList cs e with
      | none =>
        rw [hc] at h
        cases h
      | some p0 =>
        rw [hc] at h
        injection h with h
        subst h
        obtain ⟨hlast, hsub⟩ := pathToList_spec e cs ih p0 hc
        refine ⟨?_, ?_, ⟨p0, rfl⟩⟩
        · cases p0 with
          | nil => cases hlast
          | cons a rest => simpa using hlast
        · unfold Object3DK.names
          show (nm :: p0).Sublist (nm :: Object3DK.namesList cs)
          exact List.Sublist.cons₂ nm hsub

theorem pathToList_isSome (e : String) :
    ∀ cs : List (Object3DK K), (∀ c ∈ cs, (Object3DK.pathTo c e).isSome ↔ e ∈ c.names) →
      ((Object3DK.pathToList cs e).isSome ↔ e ∈ Object3DK.namesList cs) := by
  intro cs
  induction cs with
  | nil =>
    intro _
    unfold Object3DK.pathToList Object3DK.namesList
    simp
  | cons c rest ih =>
    intro hall
    unfold Object3DK.pathToList Object3DK.namesList
    cases hc : Object3DK.pathTo c e with
    | some p =>
      have : e ∈ c.names := (hall c (by simp)).mp (by rw [hc]; rfl)
      simp [this]
    | none =>
      have hne : e ∉ c.names := by
        intro hmem
        have := (hall c (by simp)).mpr hmem
        rw [hc] at this
        cases this
      rw [ih (fun c hc => hall c (List.mem_cons_of_mem _ hc))]
      simp [hne]

theorem pathTo_isSome (e : String) :
    ∀ t : Object3DK K, (Object3DK.pathTo t e).isSome ↔ e ∈ t.names := by
  intro t
  induction t using Object3DK.inductOn with
  | h nm rt cs ih =>
    unfold Object3DK.pathTo Object3DK.names
    by_cases he : nm = e
    · simp [he]
    · rw [if_neg he]
      have hiff := pathToList_isSome e cs ih
      simp only [List.mem_cons]
      cases hpl : Object3DK.pathToList cs e with
      | some p =>
        have hm : e ∈ Object3DK.namesList cs := hiff.mp (by rw [hpl]; rfl)
        simp [hpl, hm]
      | none =>
        rw [hpl] at hiff
        simp only [Option.isSome_none] at hiff
        have hm : e ∉ Object3DK.namesList cs := by
          intro hmem
          exact absurd (hiff.mpr hmem) (by simp)
        simp [hpl, hm]
        exact fun h => he h.symm

theorem chainLoopAux_no_root (rootName : String) :
    ∀ (l : List String) (acc : List String), rootName ∉ l →
      chainLoopAux rootName acc l = acc ++ l.filter (fun a => startsWithS a mRJoint) := by
  intro l
  induction l with
  | nil =>
    intro acc _
    simp [chainLoopAux]
  | cons a rest ih =>
    intro acc hnr
    have hane : ¬ a = rootName := fun he => hnr (he ▸ List.mem_cons_self a rest)
    have hrest : rootName ∉ rest := fun hm => hnr (List.mem_cons_of_mem _ hm)
    unfold chainLoopAux
    rw [if_neg hane]
    rw [ih _ hrest]
    by_cases hp : startsWithS a mRJoint = true <;>
      simp [hp, List.filter_cons]

theorem chainLoopAux_stops (rootName : String) :
    ∀ (l1 l2 : List String) (acc : List String), rootName ∉ l1 →
      chainLoopAux rootName acc (l1 ++ rootName :: l2) =
        acc ++ l1.filter (fun a => startsWithS a mRJoint) := by
  intro l1
  induction l1 with
  | nil =>
    intro l2 acc _
    unfold chainLoopAux
    simp
  | cons a rest ih =>
    intro l2 acc hnr
    have hane : ¬ a = rootName := fun he => hnr (he ▸ List.mem_cons_self a rest)
    have hrest : rootName ∉ rest := fun hm => hnr (List.mem_cons_of_mem _ hm)
    show chainLoopAux rootName _ (a :: (rest ++ rootName :: l2)) = _
    unfold chainLoopAux
    rw [if_neg hane]
    rw [ih _ _ hrest]
    by_cases hp : startsWithS a mRJoint = true <;>
      simp [hp, List.filter_cons]

/-- Formula for `getChain` on a duplicate-free tree: the `RJoint_`-filtered
strict ancestors below the root, base first, followed by the effector. -/
theorem getChain_eq (P : ThreeMath K) (t : Object3DK K) (yup : Bool) (e : String)
    (hnd : t.names.Nodup) :
    getChain (Kinematics.make P t yup) e =
      (ancestorsBelowRoot t e).filter (fun a => startsWithS a mRJoint) ++ [e] := by
  have hroot : (Kinematics.make P t yup).root = t := rfl
  cases hp : Object3DK.pathTo t e with
  | none =>
    unfold getChain ancestorsBelowRoot
    rw [hroot, hp]
    simp [chainLoopAux]
  | some p =>
    obtain ⟨hlast, hsub, p', hp'⟩ := pathTo_spec e t p hp
    subst hp'
    have hpnd : (t.name :: p').Nodup := hnd.sublist hsub
    cases p' with
    | nil =>
      have hte : t.name = e := by simpa using hlast
      unfold getChain ancestorsBelowRoot
      rw [hroot, hp]
      simp [chainLoopAux, hte]
    | cons y rest =>
      unfold getChain ancestorsBelowRoot
      rw [hroot, hp]
      simp only [Option.getD_some]
      have hnr : t.name ∉ ((y :: rest).dropLast).reverse := by
        intro hm
        have hm2 : t.name ∈ (y :: rest).dropLast := by simpa using hm
        have hm3 : t.name ∈ y :: rest := (List.dropLast_sublist _).mem hm2
        exact (List.nodup_cons.mp hpnd).1 hm3
      have hstop := chainLoopAux_stops t.name (((y :: rest).dropLast).reverse) [] [e] hnr
      have hups : ((t.name :: y :: rest).dropLast).reverse =
          ((y :: rest).dropLast).reverse ++ t.name :: [] := by
        simp
      rw [hups, hstop]
      rw [show ([e] ++ List.filter (fun a => startsWithS a mRJoint)
          ((y :: rest).dropLast).reverse).reverse =
          (List.filter (fun a => startsWithS a mRJoint) ((y :: rest).dropLast).reverse).reverse
            ++ [e] from by simp]
      rw [← List.filter_reverse, List.reverse_reverse]
      simp

end EngineLemmas7




/-! Reconstruction of a configuration from a full vector. -/

section EngineLemmas8

variable {K : Type} [LinearOrderedField K]

theorem objGet_append {α : Type} (q1 q2 : List (String × α)) (k : String) :
    objGet (q1 ++ q2) k =
      match objGet q1 k with
      | some v => some v
      | none => objGet q2 k := by
  induction q1 with
  | nil => simp [objGet]
  | cons kv rest ih =>
    obtain ⟨k0, v0⟩ := kv
    by_cases h : k0 = k
    · subst h
      simp [objGet]
    · simp [objGet, h, ih]

theorem objSet_fresh {α : Type} (q : List (String × α)) (k : String) (v : α)
    (h : k ∉ objKeys q) : objSet q k v = q ++ [(k, v)] := by
  induction q with
  | nil => simp [objSet]
  | cons kv rest ih =>
    obtain ⟨k0, v0⟩ := kv
    have hk : ¬ k0 = k := by
      intro he
      exact h (he ▸ (by simp [objKeys]))
    have hrest : k ∉ objKeys rest := fun hm => h (by simp [objKeys] at hm ⊢; exact Or.inr hm)
    simp [objSet, hk, ih hrest]

theorem objSet_last {α : Type} (q : List (String × α)) (k : String) (v v' : α)
    (h : k ∉ objKeys q) : objSet (q ++ [(k, v)]) k v' = q ++ [(k, v')] := by
  induction q with
  | nil => simp [objSet]
  | cons kv rest ih =>
    obtain ⟨k0, v0⟩ := kv
    have hk : ¬ k0 = k := by
      intro he
      exact h (he ▸ (by simp [objKeys]))
    have hrest : k ∉ objKeys rest := fun hm => h (by simp [objKeys] at hm ⊢; exact Or.inr hm)
    simp [objSet, hk, ih hrest]

theorem objGet_last {α : Type} (q : List (String × α)) (k : String) (v : α)
    (h : k ∉ objKeys q) : objGet (q ++ [(k, v)]) k = some v := by
  rw [objGet_append]
  rw [(objGet_none_iff q k).mpr h]
  simp [objGet]

theorem exists_cons3 {α : Type} (vs : List α) (m : Nat) (h : vs.length = 3 + m) :
    ∃ a b c vs', vs = a :: b :: c :: vs' ∧ vs'.length = m := by
  match vs with
  | [] => simp at h; omega
  | [a] => simp at h; omega
  | [a, b] => simp at h; omega
  | a :: b :: c :: vs' =>
    refine ⟨a, b, c, vs', rfl, ?_⟩
    simp at h
    omega

theorem exists_cons1 {α : Type} (vs : List α) (m : Nat) (h : vs.length = 1 + m) :
    ∃ a vs', vs = a :: vs' ∧ vs'.length = m := by
  match vs with
  | [] => simp at h; omega
  | a :: vs' =>
    refine ⟨a, vs', rfl, ?_⟩
    simp at h
    omega

theorem labelsOf_len_xyz (n : String) (hx : includesS n mXYZ = true) :
    (labelsOf n).length = 3 := by
  simp [labelsOf, hx]

theorem labelsOf_len_z (n : String) (hx : includesS n mXYZ = false)
    (hz : includesS n mZ = true) : (labelsOf n).length = 1 := by
  simp [labelsOf, hx, hz]

theorem labelsOf_len_none (n : String) (hx : includesS n mXYZ = false)
    (hz : includesS n mZ = false) : (labelsOf n).length = 0 := by
  simp [labelsOf, hx, hz]

theorem buildGroups_keys (ns : List String) :
    ∀ vs : List K, vs.length = (ns.flatMap labelsOf).length →
      objKeys (buildGroups ns vs) =
        ns.filter (fun n => includesS n mXYZ || includesS n mZ) := by
  induction ns with
  | nil =>
    intro vs _
    simp [buildGroups, objKeys]
  | cons n rest ih =>
    intro vs hlen
    rw [List.flatMap_cons, List.length_append] at hlen
    unfold buildGroups
    by_cases hx : includesS n mXYZ = true
    · rw [labelsOf_len_xyz n hx] at hlen
      obtain ⟨a, b, c, vs', rfl, hlen'⟩ := exists_cons3 vs _ hlen
      rw [if_pos hx, List.filter_cons]
      have hih := ih vs' hlen'
      simp only [objKeys, List.map_cons] at hih ⊢
      rw [hih]
      simp [hx]
    · have hxf : includesS n mXYZ = false := by simpa using hx
      by_cases hz : includesS n mZ = true
      · rw [labelsOf_len_z n hxf hz] at hlen
        obtain ⟨a, vs', rfl, hlen'⟩ := exists_cons1 vs _ hlen
        rw [if_neg hx, if_pos hz, List.filter_cons]
        have hih := ih vs' hlen'
        simp only [objKeys, List.map_cons] at hih ⊢
        rw [hih]
        simp [hxf, hz]
      · have hzf : includesS n mZ = false := by simpa using hz
        rw [labelsOf_len_none n hxf hzf] at hlen
        rw [if_neg hx, if_neg hz, List.filter_cons]
        rw [ih vs (by omega)]
        simp [hxf, hzf]

theorem buildGroups_mem (ns : List String) :
    ∀ (vs : List K) (kv : String × JointValue K), kv ∈ buildGroups ns vs →
      kv.1 ∈ ns ∧ (kv.2.isRotV = includesS kv.1 mXYZ) ∧
        (kv.2.isNum = true → zOnlyMarked kv.1) := by
  induction ns with
  | nil =>
    intro vs kv h
    simp [buildGroups] at h
  | cons n rest ih =>
    intro vs kv h
    unfold buildGroups at h
    by_cases hx : includesS n mXYZ = true
    · rw [if_pos hx] at h
      match vs, h with
      | a :: b :: c :: vs', h =>
        rcases List.mem_cons.mp h with rfl | h
        · exact ⟨by simp, by simp [JointValue.isRotV, hx], by simp [JointValue.isNum]⟩
        · obtain ⟨h1, h2, h3⟩ := ih vs' kv h
          exact ⟨List.mem_cons_of_mem _ h1, h2, h3⟩
      | [], h => cases h
      | [a], h => cases h
      | [a, b], h => cases h
    · have hxf : includesS n mXYZ = false := by simpa using hx
      rw [if_neg hx] at h
      by_cases hz : includesS n mZ = true
      · rw [if_pos hz] at h
        match vs, h with
        | a :: vs', h =>
          rcases List.mem_cons.mp h with rfl | h
          · refine ⟨by simp, by simp [JointValue.isRotV, hxf], ?_⟩
            intro _
            exact ⟨hz, hxf⟩
          · obtain ⟨h1, h2, h3⟩ := ih vs' kv h
            exact ⟨List.mem_cons_of_mem _ h1, h2, h3⟩
        | [], h => cases h
      · rw [if_neg hz] at h
        obtain ⟨h1, h2, h3⟩ := ih vs kv h
        exact ⟨List.mem_cons_of_mem _ h1, h2, h3⟩

end EngineLemmas8

section EngineLemmas9

variable {K : Type} [LinearOrderedField K]

theorem get_pre_add {α : Type} (pre l : List α) (k : Nat) :
    (pre ++ l).get? (pre.length + k) = l.get? k := by
  rw [List.get?_eq_getElem?, List.get?_eq_getElem?,
    List.getElem?_append_right (by omega)]
  congr 1
  omega

theorem vtcAux_step_x_none (P : ThreeMath K) (kin : Kinematics K) (q : JointAngles K)
    (i : Nat) (v : K) (rest : List K) (jl : String)
    (hg : kin.qConfigIndexReversed.get? i = some jl)
    (hx : endsWithS jl sufX = true)
    (hq : objGet q (substringDrop2 jl) = none) :
    vectorToConfigAux P kin q i (v :: rest) =
      vectorToConfigAux P kin
        (objSet q (substringDrop2 jl) (.rot ⟨v, P.nan, P.nan⟩)) (i + 1) rest := by
  conv_lhs => unfold vectorToConfigAux
  rw [hg]
  simp [hx, hq]

theorem vtcAux_step_y_rot (P : ThreeMath K) (kin : Kinematics K) (q : JointAngles K)
    (i : Nat) (v : K) (rest : List K) (jl : String) (r : Rot3Angles K)
    (hg : kin.qConfigIndexReversed.get? i = some jl)
    (hnx : endsWithS jl sufX = false)
    (hy : endsWithS jl sufY = true)
    (hq : objGet q (substringDrop2 jl) = some (.rot r)) :
    vectorToConfigAux P kin q i (v :: rest) =
      vectorToConfigAux P kin
        (objSet q (substringDrop2 jl) (.rot ⟨r.x, v, r.z⟩)) (i + 1) rest := by
  conv_lhs => unfold vectorToConfigAux
  rw [hg]
  simp [hnx, hy, hq]

theorem vtcAux_step_z_rot (P : ThreeMath K) (kin : Kinematics K) (q : JointAngles K)
    (i : Nat) (v : K) (rest : List K) (jl : String) (r : Rot3Angles K)
    (hg : kin.qConfigIndexReversed.get? i = some jl)
    (hnx : endsWithS jl sufX = false)
    (hny : endsWithS jl sufY = false)
    (hz : endsWithS jl sufZ = true)
    (hq : objGet q (substringDrop2 jl) = some (.rot r)) :
    vectorToConfigAux P kin q i (v :: rest) =
      vectorToConfigAux P kin
        (objSet q (substringDrop2 jl) (.rot ⟨r.x, r.y, v⟩)) (i + 1) rest := by
  conv_lhs => unfold vectorToConfigAux
  rw [hg]
  simp [hnx, hny, hz, hq]

theorem vtcAux_step_num (P : ThreeMath K) (kin : Kinematics K) (q : JointAngles K)
    (i : Nat) (v : K) (rest : List K) (jl : String)
    (hg : kin.qConfigIndexReversed.get? i = some jl)
    (hnx : endsWithS jl sufX = false)
    (hny : endsWithS jl sufY = false)
    (hnz : endsWithS jl sufZ = false) :
    vectorToConfigAux P kin q i (v :: rest) =
      vectorToConfigAux P kin (objSet q jl (.num v)) (i + 1) rest := by
  conv_lhs => unfold vectorToConfigAux
  rw [hg]
  simp [hnx, hny, hnz]

/-- Processing the tail of the reversed index belonging to the names `ns`
over fresh keys produces exactly the grouped configuration. -/
theorem vtc_main (P : ThreeMath K) (kin : Kinematics K) (ns : List String) :
    ∀ (pre : List String) (q : JointAngles K) (vs : List K),
      kin.qConfigIndexReversed = pre ++ ns.flatMap labelsOf →
      vs.length = (ns.flatMap labelsOf).length →
      (∀ n ∈ ns, objGet q n = none) →
      ns.Nodup →
      (∀ n ∈ ns, zOnlyMarked n → ¬ axisSuffixed n) →
      vectorToConfigAux P kin q pre.length vs = .ok (q ++ buildGroups ns vs) := by
  induction ns with
  | nil =>
    intro pre q vs _ hlen _ _ _
    have hv : vs = [] := List.eq_nil_of_length_eq_zero (by simpa using hlen)
    subst hv
    simp [vectorToConfigAux, buildGroups]
  | cons n rest ih =>
    intro pre q vs hrev hlen hfresh hnd hwell
    rw [List.flatMap_cons, List.length_append] at hlen
    have hfn : n ∉ objKeys q :=
      (objGet_none_iff q n).mp (hfresh n (List.mem_cons_self n rest))
    have hnotin : n ∉ rest := (List.nodup_cons.mp hnd).1
    have hfresh' : ∀ (w : JointValue K) (m : String), m ∈ rest →
        objGet (q ++ [(n, w)]) m = none := by
      intro w m hm
      rw [objGet_append, hfresh m (List.mem_cons_of_mem _ hm)]
      have hne : ¬ n = m := fun he => hnotin (he ▸ hm)
      simp [objGet, hne]
    by_cases hx : includesS n mXYZ = true
    · rw [labelsOf_len_xyz n hx] at hlen
      obtain ⟨a, b, c, vs', rfl, hlen'⟩ := exists_cons3 vs _ hlen
      have hrev' : kin.qConfigIndexReversed =
          pre ++ ((n ++ sufX) :: (n ++ sufY) :: (n ++ sufZ) :: rest.flatMap labelsOf) := by
        rw [hrev, List.flatMap_cons]
        simp [labelsOf, hx]
      have h0 : kin.qConfigIndexReversed.get? pre.length = some (n ++ sufX) := by
        rw [hrev']
        simpa using get_pre_add pre
          ((n ++ sufX) :: (n ++ sufY) :: (n ++ sufZ) :: rest.flatMap labelsOf) 0
      have h1 : kin.qConfigIndexReversed.get? (pre.length + 1) = some (n ++ sufY) := by
        rw [hrev']
        simpa using get_pre_add pre
          ((n ++ sufX) :: (n ++ sufY) :: (n ++ sufZ) :: rest.flatMap labelsOf) 1
      have h2 : kin.qConfigIndexReversed.get? (pre.length + 1 + 1) = some (n ++ sufZ) := by
        rw [hrev']
        have := get_pre_add pre
          ((n ++ sufX) :: (n ++ sufY) :: (n ++ sufZ) :: rest.flatMap labelsOf) 2
        rw [show pre.length + 1 + 1 = pre.length + 2 from by omega]
        simpa using this
      rw [vtcAux_step_x_none P kin q pre.length a _ (n ++ sufX) h0
        (endsWithS_append_self n sufX) (by rw [substringDrop2_labelX]; exact hfresh n (by simp))]
      rw [substringDrop2_labelX, objSet_fresh q n _ hfn]
      rw [vtcAux_step_y_rot P kin _ (pre.length + 1) b _ (n ++ sufY) ⟨a, P.nan, P.nan⟩ h1
        (endsWithS_append_ne n sufY sufX sufY_len sufX_len (Ne.symm sufX_ne_sufY))
        (endsWithS_append_self n sufY)
        (by rw [substringDrop2_labelY]; exact objGet_last q n _ hfn)]
      rw [substringDrop2_labelY, objSet_last q n _ _ hfn]
      rw [vtcAux_step_z_rot P kin _ (pre.length + 1 + 1) c _ (n ++ sufZ) ⟨a, b, P.nan⟩ h2
        (endsWithS_append_ne n sufZ sufX sufZ_len sufX_len (Ne.symm sufX_ne_sufZ))
        (endsWithS_append_ne n sufZ sufY sufZ_len sufY_len (Ne.symm sufY_ne_sufZ))
        (endsWithS_append_self n sufZ)
        (by rw [substringDrop2_labelZ]; exact objGet_last q n _ hfn)]
      rw [substringDrop2_labelZ, objSet_last q n _ _ hfn]
      have hplen : pre.length + 1 + 1 + 1 =
          (pre ++ [n ++ sufX, n ++ sufY, n ++ sufZ]).length := by
        simp
      rw [hplen]
      rw [ih (pre ++ [n ++ sufX, n ++ sufY, n ++ sufZ]) (q ++ [(n, .rot ⟨a, b, c⟩)]) vs'
        (by rw [hrev', List.append_assoc]; rfl) hlen'
        (hfresh' _) (List.nodup_cons.mp hnd).2
        (fun m hm => hwell m (List.mem_cons_of_mem _ hm))]
      rw [show buildGroups (n :: rest) (a :: b :: c :: vs') =
        (n, JointValue.rot ⟨a, b, c⟩) :: buildGroups rest vs' from by
          conv_lhs => unfold buildGroups
          rw [if_pos hx]]
      simp
    · have hxf : includesS n mXYZ = false := by simpa using hx
      by_cases hz : includesS n mZ = true
      · rw [labelsOf_len_z n hxf hz] at hlen
        obtain ⟨a, vs', rfl, hlen'⟩ := exists_cons1 vs _ hlen
        have hrev' : kin.qConfigIndexReversed =
            pre ++ (n :: rest.flatMap labelsOf) := by
          rw [hrev, List.flatMap_cons]
          simp [labelsOf, hxf, hz]
        have h0 : kin.qConfigIndexReversed.get? pre.length = some n := by
          rw [hrev']
          simpa using get_pre_add pre (n :: rest.flatMap labelsOf) 0
        have hax : ¬ axisSuffixed n :=
          hwell n (List.mem_cons_self n rest) ⟨hz, hxf⟩
        have hnx : endsWithS n sufX = false :=
          eq_false_of_ne_true (fun h => hax (Or.inl h))
        have hny : endsWithS n sufY = false :=
          eq_false_of_ne_true (fun h => hax (Or.inr (Or.inl h)))
        have hnz : endsWithS n sufZ = false :=
          eq_false_of_ne_true (fun h => hax (Or.inr (Or.inr h)))
        rw [vtcAux_step_num P kin q pre.length a _ n h0 hnx hny hnz]
        rw [objSet_fresh q n _ hfn]
        have hplen : pre.length + 1 = (pre ++ [n]).length := by
          simp
        rw [hplen]
        rw [ih (pre ++ [n]) (q ++ [(n, .num a)]) vs'
          (by rw [hrev', List.append_assoc]; rfl) hlen'
          (hfresh' _) (List.nodup_cons.mp hnd).2
          (fun m hm => hwell m (List.mem_cons_of_mem _ hm))]
        rw [show buildGroups (n :: rest) (a :: vs') =
          (n, JointValue.num a) :: buildGroups rest vs' from by
            conv_lhs => unfold buildGroups
            rw [if_neg hx, if_pos hz]]
        simp
      · have hzf : includesS n mZ = false := by simpa using hz
        rw [labelsOf_len_none n hxf hzf] at hlen
        have hrev' : kin.qConfigIndexReversed = pre ++ rest.flatMap labelsOf := by
          rw [hrev, List.flatMap_cons]
          simp [labelsOf, hxf, hzf]
        rw [ih pre q vs hrev' (by omega)
          (fun m hm => hfresh m (List.mem_cons_of_mem _ hm)) (List.nodup_cons.mp hnd).2
          (fun m hm => hwell m (List.mem_cons_of_mem _ hm))]
        rw [show buildGroups (n :: rest) vs = buildGroups rest vs from by
          conv_lhs => unfold buildGroups
          rw [if_neg hx, if_neg hz]]

end EngineLemmas9

section EngineLemmas10

variable {K : Type} [LinearOrderedField K]

theorem configToVector_eq_fold (kin : Kinematics K) (q : JointAngles K) :
    configToVector kin q =
      q.foldl (ctvStep kin) (List.replicate kin.qConfigLength (-1000)) := rfl

theorem setVecAt_length (vec : List K) (o : Option Nat) (v : K) :
    (setVecAt vec o v).length = vec.length := by
  cases o with
  | none => rfl
  | some i => exact List.length_set vec i v

theorem ctvStep_length (kin : Kinematics K) (vec : List K) (jv : String × JointValue K) :
    (ctvStep kin vec jv).length = vec.length := by
  unfold ctvStep
  cases jv.2 with
  | rot qc => rw [setVecAt_length, setVecAt_length, setVecAt_length]
  | num v => rw [setVecAt_length]

theorem foldl_ctvStep_length (kin : Kinematics K) (q : JointAngles K) :
    ∀ u : List K, (q.foldl (ctvStep kin) u).length = u.length := by
  induction q with
  | nil => intro u; rfl
  | cons kv rest ih =>
    intro u
    rw [List.foldl_cons, ih, ctvStep_length]

theorem configToVector_length (kin : Kinematics K) (q : JointAngles K) :
    (configToVector kin q).length = kin.qConfigLength := by
  rw [configToVector_eq_fold, foldl_ctvStep_length, List.length_replicate]

theorem setVecAt_get (vec : List K) (o : Option Nat) (v : K) (j : Nat) :
    (setVecAt vec o v).get? j =
      if o = some j ∧ j < vec.length then some v else vec.get? j := by
  cases o with
  | none => simp [setVecAt]
  | some i =>
    simp only [setVecAt, List.get?_eq_getElem?, List.getElem?_set]
    by_cases hij : i = j
    · subst hij
      by_cases hlt : i < vec.length
      · simp [hlt]
      · have hnone : vec[i]? = none := List.getElem?_eq_none (by omega)
        simp [hlt, hnone]
    · simp [hij, fun h : (i : Nat) = j => hij h]

theorem ctvStep_get (kin : Kinematics K) (vec : List K) (jv : String × JointValue K)
    (j : Nat) :
    (ctvStep kin vec jv).get? j =
      match slotValue kin jv j with
      | some v => if j < vec.length then some v else none
      | none => vec.get? j := by
  obtain ⟨n, w⟩ := jv
  cases w with
  | num v =>
    simp only [ctvStep, slotValue]
    rw [setVecAt_get]
    by_cases hi : kin.qConfigIndex n = some j
    · by_cases hlt : j < vec.length
      · simp [hi, hlt]
      · simp [hi, hlt, List.get?_eq_getElem?, List.getElem?_eq_none (by omega : vec.length ≤ j)]
    · simp [hi]
  | rot r =>
    simp only [ctvStep, slotValue]
    rw [setVecAt_get, setVecAt_get, setVecAt_get]
    rw [setVecAt_length, setVecAt_length]
    by_cases hz : kin.qConfigIndex (n ++ sufZ) = some j
    · by_cases hlt : j < vec.length
      · simp [hz, hlt]
      · simp [hz, hlt, List.get?_eq_getElem?, List.getElem?_eq_none (by omega : vec.length ≤ j)]
    · by_cases hy : kin.qConfigIndex (n ++ sufY) = some j
      · by_cases hlt : j < vec.length
        · simp [hz, hy, hlt]
        · simp [hz, hy, hlt, List.get?_eq_getElem?,
            List.getElem?_eq_none (by omega : vec.length ≤ j)]
      · by_cases hx : kin.qConfigIndex (n ++ sufX) = some j
        · by_cases hlt : j < vec.length
          · simp [hz, hy, hx, hlt]
          · simp [hz, hy, hx, hlt, List.get?_eq_getElem?,
              List.getElem?_eq_none (by omega : vec.length ≤ j)]
        · simp [hz, hy, hx]

theorem ctv_fold_nowrite (kin : Kinematics K) (q : JointAngles K) (j : Nat) :
    ∀ u : List K, (∀ kv ∈ q, slotValue kin kv j = none) →
      (q.foldl (ctvStep kin) u).get? j = u.get? j := by
  induction q with
  | nil => intro u _; rfl
  | cons kv rest ih =>
    intro u h
    rw [List.foldl_cons, ih _ (fun kv' hm => h kv' (List.mem_cons_of_mem _ hm))]
    rw [ctvStep_get, h kv (List.mem_cons_self kv rest)]

theorem ctv_fold_write (kin : Kinematics K) (q1 : JointAngles K)
    (kv : String × JointValue K) (q2 : JointAngles K) (u : List K) (j : Nat) (val : K)
    (hsv : slotValue kin kv j = some val)
    (hafter : ∀ kv' ∈ q2, slotValue kin kv' j = none)
    (hj : j < u.length) :
    ((q1 ++ kv :: q2).foldl (ctvStep kin) u).get? j = some val := by
  rw [List.foldl_append, List.foldl_cons]
  rw [ctv_fold_nowrite kin q2 j _ hafter]
  rw [ctvStep_get, hsv]
  rw [foldl_ctvStep_length]
  simp [hj]

end EngineLemmas10

section EngineLemmas11

variable {K : Type} [LinearOrderedField K]

theorem append_left_inj (n s1 s2 : String) (h : n ++ s1 = n ++ s2) : s1 = s2 := by
  apply String.ext
  have := congrArg String.data h
  rw [String.data_append, String.data_append] at this
  exact List.append_cancel_left this

theorem slotValue_some_label (kin : Kinematics K) (kv : String × JointValue K)
    (j : Nat) (val : K) (h : slotValue kin kv j = some val) :
    ∃ l, kin.qConfigIndex l = some j ∧
      ((kv.2.isRotV = true ∧
          (l = kv.1 ++ sufX ∨ l = kv.1 ++ sufY ∨ l = kv.1 ++ sufZ)) ∨
        (kv.2.isNum = true ∧ l = kv.1)) := by
  obtain ⟨n, w⟩ := kv
  cases w with
  | num v =>
    simp only [slotValue] at h
    by_cases hi : kin.qConfigIndex n = some j
    · exact ⟨n, hi, Or.inr ⟨rfl, rfl⟩⟩
    · rw [if_neg hi] at h
      cases h
  | rot r =>
    simp only [slotValue] at h
    by_cases hz : kin.qConfigIndex (n ++ sufZ) = some j
    · exact ⟨n ++ sufZ, hz, Or.inl ⟨rfl, Or.inr (Or.inr rfl)⟩⟩
    · rw [if_neg hz] at h
      by_cases hy : kin.qConfigIndex (n ++ sufY) = some j
      · exact ⟨n ++ sufY, hy, Or.inl ⟨rfl, Or.inr (Or.inl rfl)⟩⟩
      · rw [if_neg hy] at h
        by_cases hx : kin.qConfigIndex (n ++ sufX) = some j
        · exact ⟨n ++ sufX, hx, Or.inl ⟨rfl, Or.inl rfl⟩⟩
        · rw [if_neg hx] at h
          cases h

/-- Two configuration entries writing the same vector slot carry the same
joint name, given the index bijection and no scalar entry on an
axis-suffixed name. -/
theorem cover_unique (kin : Kinematics K)
    (hbij : ∀ l j, kin.qConfigIndex l = some j ↔ kin.qConfigIndexReversed[j]? = some l)
    (kv1 kv2 : String × JointValue K) (j : Nat) (v1 v2 : K)
    (h1 : slotValue kin kv1 j = some v1) (h2 : slotValue kin kv2 j = some v2)
    (hs1 : kv1.2.isNum = true → ¬ axisSuffixed kv1.1)
    (hs2 : kv2.2.isNum = true → ¬ axisSuffixed kv2.1) :
    kv1.1 = kv2.1 := by
  obtain ⟨l1, hi1, hc1⟩ := slotValue_some_label kin kv1 j v1 h1
  obtain ⟨l2, hi2, hc2⟩ := slotValue_some_label kin kv2 j v2 h2
  have hll : l1 = l2 :=
    Option.some.inj (((hbij l1 j).mp hi1).symm.trans ((hbij l2 j).mp hi2))
  subst hll
  have key : ∀ m1 m2 s1 s2 : String, s1.data.length = 2 → s2.data.length = 2 →
      m1 ++ s1 = m2 ++ s2 → m1 = m2 := by
    intro m1 m2 s1 s2 d1 d2 he
    by_cases hss : s1 = s2
    · subst hss
      exact append_right_inj _ _ _ he
    · exact absurd he (append_suf_ne _ _ _ _ d1 d2 hss)
  have key2 : ∀ m1 m2 s1 s2 : String,
      (s1 = sufX ∨ s1 = sufY ∨ s1 = sufZ) → (s2 = sufX ∨ s2 = sufY ∨ s2 = sufZ) →
      m1 ++ s1 = m2 ++ s2 → m1 = m2 := by
    intro m1 m2 s1 s2 hm1 hm2 he
    rcases hm1 with rfl | rfl | rfl <;> rcases hm2 with rfl | rfl | rfl <;>
      first
        | exact key _ _ _ _ sufX_len sufX_len he
        | exact key _ _ _ _ sufX_len sufY_len he
        | exact key _ _ _ _ sufX_len sufZ_len he
        | exact key _ _ _ _ sufY_len sufX_len he
        | exact key _ _ _ _ sufY_len sufY_len he
        | exact key _ _ _ _ sufY_len sufZ_len he
        | exact key _ _ _ _ sufZ_len sufX_len he
        | exact key _ _ _ _ sufZ_len sufY_len he
        | exact key _ _ _ _ sufZ_len sufZ_len he
  rcases hc1 with ⟨hr1, hf1⟩ | ⟨hn1, hf1⟩
  · rcases hc2 with ⟨hr2, hf2⟩ | ⟨hn2, hf2⟩
    · have he : ∃ s1 s2 : String, (s1 = sufX ∨ s1 = sufY ∨ s1 = sufZ) ∧
          (s2 = sufX ∨ s2 = sufY ∨ s2 = sufZ) ∧ kv1.1 ++ s1 = kv2.1 ++ s2 := by
        rcases hf1 with hf1 | hf1 | hf1 <;> rcases hf2 with hf2 | hf2 | hf2 <;>
          exact ⟨_, _, by simp, by simp, hf1.symm.trans hf2⟩
      obtain ⟨s1, s2, hm1, hm2, he⟩ := he
      exact key2 _ _ _ _ hm1 hm2 he
    · exfalso
      apply hs2 hn2
      rcases hf1 with rfl | rfl | rfl
      · exact Or.inl (hf2 ▸ endsWithS_append_self kv1.1 sufX)
      · exact Or.inr (Or.inl (hf2 ▸ endsWithS_append_self kv1.1 sufY))
      · exact Or.inr (Or.inr (hf2 ▸ endsWithS_append_self kv1.1 sufZ))
  · rcases hc2 with ⟨hr2, hf2⟩ | ⟨hn2, hf2⟩
    · exfalso
      apply hs1 hn1
      rcases hf2 with rfl | rfl | rfl
      · exact Or.inl (hf1 ▸ endsWithS_append_self kv2.1 sufX)
      · exact Or.inr (Or.inl (hf1 ▸ endsWithS_append_self kv2.1 sufY))
      · exact Or.inr (Or.inr (hf1 ▸ endsWithS_append_self kv2.1 sufZ))
    · exact hf1.symm.trans hf2

end EngineLemmas11

section EngineLemmas12

variable {K : Type} [LinearOrderedField K]

/-- The vector built by `configToVector` holds, at any slot some entry
writes, the value of the (unique) writing entry. -/
theorem ctv_readback (kin : Kinematics K)
    (hbij : ∀ l j, kin.qConfigIndex l = some j ↔ kin.qConfigIndexReversed[j]? = some l)
    (q : JointAngles K) (hnd : (objKeys q).Nodup)
    (hshape : ∀ kv ∈ q, kv.2.isNum = true → ¬ axisSuffixed kv.1)
    (kv : String × JointValue K) (hkv : kv ∈ q) (j : Nat) (val : K)
    (hsv : slotValue kin kv j = some val) (hj : j < kin.qConfigLength) :
    (configToVector kin q).get? j = some val := by
  obtain ⟨q1, q2, rfl⟩ := List.append_of_mem hkv
  rw [configToVector_eq_fold]
  apply ctv_fold_write
  · exact hsv
  · intro kv' hm'
    by_contra hne
    obtain ⟨v', hv'⟩ := Option.ne_none_iff_exists'.mp hne
    have hkk : kv'.1 = kv.1 :=
      cover_unique kin hbij kv' kv j v' val hv' hsv
        (hshape kv' (by simp [hm'])) (hshape kv (by simp))
    have hnd2 : kv.1 ∉ objKeys q2 := by
      have : (objKeys (q1 ++ kv :: q2)).Nodup := hnd
      simp only [objKeys, List.map_append, List.map_cons] at this
      exact (List.nodup_cons.mp (this.of_append_right)).1
    exact hnd2 (hkk ▸ (by exact List.mem_map_of_mem Prod.fst hm'))
  · rw [List.length_replicate]
    exact hj

/-- Every slot belonging to the names `ns` is written by some entry of the
grouped configuration, with the aligned vector value. -/
theorem buildGroups_covers (kin : Kinematics K)
    (hbij : ∀ l j, kin.qConfigIndex l = some j ↔ kin.qConfigIndexReversed[j]? = some l)
    (ns : List String) :
    ∀ (pre : List String) (vs : List K),
      kin.qConfigIndexReversed = pre ++ ns.flatMap labelsOf →
      vs.length = (ns.flatMap labelsOf).length →
      ∀ j, pre.length ≤ j → j < pre.length + vs.length →
        ∃ kv ∈ buildGroups ns vs,
          slotValue kin kv j = some (vs.getD (j - pre.length) 0) := by
  induction ns with
  | nil =>
    intro pre vs _ hlen j hj1 hj2
    rw [List.flatMap_nil, List.length_nil] at hlen
    omega
  | cons n rest ih =>
    intro pre vs hrev hlen j hj1 hj2
    rw [List.flatMap_cons, List.length_append] at hlen
    by_cases hx : includesS n mXYZ = true
    · rw [labelsOf_len_xyz n hx] at hlen
      obtain ⟨a, b, c, vs', rfl, hlen'⟩ := exists_cons3 vs _ hlen
      have hrev' : kin.qConfigIndexReversed =
          pre ++ ((n ++ sufX) :: (n ++ sufY) :: (n ++ sufZ) :: rest.flatMap labelsOf) := by
        rw [hrev, List.flatMap_cons]
        simp [labelsOf, hx]
      have hgX : kin.qConfigIndexReversed[pre.length]? = some (n ++ sufX) := by
        rw [hrev']
        have := get_pre_add pre
          ((n ++ sufX) :: (n ++ sufY) :: (n ++ sufZ) :: rest.flatMap labelsOf) 0
        simpa [List.get?_eq_getElem?] using this
      have hgY : kin.qConfigIndexReversed[pre.length + 1]? = some (n ++ sufY) := by
        rw [hrev']
        have := get_pre_add pre
          ((n ++ sufX) :: (n ++ sufY) :: (n ++ sufZ) :: rest.flatMap labelsOf) 1
        simpa [List.get?_eq_getElem?] using this
      have hgZ : kin.qConfigIndexReversed[pre.length + 2]? = some (n ++ sufZ) := by
        rw [hrev']
        have := get_pre_add pre
          ((n ++ sufX) :: (n ++ sufY) :: (n ++ sufZ) :: rest.flatMap labelsOf) 2
        simpa [List.get?_eq_getElem?] using this
      have hbgx : buildGroups (n :: rest) (a :: b :: c :: vs') =
          (n, JointValue.rot ⟨a, b, c⟩) :: buildGroups rest vs' := by
        conv_lhs => unfold buildGroups
        rw [if_pos hx]
      by_cases hin : j < pre.length + 3
      · refine ⟨(n, JointValue.rot ⟨a, b, c⟩), by rw [hbgx]; simp, ?_⟩
        have hj3 : j = pre.length ∨ j = pre.length + 1 ∨ j = pre.length + 2 := by omega
        rcases hj3 with rfl | rfl | rfl
        · have hix : kin.qConfigIndex (n ++ sufX) = some pre.length := (hbij _ _).mpr hgX
          have hiz : ¬ kin.qConfigIndex (n ++ sufZ) = some pre.length := by
            intro h
            have := ((hbij _ _).mp h).symm.trans hgX
            exact sufX_ne_sufZ (append_left_inj n _ _ (Option.some.inj this)).symm
          have hiy : ¬ kin.qConfigIndex (n ++ sufY) = some pre.length := by
            intro h
            have := ((hbij _ _).mp h).symm.trans hgX
            exact sufX_ne_sufY (append_left_inj n _ _ (Option.some.inj this)).symm
          simp [slotValue, hix, hiy, hiz]
        · have hiy : kin.qConfigIndex (n ++ sufY) = some (pre.length + 1) :=
            (hbij _ _).mpr hgY
          have hiz : ¬ kin.qConfigIndex (n ++ sufZ) = some (pre.length + 1) := by
            intro h
            have := ((hbij _ _).mp h).symm.trans hgY
            exact sufY_ne_sufZ (append_left_inj n _ _ (Option.some.inj this)).symm
          simp [slotValue, hiy, hiz]
        · have hiz : kin.qConfigIndex (n ++ sufZ) = some (pre.length + 2) :=
            (hbij _ _).mpr hgZ
          have harith : pre.length + 2 - pre.length = 2 := by omega
          simp [slotValue, hiz, harith]
      · have hge : pre.length + 3 ≤ j := by omega
        have hplen : (pre ++ [n ++ sufX, n ++ sufY, n ++ sufZ]).length = pre.length + 3 := by
          simp
        obtain ⟨kv, hkv, hval⟩ := ih (pre ++ [n ++ sufX, n ++ sufY, n ++ sufZ]) vs'
          (by rw [hrev', List.append_assoc]; rfl) hlen' j (by rw [hplen]; omega)
          (by rw [hplen]; simp only [List.length_cons] at hj2; omega)
        refine ⟨kv, by rw [hbgx]; exact List.mem_cons_of_mem _ hkv, ?_⟩
        rw [hval, hplen]
        have harith : j - pre.length = (j - (pre.length + 3)) + 3 := by omega
        rw [harith]
        simp [List.getD]
    · have hxf : includesS n mXYZ = false := by simpa using hx
      by_cases hz : includesS n mZ = true
      · rw [labelsOf_len_z n hxf hz] at hlen
        obtain ⟨a, vs', rfl, hlen'⟩ := exists_cons1 vs _ hlen
        have hrev' : kin.qConfigIndexReversed = pre ++ (n :: rest.flatMap labelsOf) := by
          rw [hrev, List.flatMap_cons]
          simp [labelsOf, hxf, hz]
        have hgN : kin.qConfigIndexReversed[pre.length]? = some n := by
          rw [hrev']
          have := get_pre_add pre (n :: rest.flatMap labelsOf) 0
          simpa [List.get?_eq_getElem?] using this
        have hbgz : buildGroups (n :: rest) (a :: vs') =
            (n, JointValue.num a) :: buildGroups rest vs' := by
          conv_lhs => unfold buildGroups
          rw [if_neg hx, if_pos hz]
        by_cases hin : j < pre.length + 1
        · have hje : j = pre.length := by omega
          subst hje
          refine ⟨(n, JointValue.num a), by rw [hbgz]; simp, ?_⟩
          have hiN : kin.qConfigIndex n = some pre.length := (hbij _ _).mpr hgN
          simp [slotValue, hiN]
        · have hplen : (pre ++ [n]).length = pre.length + 1 := by simp
          obtain ⟨kv, hkv, hval⟩ := ih (pre ++ [n]) vs'
            (by rw [hrev', List.append_assoc]; rfl) hlen' j (by rw [hplen]; omega)
            (by rw [hplen]; simp only [List.length_cons] at hj2; omega)
          refine ⟨kv, by rw [hbgz]; exact List.mem_cons_of_mem _ hkv, ?_⟩
          rw [hval, hplen]
          have harith : j - pre.length = (j - (pre.length + 1)) + 1 := by omega
          rw [harith]
          simp [List.getD]
      · have hzf : includesS n mZ = false := by simpa using hz
        rw [labelsOf_len_none n hxf hzf] at hlen
        have hrev' : kin.qConfigIndexReversed = pre ++ rest.flatMap labelsOf := by
          rw [hrev, List.flatMap_cons]
          simp [labelsOf, hxf, hzf]
        have hbgn : buildGroups (n :: rest) vs = buildGroups rest vs := by
          conv_lhs => unfold buildGroups
          rw [if_neg hx, if_neg hz]
        obtain ⟨kv, hkv, hval⟩ := ih pre vs hrev' (by omega) j hj1 hj2
        exact ⟨kv, by rw [hbgn]; exact hkv, hval⟩

end EngineLemmas12

section EngineLemmas13

variable {K : Type} [LinearOrderedField K]

theorem slotValue_none_of_not_covered (kin : Kinematics K) (q : JointAngles K)
    (j : Nat) (hnc : j ∉ coveredSlots kin q) (kv : String × JointValue K)
    (hkv : kv ∈ q) : slotValue kin kv j = none := by
  by_contra hne
  obtain ⟨val, hval⟩ := Option.ne_none_iff_exists'.mp hne
  apply hnc
  unfold coveredSlots
  rw [List.mem_flatMap]
  refine ⟨kv, hkv, ?_⟩
  obtain ⟨n, w⟩ := kv
  cases w with
  | num v =>
    simp only [slotValue] at hval
    by_cases hi : kin.qConfigIndex n = some j
    · simp [entrySlots, hi]
    · rw [if_neg hi] at hval
      cases hval
  | rot r =>
    simp only [slotValue] at hval
    by_cases hz : kin.qConfigIndex (n ++ sufZ) = some j
    · simp [entrySlots, hz]
    · rw [if_neg hz] at hval
      by_cases hy : kin.qConfigIndex (n ++ sufY) = some j
      · simp [entrySlots, hy]
      · rw [if_neg hy] at hval
        by_cases hx : kin.qConfigIndex (n ++ sufX) = some j
        · simp [entrySlots, hx]
        · rw [if_neg hx] at hval
          cases hval

theorem make_wellNamed_map (P : ThreeMath K) (t : Object3DK K) (yup : Bool)
    (hw : wellNamed t) :
    ∀ n ∈ (Kinematics.make P t yup).map, zOnlyMarked n → ¬ axisSuffixed n :=
  fun n hn => hw n ((mem_make_map P t yup n).mp hn)

theorem make_flat_len (P : ThreeMath K) (t : Object3DK K) (yup : Bool) :
    ((Kinematics.make P t yup).map.flatMap labelsOf).length =
      (Kinematics.make P t yup).qConfigLength := by
  rw [← make_rev_def]
  exact (make_len_def P t yup).symm

/-- A full-length vector converts without throwing, to the grouped
configuration. -/
theorem make_vtc_ok (P : ThreeMath K) (t : Object3DK K) (yup : Bool) (v : List K)
    (hw : wellNamed t) (hv : v.length = (Kinematics.make P t yup).qConfigLength) :
    vectorToConfig P (Kinematics.make P t yup) v =
      .ok (buildGroups (Kinematics.make P t yup).map v) := by
  have h := vtc_main P (Kinematics.make P t yup) (Kinematics.make P t yup).map
    [] [] v (by simpa using make_rev_def P t yup)
    (by rw [hv, make_flat_len]) (by intro n _; rfl)
    (make_map_nodup P t yup) (make_wellNamed_map P t yup hw)
  simpa [vectorToConfig] using h

theorem make_bg_keys_nodup (P : ThreeMath K) (t : Object3DK K) (yup : Bool) (v : List K)
    (hv : v.length = (Kinematics.make P t yup).qConfigLength) :
    (objKeys (buildGroups (Kinematics.make P t yup).map v : JointAngles K)).Nodup := by
  rw [buildGroups_keys _ _ (by rw [hv, make_flat_len])]
  exact (make_map_nodup P t yup).filter _

theorem make_bg_shape (P : ThreeMath K) (t : Object3DK K) (yup : Bool) (v : List K)
    (hw : wellNamed t) :
    ∀ kv ∈ (buildGroups (Kinematics.make P t yup).map v : JointAngles K),
      kv.2.isNum = true → ¬ axisSuffixed kv.1 := by
  intro kv hkv hnum
  obtain ⟨hmem, _, hzm⟩ := buildGroups_mem _ v kv hkv
  exact make_wellNamed_map P t yup hw kv.1 hmem (hzm hnum)

/-- Converting the grouped configuration back to a vector restores every
slot. -/
theorem make_ctv_bg (P : ThreeMath K) (t : Object3DK K) (yup : Bool) (v : List K)
    (hw : wellNamed t) (hv : v.length = (Kinematics.make P t yup).qConfigLength) :
    configToVector (Kinematics.make P t yup)
      (buildGroups (Kinematics.make P t yup).map v) = v := by
  apply List.ext_getElem?
  intro j
  by_cases hj : j < (Kinematics.make P t yup).qConfigLength
  · obtain ⟨kv, hkv, hval⟩ := buildGroups_covers (Kinematics.make P t yup)
      (make_idx_iff P t yup) (Kinematics.make P t yup).map [] v
      (by simpa using make_rev_def P t yup) (by rw [hv, make_flat_len])
      j (by simp) (by simp; omega)
    simp only [List.length_nil, Nat.sub_zero] at hval
    have hrb := ctv_readback (Kinematics.make P t yup) (make_idx_iff P t yup)
      (buildGroups (Kinematics.make P t yup).map v)
      (make_bg_keys_nodup P t yup v hv) (make_bg_shape P t yup v hw)
      kv hkv j _ hval hj
    rw [List.get?_eq_getElem?] at hrb
    rw [hrb]
    have hjv : j < v.length := by omega
    rw [List.getElem?_eq_getElem hjv]
    congr 1
    rw [List.getD_eq_getElem?_getD, List.getElem?_eq_getElem hjv]
    simp
  · rw [List.getElem?_eq_none (by rw [configToVector_length]; omega),
      List.getElem?_eq_none (by omega : v.length ≤ j)]

theorem inverseKinematics_congr (P : ThreeMath K) (kin : Kinematics K)
    (q1 q2 : JointAngles K) (h : configToVector kin q1 = configToVector kin q2)
    (joint : String) (target : Vector3K K) (A : Matrix4K K) (alpha limit : K)
    (maxIterations : Nat) :
    inverseKinematics P kin q1 joint target A alpha limit maxIterations =
      inverseKinematics P kin q2 joint target A alpha limit maxIterations := by
  unfold inverseKinematics
  rw [h]

theorem calcJacobian_congr (P : ThreeMath K) (kin : Kinematics K)
    (q1 q2 : JointAngles K) (h : configToVector kin q1 = configToVector kin q2)
    (joint : String) (pos : Vector3K K) (dq : K) (A : Matrix4K K) :
    calcJacobian P kin q1 joint pos dq A = calcJacobian P kin q2 joint pos dq A := by
  unfold calcJacobian
  rw [h]

end EngineLemmas13



section EngineLemmas14

variable {K : Type} [LinearOrderedField K]

theorem make_slotValue_rot_x (P : ThreeMath K) (t : Object3DK K) (yup : Bool)
    (n : String) (j : Nat) (r : Rot3Angles K)
    (h : (Kinematics.make P t yup).qConfigIndex (n ++ sufX) = some j) :
    slotValue (Kinematics.make P t yup) (n, .rot r) j = some r.x := by
  have hrev := (make_idx_iff P t yup _ _).mp h
  have hz : ¬ (Kinematics.make P t yup).qConfigIndex (n ++ sufZ) = some j := by
    intro h'
    have := ((make_idx_iff P t yup _ _).mp h').symm.trans hrev
    exact sufX_ne_sufZ (append_left_inj n _ _ (Option.some.inj this)).symm
  have hy : ¬ (Kinematics.make P t yup).qConfigIndex (n ++ sufY) = some j := by
    intro h'
    have := ((make_idx_iff P t yup _ _).mp h').symm.trans hrev
    exact sufX_ne_sufY (append_left_inj n _ _ (Option.some.inj this)).symm
  simp [slotValue, h, hy, hz]

theorem make_slotValue_rot_y (P : ThreeMath K) (t : Object3DK K) (yup : Bool)
    (n : String) (j : Nat) (r : Rot3Angles K)
    (h : (Kinematics.make P t yup).qConfigIndex (n ++ sufY) = some j) :
    slotValue (Kinematics.make P t yup) (n, .rot r) j = some r.y := by
  have hrev := (make_idx_iff P t yup _ _).mp h
  have hz : ¬ (Kinematics.make P t yup).qConfigIndex (n ++ sufZ) = some j := by
    intro h'
    have := ((make_idx_iff P t yup _ _).mp h').symm.trans hrev
    exact sufY_ne_sufZ (append_left_inj n _ _ (Option.some.inj this)).symm
  simp [slotValue, h, hz]

theorem make_slotValue_rot_z (P : ThreeMath K) (t : Object3DK K) (yup : Bool)
    (n : String) (j : Nat) (r : Rot3Angles K)
    (h : (Kinematics.make P t yup).qConfigIndex (n ++ sufZ) = some j) :
    slotValue (Kinematics.make P t yup) (n, .rot r) j = some r.z := by
  simp [slotValue, h]

theorem slotValue_num_self (kin : Kinematics K) (n : String) (j : Nat) (v : K)
    (h : kin.qConfigIndex n = some j) :
    slotValue kin (n, .num v) j = some v := by
  simp [slotValue, h]

theorem make_label_mem_rev_x (P : ThreeMath K) (t : Object3DK K) (yup : Bool)
    (n : String) (hn : n ∈ (Kinematics.make P t yup).map)
    (hx : includesS n mXYZ = true) :
    (n ++ sufX) ∈ (Kinematics.make P t yup).qConfigIndexReversed := by
  rw [make_rev_def]
  exact List.mem_flatMap.mpr ⟨n, hn, by simp [labelsOf, hx]⟩

theorem make_label_mem_rev_y (P : ThreeMath K) (t : Object3DK K) (yup : Bool)
    (n : String) (hn : n ∈ (Kinematics.make P t yup).map)
    (hx : includesS n mXYZ = true) :
    (n ++ sufY) ∈ (Kinematics.make P t yup).qConfigIndexReversed := by
  rw [make_rev_def]
  exact List.mem_flatMap.mpr ⟨n, hn, by simp [labelsOf, hx]⟩

theorem make_label_mem_rev_z (P : ThreeMath K) (t : Object3DK K) (yup : Bool)
    (n : String) (hn : n ∈ (Kinematics.make P t yup).map)
    (hx : includesS n mXYZ = true) :
    (n ++ sufZ) ∈ (Kinematics.make P t yup).qConfigIndexReversed := by
  rw [make_rev_def]
  exact List.mem_flatMap.mpr ⟨n, hn, by simp [labelsOf, hx]⟩

theorem make_label_mem_rev_num (P : ThreeMath K) (t : Object3DK K) (yup : Bool)
    (n : String) (hn : n ∈ (Kinematics.make P t yup).map)
    (hxf : includesS n mXYZ = false) (hz : includesS n mZ = true) :
    n ∈ (Kinematics.make P t yup).qConfigIndexReversed := by
  rw [make_rev_def]
  exact List.mem_flatMap.mpr ⟨n, hn, by simp [labelsOf, hxf, hz]⟩

theorem make_idx_of_mem_rev (P : ThreeMath K) (t : Object3DK K) (yup : Bool)
    (l : String) (h : l ∈ (Kinematics.make P t yup).qConfigIndexReversed) :
    ∃ j, (Kinematics.make P t yup).qConfigIndex l = some j := by
  obtain ⟨j, hj⟩ := List.mem_iff_getElem?.mp h
  exact ⟨j, (make_idx_iff P t yup _ _).mpr hj⟩

theorem isRotV_cases (w : JointValue K) (h : w.isRotV = true) :
    ∃ r, w = JointValue.rot r := by
  cases w with
  | num v => cases h
  | rot r => exact ⟨r, rfl⟩

theorem isRotV_false_cases (w : JointValue K) (h : w.isRotV = false) :
    ∃ v, w = JointValue.num v := by
  cases w with
  | num v => exact ⟨v, rfl⟩
  | rot r => cases h

end EngineLemmas14


section EngineLemmas15

variable {K : Type} [LinearOrderedField K]

theorem forwardKinematics_cover (P : ThreeMath K) (kin : Kinematics K) (q : JointAngles K)
    (A : Matrix4K K) (links : List (String × Matrix4K K)) (kin2 : Kinematics K)
    (h : forwardKinematics P kin q A = .ok (links, kin2)) :
    ∀ n ∈ kin.root.names, (objGet links n).isSome = true := by
  unfold forwardKinematics at h
  cases h1 : setConfiguration P kin q with
  | error e =>
    rw [h1, exceptBind_error] at h
    cases h
  | ok kin1 =>
    rw [h1, exceptBind_ok] at h
    cases h2 : setConfiguration P kin1 (getCurrentStateConfig kin) with
    | error e =>
      rw [h2, exceptBind_error] at h
      cases h
    | ok kin2' =>
      rw [h2, exceptBind_ok] at h
      injection h with h
      injection h with hl hk
      intro n hn
      rw [← hl]
      apply fkRec_isSome
      right
      rw [← (setConfiguration_static P q kin kin1 h1).1]
      exact hn

/-- `vectorToConfig` on any engine state sharing the construction-time index
of a regularly named tree succeeds on every full-length vector. -/
theorem vtc_ok_of_static (P : ThreeMath K) (t : Object3DK K) (yup : Bool)
    (k : Kinematics K) (hs : sameStatic (Kinematics.make P t yup) k)
    (v : List K) (hw : wellNamed t)
    (hv : v.length = (Kinematics.make P t yup).qConfigLength) :
    vectorToConfig P k v = .ok (buildGroups (Kinematics.make P t yup).map v) := by
  have h := vtc_main P k (Kinematics.make P t yup).map [] [] v
    (by rw [← hs.2.2.2.2.1]
        simpa using make_rev_def P t yup)
    (by rw [hv, make_flat_len]) (fun n _ => rfl)
    (make_map_nodup P t yup) (make_wellNamed_map P t yup hw)
  simpa [vectorToConfig] using h

theorem vtc_noerr_of_static (P : ThreeMath K) (t : Object3DK K) (yup : Bool)
    (k : Kinematics K) (hs : sameStatic (Kinematics.make P t yup) k)
    (v : List K) (hw : wellNamed t)
    (hv : v.length = (Kinematics.make P t yup).qConfigLength) (e : Unit)
    (h : vectorToConfig P k v = .error e) : False := by
  rw [vtc_ok_of_static P t yup k hs v hw hv] at h
  cases h

theorem bg_keys_sub_of_static (P : ThreeMath K) (t : Object3DK K) (yup : Bool)
    (k : Kinematics K) (hs : sameStatic (Kinematics.make P t yup) k)
    (v : List K) (hv : v.length = (Kinematics.make P t yup).qConfigLength) :
    ∀ n ∈ objKeys (buildGroups (Kinematics.make P t yup).map v : JointAngles K),
      n ∈ k.map := by
  intro n hn
  rw [buildGroups_keys _ _ (by rw [hv, make_flat_len])] at hn
  rw [← hs.2.2.1]
  exact (List.mem_filter.mp hn).1

theorem vtc_set_noerr (P : ThreeMath K) (t : Object3DK K) (yup : Bool)
    (k : Kinematics K) (hs : sameStatic (Kinematics.make P t yup) k)
    (w : List K) (hw : wellNamed t)
    (hlen : w.length = (Kinematics.make P t yup).qConfigLength)
    (i : Nat) (x : K) (e : Unit)
    (h : vectorToConfig P k (w.set i x) = .error e) : False :=
  vtc_noerr_of_static P t yup k hs (w.set i x) hw
    (by rw [List.length_set]; exact hlen) e h

theorem fk_after_vtc_noerr (P : ThreeMath K) (t : Object3DK K) (yup : Bool)
    (k : Kinematics K) (hs : sameStatic (Kinematics.make P t yup) k)
    (w : List K) (hw : wellNamed t)
    (hlen : w.length = (Kinematics.make P t yup).qConfigLength)
    (i : Nat) (x : K) (q2 : JointAngles K) (A : Matrix4K K)
    (hvtc : vectorToConfig P k (w.set i x) = .ok q2) (e : Unit)
    (hfk : forwardKinematics P k q2 A = .error e) : False := by
  rw [vtc_ok_of_static P t yup k hs (w.set i x) hw
    (by rw [List.length_set]; exact hlen)] at hvtc
  injection hvtc with hq2
  obtain ⟨links, kin2, hfkok, _, _⟩ := forwardKinematics_ok P k _ A
    (bg_keys_sub_of_static P t yup k hs (w.set i x)
      (by rw [List.length_set]; exact hlen))
  rw [← hq2, hfkok] at hfk
  cases hfk

theorem fk_cover_noerr (P : ThreeMath K) (t : Object3DK K) (yup : Bool)
    (k : Kinematics K) (hs : sameStatic (Kinematics.make P t yup) k)
    (q2 : JointAngles K) (A : Matrix4K K) (fwd2 : List (String × Matrix4K K))
    (kin2 : Kinematics K) (joint : String) (hjoint : joint ∈ t.names)
    (hfk : forwardKinematics P k q2 A = .ok (fwd2, kin2))
    (hnone : objGet fwd2 joint = none) : False := by
  have hcv := forwardKinematics_cover P k q2 A fwd2 kin2 hfk joint
    (by rw [← hs.1]; exact hjoint)
  rw [hnone] at hcv
  cases hcv

theorem ikDofStep_inv (P : ThreeMath K) (t : Object3DK K) (yup : Bool)
    (joint : String) (target : Vector3K K) (A : Matrix4K K) (alpha : K)
    (jointName : String) (S : IKState K) (dof : String) (S' : IKState K)
    (hstat : sameStatic (Kinematics.make P t yup) S.kin)
    (hlen : S.vec.length = (Kinematics.make P t yup).qConfigLength)
    (hcov : ∀ n ∈ t.names, (objGet S.fwd n).isSome = true)
    (h : ikDofStep P joint target A alpha jointName S dof = .ok S') :
    sameStatic (Kinematics.make P t yup) S'.kin ∧
      S'.vec.length = (Kinematics.make P t yup).qConfigLength ∧
      (∀ n ∈ t.names, (objGet S'.fwd n).isSome = true) := by
  simp only [ikDofStep] at h
  repeat' split at h
  all_goals
    first
      | (injection h with h
         exact h ▸ ⟨hstat, hlen, hcov⟩)
      | (injection h with h
         subst h
         refine ⟨sameStatic_trans hstat
           (forwardKinematics_static P S.kin _ A _ _ (by assumption)),
           by simpa using hlen, ?_⟩
         intro n hn
         apply forwardKinematics_cover P S.kin _ A _ _ (by assumption)
         rw [← hstat.1]
         exact hn)
      | cases h

theorem ikDofStep_noerr (P : ThreeMath K) (t : Object3DK K) (yup : Bool)
    (joint : String) (target : Vector3K K) (A : Matrix4K K) (alpha : K)
    (jointName : String) (S : IKState K) (dof : String)
    (hw : wellNamed t) (hjoint : joint ∈ t.names) (hname : jointName ∈ t.names)
    (hstat : sameStatic (Kinematics.make P t yup) S.kin)
    (hlen : S.vec.length = (Kinematics.make P t yup).qConfigLength)
    (hcov : ∀ n ∈ t.names, (objGet S.fwd n).isSome = true) (e : Unit)
    (h : ikDofStep P joint target A alpha jointName S dof = .error e) : False := by
  simp only [ikDofStep] at h
  repeat' split at h
  all_goals try cases h
  all_goals
    first
      | (rename_i xd heq
         have hs2 := hcov jointName hname
         rw [heq] at hs2
         cases hs2)
      | (rename_i xd heq
         have hs2 := hcov joint hjoint
         rw [heq] at hs2
         cases hs2)
      | (rename_i xd e2 heq
         exact vtc_set_noerr P t yup S.kin hstat S.vec hw hlen _ _ e2 heq)
      | (rename_i xd q2 hvtc xd2 e2 heq
         exact fk_after_vtc_noerr P t yup S.kin hstat S.vec hw hlen _ _ q2 A
           hvtc e2 heq)
      | (rename_i xd q2 hvtc xd2 fwd2 kin2 hfk xd3 heqo
         exact fk_cover_noerr P t yup S.kin hstat q2 A fwd2 kin2 joint hjoint
           hfk heqo)

theorem ikDofStep_ok (P : ThreeMath K) (t : Object3DK K) (yup : Bool)
    (joint : String) (target : Vector3K K) (A : Matrix4K K) (alpha : K)
    (jointName : String) (S : IKState K) (dof : String)
    (hw : wellNamed t) (hjoint : joint ∈ t.names) (hname : jointName ∈ t.names)
    (hstat : sameStatic (Kinematics.make P t yup) S.kin)
    (hlen : S.vec.length = (Kinematics.make P t yup).qConfigLength)
    (hcov : ∀ n ∈ t.names, (objGet S.fwd n).isSome = true) :
    ∃ S', ikDofStep P joint target A alpha jointName S dof = .ok S' ∧
      sameStatic (Kinematics.make P t yup) S'.kin ∧
      S'.vec.length = (Kinematics.make P t yup).qConfigLength ∧
      (∀ n ∈ t.names, (objGet S'.fwd n).isSome = true) := by
  cases hres : ikDofStep P joint target A alpha jointName S dof with
  | error e =>
    exact absurd hres (fun hres => ikDofStep_noerr P t yup joint target A alpha
      jointName S dof hw hjoint hname hstat hlen hcov e hres)
  | ok S' =>
    exact ⟨S', rfl, ikDofStep_inv P t yup joint target A alpha jointName S dof S'
      hstat hlen hcov hres⟩

theorem foldlM_except_ok {sigma beta : Type} (Inv : sigma → Prop)
    (f : sigma → beta → Except Unit sigma) :
    ∀ l : List beta,
      (∀ S d, d ∈ l → Inv S → ∃ S', f S d = .ok S' ∧ Inv S') →
      ∀ S, Inv S → ∃ S', l.foldlM f S = .ok S' ∧ Inv S' := by
  intro l
  induction l with
  | nil =>
    intro _ S hS
    exact ⟨S, by rw [List.foldlM_nil]; rfl, hS⟩
  | cons d ds ih =>
    intro hstep S hS
    obtain ⟨S1, h1, hS1⟩ := hstep S d (by simp) hS
    obtain ⟨S2, h2, hS2⟩ :=
      ih (fun S d hd => hstep S d (List.mem_cons_of_mem _ hd)) S1 hS1
    exact ⟨S2, by rw [List.foldlM_cons, h1, exceptBind_ok, h2], hS2⟩

theorem ikJointStep_ok (P : ThreeMath K) (t : Object3DK K) (yup : Bool)
    (joint : String) (target : Vector3K K) (A : Matrix4K K) (alpha : K)
    (S : IKState K) (jointName : String)
    (hw : wellNamed t) (hjoint : joint ∈ t.names) (hname : jointName ∈ t.names)
    (hstat : sameStatic (Kinematics.make P t yup) S.kin)
    (hlen : S.vec.length = (Kinematics.make P t yup).qConfigLength)
    (hcov : ∀ n ∈ t.names, (objGet S.fwd n).isSome = true) :
    ∃ S', ikJointStep P joint target A alpha S jointName = .ok S' ∧
      sameStatic (Kinematics.make P t yup) S'.kin ∧
      S'.vec.length = (Kinematics.make P t yup).qConfigLength ∧
      (∀ n ∈ t.names, (objGet S'.fwd n).isSome = true) := by
  unfold ikJointStep
  exact foldlM_except_ok
    (fun S => sameStatic (Kinematics.make P t yup) S.kin ∧
      S.vec.length = (Kinematics.make P t yup).qConfigLength ∧
      (∀ n ∈ t.names, (objGet S.fwd n).isSome = true))
    (ikDofStep P joint target A alpha jointName) _
    (fun S d _ hS => ikDofStep_ok P t yup joint target A alpha jointName S d
      hw hjoint hname hS.1 hS.2.1 hS.2.2)
    S ⟨hstat, hlen, hcov⟩

theorem ikSweep_ok (P : ThreeMath K) (t : Object3DK K) (yup : Bool)
    (joint : String) (target : Vector3K K) (A : Matrix4K K) (alpha : K)
    (chain : List String) (S : IKState K)
    (hw : wellNamed t) (hjoint : joint ∈ t.names)
    (hchain : ∀ c ∈ chain, c ∈ t.names)
    (hstat : sameStatic (Kinematics.make P t yup) S.kin)
    (hlen : S.vec.length = (Kinematics.make P t yup).qConfigLength)
    (hcov : ∀ n ∈ t.names, (objGet S.fwd n).isSome = true) :
    ∃ S', ikSweep P joint target A alpha chain S = .ok S' ∧
      sameStatic (Kinematics.make P t yup) S'.kin ∧
      S'.vec.length = (Kinematics.make P t yup).qConfigLength ∧
      (∀ n ∈ t.names, (objGet S'.fwd n).isSome = true) := by
  unfold ikSweep
  exact foldlM_except_ok
    (fun S => sameStatic (Kinematics.make P t yup) S.kin ∧
      S.vec.length = (Kinematics.make P t yup).qConfigLength ∧
      (∀ n ∈ t.names, (objGet S.fwd n).isSome = true))
    (ikJointStep P joint target A alpha) _
    (fun S d hd hS => ikJointStep_ok P t yup joint target A alpha S d
      hw hjoint (hchain d (List.mem_reverse.mp hd)) hS.1 hS.2.1 hS.2.2)
    S ⟨hstat, hlen, hcov⟩

theorem ikLoopAux_ok (P : ThreeMath K) (t : Object3DK K) (yup : Bool)
    (joint : String) (target : Vector3K K) (A : Matrix4K K) (alpha limit : K)
    (chain : List String)
    (hw : wellNamed t) (hjoint : joint ∈ t.names)
    (hchain : ∀ c ∈ chain, c ∈ t.names) :
    ∀ (fuel : Nat) (S : IKState K) (count : Nat),
      sameStatic (Kinematics.make P t yup) S.kin →
      S.vec.length = (Kinematics.make P t yup).qConfigLength →
      (∀ n ∈ t.names, (objGet S.fwd n).isSome = true) →
      ∃ S' count',
        ikLoopAux P joint target A alpha limit chain fuel S count = .ok (S', count') ∧
        sameStatic (Kinematics.make P t yup) S'.kin ∧
        S'.vec.length = (Kinematics.make P t yup).qConfigLength ∧
        (∀ n ∈ t.names, (objGet S'.fwd n).isSome = true) ∧
        count' ≤ count + fuel ∧
        (limit < S'.dErr.lengthSq → count' = count + fuel) := by
  intro fuel
  induction fuel with
  | zero =>
    intro S count hstat hlen hcov
    exact ⟨S, count, rfl, hstat, hlen, hcov, Nat.le_refl _, fun _ => rfl⟩
  | succ n ih =>
    intro S count hstat hlen hcov
    by_cases hc : limit < S.dErr.lengthSq
    · obtain ⟨S1, hsw, hstat1, hlen1, hcov1⟩ :=
        ikSweep_ok P t yup joint target A alpha chain S hw hjoint hchain
          hstat hlen hcov
      obtain ⟨S', count', hloop, hstat', hlen', hcov', hle, hexit⟩ :=
        ih S1 (count + 1) hstat1 hlen1 hcov1
      refine ⟨S', count', ?_, hstat', hlen', hcov', by omega, fun h => by
        have := hexit h
        omega⟩
      unfold ikLoopAux
      rw [if_pos hc, hsw]
      exact hloop
    · refine ⟨S, count, ?_, hstat, hlen, hcov, by omega, fun h => absurd h hc⟩
      unfold ikLoopAux
      rw [if_neg hc]

theorem getChain_congr (k1 k2 : Kinematics K) (h : k1.root = k2.root) (e : String) :
    getChain k1 e = getChain k2 e := by
  unfold getChain
  rw [h]

theorem ancestorsBelowRoot_sub (t : Object3DK K) (e : String) :
    ∀ c ∈ ancestorsBelowRoot t e, c ∈ t.names := by
  intro c hc
  unfold ancestorsBelowRoot at hc
  cases hp : Object3DK.pathTo t e with
  | none =>
    rw [hp] at hc
    simp at hc
  | some p =>
    rw [hp] at hc
    simp only [Option.getD_some] at hc
    obtain ⟨_, hsub, _⟩ := pathTo_spec e t p hp
    exact hsub.mem (List.mem_of_mem_drop (List.mem_of_mem_dropLast hc))

theorem chain_mem_names (P : ThreeMath K) (t : Object3DK K) (yup : Bool)
    (e : String) (hnd : t.names.Nodup) (he : e ∈ t.names) :
    ∀ c ∈ getChain (Kinematics.make P t yup) e, c ∈ t.names := by
  intro c hc
  rw [getChain_eq P t yup e hnd] at hc
  rcases List.mem_append.mp hc with hc | hc
  · exact ancestorsBelowRoot_sub t e c (List.mem_filter.mp hc).1
  · rw [List.mem_singleton.mp hc]
    exact he

end EngineLemmas15


section EngineLemmas16

variable {K : Type} [LinearOrderedField K]

/-- Looking up the grouped configuration rebuilt from `configToVector q`
agrees with `q` at every name, for a total well-shaped `q`. -/
theorem bg_lookup_eq (P : ThreeMath K) (t : Object3DK K) (yup : Bool)
    (q : JointAngles K) (hw : wellNamed t) (hnd : (objKeys q).Nodup)
    (hcov1 : ∀ n ∈ objKeys q, n ∈ dofJoints (Kinematics.make P t yup))
    (hcov2 : ∀ n ∈ dofJoints (Kinematics.make P t yup), n ∈ objKeys q)
    (hshape : ∀ kv ∈ q, kv.2.isRotV = includesS kv.1 mXYZ) :
    ∀ n, objGet (buildGroups (Kinematics.make P t yup).map
      (configToVector (Kinematics.make P t yup) q)) n = objGet q n := by
  have hbij := make_idx_iff P t yup
  have hlenv := configToVector_length (Kinematics.make P t yup) q
  have hkeys' : objKeys (buildGroups (Kinematics.make P t yup).map
      (configToVector (Kinematics.make P t yup) q)) =
      dofJoints (Kinematics.make P t yup) :=
    buildGroups_keys _ _ (by rw [hlenv, make_flat_len])
  have hnd' := make_bg_keys_nodup P t yup _ hlenv
  have hshape' := make_bg_shape P t yup (configToVector (Kinematics.make P t yup) q) hw
  have hctvbg := make_ctv_bg P t yup (configToVector (Kinematics.make P t yup) q) hw hlenv
  have hshapeq : ∀ kv ∈ q, kv.2.isNum = true → ¬ axisSuffixed kv.1 := by
    intro kv hkv hnum
    have hk1 : kv.1 ∈ objKeys q := List.mem_map_of_mem Prod.fst hkv
    have hdof := hcov1 _ hk1
    unfold dofJoints at hdof
    rw [List.mem_filter] at hdof
    have hrotv : kv.2.isRotV = false := by
      cases hw2 : kv.2 with
      | num v => rfl
      | rot r =>
        rw [hw2] at hnum
        cases hnum
    have hxf : includesS kv.1 mXYZ = false := by
      rw [← hshape kv hkv]
      exact hrotv
    have hzm : zOnlyMarked kv.1 := ⟨by simpa [hxf] using hdof.2, hxf⟩
    exact make_wellNamed_map P t yup hw kv.1 hdof.1 hzm
  intro n
  by_cases hdof : n ∈ dofJoints (Kinematics.make P t yup)
  · obtain ⟨kv, hkvq, hfst⟩ := List.mem_map.mp (hcov2 n hdof)
    obtain ⟨kv', hkvq', hfst'⟩ := List.mem_map.mp
      (show n ∈ objKeys (buildGroups (Kinematics.make P t yup).map
        (configToVector (Kinematics.make P t yup) q)) by rw [hkeys']; exact hdof)
    have hgq : objGet q n = some kv.2 := by
      rw [← hfst]
      exact objGet_of_mem_nodup q kv hnd hkvq
    have hgq' : objGet (buildGroups (Kinematics.make P t yup).map
        (configToVector (Kinematics.make P t yup) q)) n = some kv'.2 := by
      rw [← hfst']
      exact objGet_of_mem_nodup _ kv' hnd' hkvq'
    rw [hgq, hgq']
    have hdof2 := hdof
    unfold dofJoints at hdof2
    rw [List.mem_filter] at hdof2
    obtain ⟨hmemMap, hmarked⟩ := hdof2
    obtain ⟨hmem', hrotv', hzm'⟩ :=
      buildGroups_mem (Kinematics.make P t yup).map _ kv' hkvq'
    by_cases hx : includesS n mXYZ = true
    · obtain ⟨r, hr⟩ := isRotV_cases kv.2 (by rw [hshape kv hkvq, hfst]; exact hx)
      obtain ⟨r', hr'⟩ := isRotV_cases kv'.2 (by rw [hrotv', hfst']; exact hx)
      have hkveq : kv = (n, JointValue.rot r) := by
        rw [← hfst, ← hr]
      have hkveq' : kv' = (n, JointValue.rot r') := by
        rw [← hfst', ← hr']
      obtain ⟨jx, hjx⟩ := make_idx_of_mem_rev P t yup _
        (make_label_mem_rev_x P t yup n hmemMap hx)
      obtain ⟨jy, hjy⟩ := make_idx_of_mem_rev P t yup _
        (make_label_mem_rev_y P t yup n hmemMap hx)
      obtain ⟨jz, hjz⟩ := make_idx_of_mem_rev P t yup _
        (make_label_mem_rev_z P t yup n hmemMap hx)
      have hvx : (configToVector (Kinematics.make P t yup) q).get? jx = some r.x :=
        ctv_readback _ hbij q hnd hshapeq (n, .rot r) (hkveq ▸ hkvq) jx r.x
          (make_slotValue_rot_x P t yup n jx r hjx) (make_idx_lt P t yup _ _ hjx)
      have hvy : (configToVector (Kinematics.make P t yup) q).get? jy = some r.y :=
        ctv_readback _ hbij q hnd hshapeq (n, .rot r) (hkveq ▸ hkvq) jy r.y
          (make_slotValue_rot_y P t yup n jy r hjy) (make_idx_lt P t yup _ _ hjy)
      have hvz : (configToVector (Kinematics.make P t yup) q).get? jz = some r.z :=
        ctv_readback _ hbij q hnd hshapeq (n, .rot r) (hkveq ▸ hkvq) jz r.z
          (make_slotValue_rot_z P t yup n jz r hjz) (make_idx_lt P t yup _ _ hjz)
      have hvx' : (configToVector (Kinematics.make P t yup) q).get? jx = some r'.x := by
        have := ctv_readback _ hbij _ hnd' hshape' (n, .rot r') (hkveq' ▸ hkvq') jx r'.x
          (make_slotValue_rot_x P t yup n jx r' hjx) (make_idx_lt P t yup _ _ hjx)
        rwa [hctvbg] at this
      have hvy' : (configToVector (Kinematics.make P t yup) q).get? jy = some r'.y := by
        have := ctv_readback _ hbij _ hnd' hshape' (n, .rot r') (hkveq' ▸ hkvq') jy r'.y
          (make_slotValue_rot_y P t yup n jy r' hjy) (make_idx_lt P t yup _ _ hjy)
        rwa [hctvbg] at this
      have hvz' : (configToVector (Kinematics.make P t yup) q).get? jz = some r'.z := by
        have := ctv_readback _ hbij _ hnd' hshape' (n, .rot r') (hkveq' ▸ hkvq') jz r'.z
          (make_slotValue_rot_z P t yup n jz r' hjz) (make_idx_lt P t yup _ _ hjz)
        rwa [hctvbg] at this
      have hex : r.x = r'.x := Option.some.inj (hvx.symm.trans hvx')
      have hey : r.y = r'.y := Option.some.inj (hvy.symm.trans hvy')
      have hez : r.z = r'.z := Option.some.inj (hvz.symm.trans hvz')
      rw [hr, hr']
      obtain ⟨r1, r2, r3⟩ := r
      obtain ⟨r1', r2', r3'⟩ := r'
      simp only at hex hey hez
      rw [hex, hey, hez]
    · have hxf : includesS n mXYZ = false := by simpa using hx
      have hzz : includesS n mZ = true := by simpa [hxf] using hmarked
      obtain ⟨v, hv⟩ := isRotV_false_cases kv.2 (by rw [hshape kv hkvq, hfst]; exact hxf)
      obtain ⟨v', hv'⟩ := isRotV_false_cases kv'.2 (by rw [hrotv', hfst']; exact hxf)
      have hkveq : kv = (n, JointValue.num v) := by
        rw [← hfst, ← hv]
      have hkveq' : kv' = (n, JointValue.num v') := by
        rw [← hfst', ← hv']
      obtain ⟨jn, hjn⟩ := make_idx_of_mem_rev P t yup _
        (make_label_mem_rev_num P t yup n hmemMap hxf hzz)
      have hvn : (configToVector (Kinematics.make P t yup) q).get? jn = some v :=
        ctv_readback _ hbij q hnd hshapeq (n, .num v) (hkveq ▸ hkvq) jn v
          (slotValue_num_self _ n jn v hjn) (make_idx_lt P t yup _ _ hjn)
      have hvn' : (configToVector (Kinematics.make P t yup) q).get? jn = some v' := by
        have := ctv_readback _ hbij _ hnd' hshape' (n, .num v') (hkveq' ▸ hkvq') jn v'
          (slotValue_num_self _ n jn v' hjn) (make_idx_lt P t yup _ _ hjn)
        rwa [hctvbg] at this
      have hev : v = v' := Option.some.inj (hvn.symm.trans hvn')
      rw [hv, hv', hev]
  · rw [(objGet_none_iff _ n).mpr (by rw [hkeys']; exact hdof),
      (objGet_none_iff q n).mpr (fun hk => hdof (hcov1 n hk))]


end EngineLemmas16

/-! Claim theorems. -/

section Claims

variable {K : Type} [LinearOrderedField K]

/-- C1 (counterexample): the claim says an entry naming a joint absent from
the tree is silently ignored and the call does not fail; on the engine over
`treeA` (which has no node `Ghost`), `setConfiguration` with such an entry
throws. -/
theorem C1_counterexample :
    setConfiguration Pq kinA [(nGhost, JointValue.num 1)] = Except.error () := rfl

/-- C1 (amended): a `setConfiguration` call succeeds exactly when every
entry's joint name is a key of the name-to-node map; an entry naming a joint
absent from the tree makes the call throw a `TypeError` (it is not ignored),
and entries are never ignored on account of being absent from the DOF
index. -/
theorem C1_setConfiguration_ok_iff (P : ThreeMath K) (kin : Kinematics K) (q : JointAngles K) :
    (setConfiguration P kin q).isOk = true ↔ ∀ k ∈ objKeys q, k ∈ kin.map :=
  setConfiguration_isOk_iff P q kin

/-- C1 (witness): instance of the amended claim on a concrete engine. -/
theorem C1_witness : (setConfiguration Pq kinA [(nA, JointValue.num 1)]).isOk = true :=
  (C1_setConfiguration_ok_iff Pq kinA [(nA, JointValue.num 1)]).mpr (by decide)

/-- C2 (counterexample): the claim quantifies over every configuration and
both up-axis conventions; on the y-up engine over `treeA`, one FK call with
the dictionary-valued entry for the 1-DOF joint changes the queryable
configuration from z = 0 to z = 3, because the scalar restore writes the y
component while `getCurrentStateConfig` reads z. -/
theorem C2_counterexample :
    Except.map (fun x => getCurrentStateConfig x.2)
        (forwardKinematics Pq kinAy [(nA, JointValue.rot ⟨1, 2, 3⟩)] Matrix4K.ident) =
      Except.ok [(nA, JointValue.num 3)] ∧
    getCurrentStateConfig kinAy = [(nA, JointValue.num 0)] ∧
    JointValue.num (3 : ℚ) ≠ JointValue.num 0 :=
  ⟨rfl, rfl, by decide⟩

/-- C2 (amended): for every configuration whose entries name nodes present
in the tree and whose dictionary-valued entries do not target a node read as
a 1-DOF joint, one call to the FK evaluator succeeds and leaves the tree's
queryable configuration (`getCurrentStateConfig`) identical to what it was
immediately before the call, under either up-axis convention. -/
theorem C2_fk_restores_config (P : ThreeMath K) (kin : Kinematics K) (q : JointAngles K)
    (A : Matrix4K K)
    (h : ∀ kv ∈ q, kv.1 ∈ kin.map ∧ (kv.2.isNum = true ∨ ¬ readsZ kv.1)) :
    Except.map (fun x => getCurrentStateConfig x.2) (forwardKinematics P kin q A) =
      Except.ok (getCurrentStateConfig kin) :=
  forwardKinematics_restores P kin q A (fun kv hkv => (h kv hkv).1)
    (fun kv hkv => isRotV_shape kv (h kv hkv).2)

/-- C2 (witness): instance of the amended claim on the concrete y-up engine
with a scalar entry. -/
theorem C2_witness :
    Except.map (fun x => getCurrentStateConfig x.2)
        (forwardKinematics Pq kinAy [(nA, JointValue.num 5)] Matrix4K.ident) =
      Except.ok (getCurrentStateConfig kinAy) :=
  C2_fk_restores_config Pq kinAy [(nA, JointValue.num 5)] Matrix4K.ident (by decide)

/-- C9: the constructor captures the current configuration, biases the four
named lower-leg joints (appending each name that is missing), and runs an FK
evaluation applying that configuration; for every tree missing any of the
four names, that `setConfiguration` hits an unknown key and construction
throws instead of returning an engine. -/
theorem C9_constructor_requires_bias_joints (P : ThreeMath K) (t : Object3DK K) (yup : Bool)
    (h : nBackL ∉ t.names ∨ nBackR ∉ t.names ∨ nFrontL ∉ t.names ∨ nFrontR ∉ t.names) :
    Kinematics.new P t yup = Except.error () := by
  obtain ⟨m, hmem4, hnot⟩ :
      ∃ m, m ∈ [nBackL, nBackR, nFrontL, nFrontR] ∧ m ∉ t.names := by
    rcases h with hm | hm | hm | hm
    · exact ⟨nBackL, by simp, hm⟩
    · exact ⟨nBackR, by simp, hm⟩
    · exact ⟨nFrontL, by simp, hm⟩
    · exact ⟨nFrontR, by simp, hm⟩
  have hmem : ∀ q0 : JointAngles K, m ∈ objKeys (homeBias P q0) := by
    intro q0
    unfold homeBias
    rcases List.mem_cons.mp hmem4 with rfl | hm
    · exact mem_objKeys_objSet_of _ _ _ _ (mem_objKeys_objSet_of _ _ _ _
        (mem_objKeys_objSet_of _ _ _ _ (mem_objKeys_objSet_self _ _ _)))
    rcases List.mem_cons.mp hm with rfl | hm
    · exact mem_objKeys_objSet_of _ _ _ _ (mem_objKeys_objSet_of _ _ _ _
        (mem_objKeys_objSet_self _ _ _))
    rcases List.mem_cons.mp hm with rfl | hm
    · exact mem_objKeys_objSet_of _ _ _ _ (mem_objKeys_objSet_self _ _ _)
    rcases List.mem_cons.mp hm with rfl | hm
    · exact mem_objKeys_objSet_self _ _ _
    · cases hm
  have hnotmap : m ∉ ({ Kinematics.make P t yup with
      homePositionConfig :=
        homeBias P (getCurrentStateConfig (Kinematics.make P t yup)) } : Kinematics K).map := by
    intro hmm
    exact hnot ((mem_make_map P t yup m).mp hmm)
  have herr := setConfiguration_error_of_missing P
    (homeBias P (getCurrentStateConfig (Kinematics.make P t yup)))
    ({ Kinematics.make P t yup with
      homePositionConfig :=
        homeBias P (getCurrentStateConfig (Kinematics.make P t yup)) } : Kinematics K)
    m (hmem _) hnotmap
  have hfk := fk_error_of_set_error P _ _ Matrix4K.ident herr
  have hnew : Kinematics.new P t yup =
      (forwardKinematics P
        ({ Kinematics.make P t yup with
          homePositionConfig :=
            homeBias P (getCurrentStateConfig (Kinematics.make P t yup)) } : Kinematics K)
        (homeBias P (getCurrentStateConfig (Kinematics.make P t yup))) Matrix4K.ident).bind
        (fun fk => Except.ok { fk.2 with homePositionFwd := fk.1 }) := rfl
  rw [hnew, hfk]
  rfl

/-- C9 (witness): the concrete tree `treeA` misses all four bias joints, and
construction over it throws. -/
theorem C9_witness : Kinematics.new Pq treeA false = Except.error () :=
  C9_constructor_requires_bias_joints Pq treeA false (by decide)

/-- C4: the configuration index built once at construction assigns DOF
labels to vector slots in ascending lexicographic name order (the map keys
are sorted and duplicate-free, and the reverse index is their
concatenation of per-joint labels, three consecutive x,y,z slots per
3-DOF-marked name and one per 1-DOF-marked name); label-to-index and
index-to-label are mutually inverse total maps whose size is the total DOF
count; and no engine operation changes the index fields. -/
theorem C4_index_order_bijection_immutable (P : ThreeMath K) (t : Object3DK K) (yup : Bool) :
    ((Kinematics.make P t yup).map.Pairwise (fun a b : String => a.data ≤ b.data) ∧
      (Kinematics.make P t yup).map.Nodup) ∧
    (Kinematics.make P t yup).qConfigIndexReversed =
      (Kinematics.make P t yup).map.flatMap labelsOf ∧
    (∀ l j, (Kinematics.make P t yup).qConfigIndex l = some j ↔
      (Kinematics.make P t yup).qConfigIndexReversed[j]? = some l) ∧
    (Kinematics.make P t yup).qConfigLength =
      ((Kinematics.make P t yup).map.map dofCount).sum ∧
    (∀ (kin' kin'' : Kinematics K) (q : JointAngles K),
      setConfiguration P kin' q = .ok kin'' →
      kin''.qConfigIndex = kin'.qConfigIndex ∧
      kin''.qConfigIndexReversed = kin'.qConfigIndexReversed ∧
      kin''.qConfigLength = kin'.qConfigLength) ∧
    (∀ (kin' : Kinematics K) (q : JointAngles K) (A : Matrix4K K)
      (links : List (String × Matrix4K K)) (kin'' : Kinematics K),
      forwardKinematics P kin' q A = .ok (links, kin'') →
      kin''.qConfigIndex = kin'.qConfigIndex ∧
      kin''.qConfigIndexReversed = kin'.qConfigIndexReversed ∧
      kin''.qConfigLength = kin'.qConfigLength) ∧
    (∀ (kin' : Kinematics K) (q : JointAngles K) (joint : String) (target : Vector3K K)
      (A : Matrix4K K) (alpha limit : K) (maxIterations : Nat) (out : IKOut K),
      inverseKinematics P kin' q joint target A alpha limit maxIterations = .ok out →
      out.kin.qConfigIndex = kin'.qConfigIndex ∧
      out.kin.qConfigIndexReversed = kin'.qConfigIndexReversed ∧
      out.kin.qConfigLength = kin'.qConfigLength) ∧
    (∀ (kin' : Kinematics K) (q : JointAngles K) (joint : String) (pos : Vector3K K)
      (dq : K) (A : Matrix4K K) (jac : List (Vector3K K)) (kin'' : Kinematics K),
      calcJacobian P kin' q joint pos dq A = .ok (jac, kin'') →
      kin''.qConfigIndex = kin'.qConfigIndex ∧
      kin''.qConfigIndexReversed = kin'.qConfigIndexReversed ∧
      kin''.qConfigLength = kin'.qConfigLength) := by
  refine ⟨⟨make_map_sorted P t yup, make_map_nodup P t yup⟩, make_rev_def P t yup,
    make_idx_iff P t yup, ?_, ?_, ?_, ?_, ?_⟩
  · rw [make_len_def, make_rev_def, List.length_flatMap]
    rfl
  · intro kin' kin'' q h
    have hs := setConfiguration_static P q kin' kin'' h
    exact ⟨hs.2.2.2.1.symm, hs.2.2.2.2.1.symm, hs.2.2.2.2.2.symm⟩
  · intro kin' q A links kin'' h
    have hs := forwardKinematics_static P kin' q A links kin'' h
    exact ⟨hs.2.2.2.1.symm, hs.2.2.2.2.1.symm, hs.2.2.2.2.2.symm⟩
  · intro kin' q joint target A alpha limit maxIterations out h
    have hs := inverseKinematics_static P kin' q joint target A alpha limit maxIterations out h
    exact ⟨hs.2.2.2.1.symm, hs.2.2.2.2.1.symm, hs.2.2.2.2.2.symm⟩
  · intro kin' q joint pos dq A jac kin'' h
    have hs := calcJacobian_static P kin' q joint pos dq A jac kin'' h
    exact ⟨hs.2.2.2.1.symm, hs.2.2.2.2.1.symm, hs.2.2.2.2.2.symm⟩

/-- C4 (witness): the bijection read off on a concrete engine. -/
theorem C4_witness :
    kinB.qConfigIndex nA = some 0 ∧ kinB.qConfigIndexReversed[0]? = some nA := by
  have h := C4_index_order_bijection_immutable Pq treeB false
  exact ⟨by decide, (h.2.2.1 nA 0).mp (by decide)⟩

/-- C8 (counterexample): the node `Arm_XYZ_u` of `treeX` carries the 3-DOF
marker, so it contributes DOF labels to the index, but
`getCurrentStateConfig` returns no entry for it because it lacks the
`RJoint_` prefix. -/
theorem C8_counterexample :
    kinX.qConfigIndex (nArmX ++ sufX) = some 0 ∧
    objGet (getCurrentStateConfig kinX) nArmX = none := ⟨rfl, rfl⟩

/-- C8 (amended): `getCurrentStateConfig` returns an entry exactly for the
map names that both start with `RJoint_` and carry a DOF marker: a triple
read from the node's current local rotation for a 3-DOF-marked name and the
z scalar for a 1-DOF-marked name; marker-carrying names without the prefix
(even though they contribute index labels) and all other names yield no
entry. -/
theorem C8_getCurrentConfiguration_entries (kin : Kinematics K) (n : String) :
    objGet (getCurrentStateConfig kin) n =
      if n ∈ kin.map then
        (if readsXYZ n then some (JointValue.rot (kin.rot n))
          else if readsZ n then some (JointValue.num (kin.rot n).z)
          else none)
      else none := by
  rw [objGet_gcsc]
  by_cases hm : n ∈ kin.map
  · rw [if_pos hm, if_pos hm]
    unfold gcscVal readsXYZ readsZ
    by_cases h1 : startsWithS n mRJoint = true
    · by_cases h2 : includesS n mXYZ = true
      · simp [h1, h2]
      · by_cases h3 : includesS n mZ = true <;>
          simp [h1, h2, h3]
    · simp [h1]
  · rw [if_neg hm, if_neg hm]

/-- C7: on a tree with unique node names, `getChain` of an effector present
in the tree returns the effector name preceded by exactly those strict
ancestors below the tree root whose names carry the `RJoint_` joint prefix,
ordered base joint first (each 3-DOF joint appearing once); for an effector
name absent from the tree it returns the singleton of that name. -/
theorem C7_getChain_ancestors (P : ThreeMath K) (t : Object3DK K) (yup : Bool) (e : String)
    (hnd : t.names.Nodup) :
    getChain (Kinematics.make P t yup) e =
      (ancestorsBelowRoot t e).filter (fun a => startsWithS a mRJoint) ++ [e] ∧
    (e ∉ t.names → getChain (Kinematics.make P t yup) e = [e]) := by
  refine ⟨getChain_eq P t yup e hnd, ?_⟩
  intro hne
  have hnone : Object3DK.pathTo t e = none := by
    cases hp : Object3DK.pathTo t e with
    | none => rfl
    | some p => exact absurd ((pathTo_isSome e t).mp (by rw [hp]; rfl)) hne
  rw [getChain_eq P t yup e hnd]
  unfold ancestorsBelowRoot
  rw [hnone]
  simp

/-- C7 (witness): chains on a concrete engine, for a present and an absent
effector name. -/
theorem C7_witness : getChain kinB nA = [nA] ∧ getChain kinB nGhost = [nGhost] := by
  have h1 := C7_getChain_ancestors Pq treeB false nA (by decide)
  have h2 := C7_getChain_ancestors Pq treeB false nGhost (by decide)
  exact ⟨h1.1.trans (by decide), h2.2 (by decide)⟩

/-- C10: over any engine built on a regularly named tree, `configToVector`
of a partial configuration has length `qConfigLength` with the sentinel
`-1000` in every slot the configuration does not cover, and the solver and
the Jacobian treat the partial configuration exactly as its sentinel
completion `q'`, the total configuration `vectorToConfig` reads back from
that vector. -/
theorem C10_sentinel_partial (P : ThreeMath K) (t : Object3DK K) (yup : Bool)
    (q : JointAngles K) (hw : wellNamed t) :
    (configToVector (Kinematics.make P t yup) q).length =
        (Kinematics.make P t yup).qConfigLength ∧
      (∀ j, j < (Kinematics.make P t yup).qConfigLength →
        j ∉ coveredSlots (Kinematics.make P t yup) q →
        (configToVector (Kinematics.make P t yup) q).get? j = some (-1000)) ∧
      (∃ q' : JointAngles K,
        vectorToConfig P (Kinematics.make P t yup)
            (configToVector (Kinematics.make P t yup) q) = .ok q' ∧
          configToVector (Kinematics.make P t yup) q' =
            configToVector (Kinematics.make P t yup) q ∧
          (∀ (joint : String) (target : Vector3K K) (A : Matrix4K K)
              (alpha limit : K) (maxIterations : Nat),
            inverseKinematics P (Kinematics.make P t yup) q joint target A alpha
                limit maxIterations =
              inverseKinematics P (Kinematics.make P t yup) q' joint target A alpha
                limit maxIterations) ∧
          (∀ (joint : String) (pos : Vector3K K) (dq : K) (A : Matrix4K K),
            calcJacobian P (Kinematics.make P t yup) q joint pos dq A =
              calcJacobian P (Kinematics.make P t yup) q' joint pos dq A)) := by
  refine ⟨configToVector_length _ _, ?_, ?_⟩
  · intro j hj hnc
    rw [configToVector_eq_fold]
    rw [ctv_fold_nowrite (Kinematics.make P t yup) q j _
      (fun kv hkv => slotValue_none_of_not_covered _ q j hnc kv hkv)]
    rw [List.get?_eq_getElem?, List.getElem?_replicate]
    rw [if_pos hj]
  · refine ⟨buildGroups (Kinematics.make P t yup).map
      (configToVector (Kinematics.make P t yup) q),
      make_vtc_ok P t yup _ hw (configToVector_length _ _), ?_, ?_, ?_⟩
    · exact make_ctv_bg P t yup _ hw (configToVector_length _ _)
    · intro joint target A alpha limit maxIterations
      exact inverseKinematics_congr P (Kinematics.make P t yup) _ _
        (make_ctv_bg P t yup _ hw (configToVector_length _ _)).symm
        joint target A alpha limit maxIterations
    · intro joint pos dq A
      exact calcJacobian_congr P (Kinematics.make P t yup) _ _
        (make_ctv_bg P t yup _ hw (configToVector_length _ _)).symm joint pos dq A

/-- Witness for C10 at a concrete engine and partial configuration. -/
theorem C10_witness :
    wellNamed (treeB : Object3DK ℚ) ∧
    ((configToVector (Kinematics.make Pq treeB false) [(nA, JointValue.num 5)]).length =
        (Kinematics.make Pq treeB false).qConfigLength ∧
      (∀ j, j < (Kinematics.make Pq treeB false).qConfigLength →
        j ∉ coveredSlots (Kinematics.make Pq treeB false) [(nA, JointValue.num 5)] →
        (configToVector (Kinematics.make Pq treeB false)
          [(nA, JointValue.num 5)]).get? j = some (-1000)) ∧
      (∃ q' : JointAngles ℚ,
        vectorToConfig Pq (Kinematics.make Pq treeB false)
            (configToVector (Kinematics.make Pq treeB false)
              [(nA, JointValue.num 5)]) = .ok q' ∧
          configToVector (Kinematics.make Pq treeB false) q' =
            configToVector (Kinematics.make Pq treeB false) [(nA, JointValue.num 5)] ∧
          (∀ (joint : String) (target : Vector3K ℚ) (A : Matrix4K ℚ)
              (alpha limit : ℚ) (maxIterations : Nat),
            inverseKinematics Pq (Kinematics.make Pq treeB false)
                [(nA, JointValue.num 5)] joint target A alpha limit maxIterations =
              inverseKinematics Pq (Kinematics.make Pq treeB false) q' joint target A
                alpha limit maxIterations) ∧
          (∀ (joint : String) (pos : Vector3K ℚ) (dq : ℚ) (A : Matrix4K ℚ),
            calcJacobian Pq (Kinematics.make Pq treeB false) [(nA, JointValue.num 5)]
                joint pos dq A =
              calcJacobian Pq (Kinematics.make Pq treeB false) q' joint pos dq A))) :=
  ⟨by decide, C10_sentinel_partial Pq treeB false [(nA, JointValue.num 5)] (by decide)⟩

/-- C3 counterexample: on the two-joint engine, the round trip of the
partial configuration `{RJoint_A_Z_: 5}` (keys a subset of the recognized
joints, scalar on a 1-DOF joint) picks up an extra `-1000` entry for the
uncovered joint, so it does not equal the input. -/
theorem C3_counterexample :
    vectorToConfig Pq kinB (configToVector kinB [(nA, JointValue.num 5)]) =
        .ok [(nA, JointValue.num 5), (nB, JointValue.num (-1000))] ∧
      objGet [(nA, JointValue.num 5)] nB = (none : Option (JointValue ℚ)) :=
  ⟨rfl, rfl⟩

/-- C3 (amended): over a regularly named tree, for a duplicate-free
configuration whose keys are exactly the recognized DOF joints, with a
rotation dictionary exactly on the 3-DOF-marked names, the round trip
`vectorToConfig (configToVector q)` succeeds and looks up equal to `q` at
every name. -/
theorem C3_roundtrip_total (P : ThreeMath K) (t : Object3DK K) (yup : Bool)
    (q : JointAngles K) (hw : wellNamed t) (hnd : (objKeys q).Nodup)
    (hcov1 : ∀ n ∈ objKeys q, n ∈ dofJoints (Kinematics.make P t yup))
    (hcov2 : ∀ n ∈ dofJoints (Kinematics.make P t yup), n ∈ objKeys q)
    (hshape : ∀ kv ∈ q, kv.2.isRotV = includesS kv.1 mXYZ) :
    ∃ q', vectorToConfig P (Kinematics.make P t yup)
        (configToVector (Kinematics.make P t yup) q) = .ok q' ∧
      ∀ n, objGet q' n = objGet q n :=
  ⟨buildGroups (Kinematics.make P t yup).map
      (configToVector (Kinematics.make P t yup) q),
    make_vtc_ok P t yup _ hw (configToVector_length _ _),
    bg_lookup_eq P t yup q hw hnd hcov1 hcov2 hshape⟩

/-- Witness for C3 at a concrete engine and a full configuration. -/
theorem C3_witness :
    wellNamed (treeB : Object3DK ℚ) ∧
    (∃ q', vectorToConfig Pq (Kinematics.make Pq treeB false)
        (configToVector (Kinematics.make Pq treeB false)
          [(nA, JointValue.num 1), (nB, JointValue.num 2)]) = .ok q' ∧
      ∀ n, objGet q' n = objGet [(nA, JointValue.num 1), (nB, JointValue.num 2)] n) :=
  ⟨by decide, C3_roundtrip_total Pq treeB false
    [(nA, JointValue.num 1), (nB, JointValue.num 2)]
    (by decide) (by decide) (by decide) (by decide) (by decide)⟩

/-- C5 counterexample: a solver call naming an effector absent from the
tree throws (the snapshot read `fwd[joint]` is `undefined` and
`.elements` fails) instead of returning a result quadruple. -/
theorem C5_counterexample :
    inverseKinematics Pq kinA [] nGhost ⟨0, 0, 0⟩ Matrix4K.ident (1 / 2) (1 / 10000) 5 =
      Except.error () := rfl

/-- C5 (amended): over a regularly named tree with duplicate-free names and
an effector present in the tree, every solver call returns a result without
throwing, after at most `maxIterations` sweeps, and if the returned squared
residual still exceeds the tolerance the iteration count is exactly
`maxIterations`. -/
theorem C5_solver_terminates (P : ThreeMath K) (t : Object3DK K) (yup : Bool)
    (q : JointAngles K) (joint : String) (target : Vector3K K) (A : Matrix4K K)
    (alpha limit : K) (maxIterations : Nat)
    (hw : wellNamed t) (hnd : t.names.Nodup) (hjoint : joint ∈ t.names) :
    ∃ out, inverseKinematics P (Kinematics.make P t yup) q joint target A alpha limit
        maxIterations = .ok out ∧ out.count ≤ maxIterations ∧
      (limit < out.dErr.lengthSq → out.count = maxIterations) := by
  have hvtc : vectorToConfig P (Kinematics.make P t yup)
      (configToVector (Kinematics.make P t yup) q) =
        .ok (buildGroups (Kinematics.make P t yup).map
          (configToVector (Kinematics.make P t yup) q)) :=
    make_vtc_ok P t yup _ hw (configToVector_length _ _)
  obtain ⟨links, kin2, hfk, hstat2, hcov2⟩ :=
    forwardKinematics_ok P (Kinematics.make P t yup)
      (buildGroups (Kinematics.make P t yup).map
        (configToVector (Kinematics.make P t yup) q)) A
      (bg_keys_sub_of_static P t yup _ (sameStatic_refl _) _ (configToVector_length _ _))
  have hjg : (objGet links joint).isSome = true := hcov2 joint hjoint
  obtain ⟨m, hm⟩ := Option.isSome_iff_exists.mp hjg
  have hchain : ∀ c ∈ getChain kin2 joint, c ∈ t.names := by
    intro c hc
    rw [getChain_congr kin2 (Kinematics.make P t yup) hstat2.1.symm joint] at hc
    exact chain_mem_names P t yup joint hnd hjoint c hc
  obtain ⟨S', count', hloop, hstat', hlen', hcov', hle, hexit⟩ :=
    ikLoopAux_ok P t yup joint target A alpha limit (getChain kin2 joint)
      hw hjoint hchain maxIterations
      ⟨configToVector (Kinematics.make P t yup) q, links,
        target.subv (getPosition m), kin2⟩ 0
      hstat2 (configToVector_length _ _) (fun n hn => hcov2 n hn)
  have hvtc2 : vectorToConfig P S'.kin S'.vec =
      .ok (buildGroups (Kinematics.make P t yup).map S'.vec) :=
    vtc_ok_of_static P t yup S'.kin hstat' _ hw hlen'
  refine ⟨⟨buildGroups (Kinematics.make P t yup).map S'.vec, S'.dErr, count',
    S'.fwd, S'.kin⟩, ?_, by simpa using hle, fun h => by simpa using hexit h⟩
  simp only [inverseKinematics, hvtc, hfk, hm, hloop, hvtc2]

/-- Witness for C5 at a concrete engine. -/
theorem C5_witness :
    wellNamed (treeA : Object3DK ℚ) ∧ (treeA : Object3DK ℚ).names.Nodup ∧
      nA ∈ (treeA : Object3DK ℚ).names ∧
    (∃ out, inverseKinematics Pq (Kinematics.make Pq treeA false) [] nA ⟨0, 0, 0⟩
        Matrix4K.ident (1 / 2) (1 / 10000) 3 = .ok out ∧ out.count ≤ 3 ∧
      ((1 : ℚ) / 10000 < out.dErr.lengthSq → out.count = 3)) :=
  ⟨by decide, by decide, by decide,
    C5_solver_terminates Pq treeA false [] nA ⟨0, 0, 0⟩ Matrix4K.ident (1 / 2)
      (1 / 10000) 3 (by decide) (by decide) (by decide)⟩

/-- C6 counterexample: on the two-joint engine with the partial
configuration `{RJoint_A_Z_: 0}` and a target already reached (start
residual `0`), the solver returns iteration count `0` but its final
configuration picks up a `-1000` entry for the uncovered joint, so it does
not equal the input configuration. -/
theorem C6_counterexample :
    ikStartErr Pq kinB [(nA, JointValue.num 0)] nA ⟨0, 0, 0⟩ Matrix4K.ident =
        .ok ⟨0, 0, 0⟩ ∧
      (Vector3K.lengthSq (K := ℚ) ⟨0, 0, 0⟩ ≤ 1 / 10000) ∧
      ikIters (inverseKinematics Pq kinB [(nA, JointValue.num 0)] nA ⟨0, 0, 0⟩
        Matrix4K.ident (1 / 2) (1 / 10000) 5) = 0 ∧
      objGet (ikFinalQ (inverseKinematics Pq kinB [(nA, JointValue.num 0)] nA ⟨0, 0, 0⟩
        Matrix4K.ident (1 / 2) (1 / 10000) 5)) nB = some (JointValue.num (-1000)) ∧
      objGet [(nA, JointValue.num 0)] nB = (none : Option (JointValue ℚ)) := by
  refine ⟨?_, ?_, ?_, ?_, ?_⟩
  · with_unfolding_all rfl
  · norm_num [Vector3K.lengthSq]
  · with_unfolding_all rfl
  · with_unfolding_all rfl
  · rfl

/-- C6 (amended): over a regularly named duplicate-free tree, for a total
well-shaped configuration (keys exactly the recognized DOF joints) whose
start residual is already within tolerance, the solver returns iteration
count `0` and a final configuration that looks up equal to the input at
every name. -/
theorem C6_converged_identity (P : ThreeMath K) (t : Object3DK K) (yup : Bool)
    (q : JointAngles K) (joint : String) (target : Vector3K K) (A : Matrix4K K)
    (alpha limit : K) (maxIterations : Nat)
    (hw : wellNamed t) (hnd : t.names.Nodup) (hjoint : joint ∈ t.names)
    (hndq : (objKeys q).Nodup)
    (hcov1 : ∀ n ∈ objKeys q, n ∈ dofJoints (Kinematics.make P t yup))
    (hcov2 : ∀ n ∈ dofJoints (Kinematics.make P t yup), n ∈ objKeys q)
    (hshape : ∀ kv ∈ q, kv.2.isRotV = includesS kv.1 mXYZ)
    (e0 : Vector3K K)
    (hstart : ikStartErr P (Kinematics.make P t yup) q joint target A = .ok e0)
    (hconv : e0.lengthSq ≤ limit) :
    ∃ out, inverseKinematics P (Kinematics.make P t yup) q joint target A alpha limit
        maxIterations = .ok out ∧ out.count = 0 ∧
      ∀ n, objGet out.finalQ n = objGet q n := by
  have hvtc : vectorToConfig P (Kinematics.make P t yup)
      (configToVector (Kinematics.make P t yup) q) =
        .ok (buildGroups (Kinematics.make P t yup).map
          (configToVector (Kinematics.make P t yup) q)) :=
    make_vtc_ok P t yup _ hw (configToVector_length _ _)
  obtain ⟨links, kin2, hfk, hstat2, hcov2'⟩ :=
    forwardKinematics_ok P (Kinematics.make P t yup)
      (buildGroups (Kinematics.make P t yup).map
        (configToVector (Kinematics.make P t yup) q)) A
      (bg_keys_sub_of_static P t yup _ (sameStatic_refl _) _ (configToVector_length _ _))
  have hjg : (objGet links joint).isSome = true := hcov2' joint hjoint
  obtain ⟨m, hm⟩ := Option.isSome_iff_exists.mp hjg
  simp only [ikStartErr, hvtc, hfk, hm, Except.ok.injEq] at hstart
  have hguard : ¬ limit < (target.subv (getPosition m)).lengthSq := by
    rw [hstart]
    exact not_lt.mpr hconv
  have hloop : ikLoopAux P joint target A alpha limit (getChain kin2 joint)
      maxIterations
      ⟨configToVector (Kinematics.make P t yup) q, links,
        target.subv (getPosition m), kin2⟩ 0 =
      .ok (⟨configToVector (Kinematics.make P t yup) q, links,
        target.subv (getPosition m), kin2⟩, 0) := by
    cases maxIterations with
    | zero => rfl
    | succ k =>
      unfold ikLoopAux
      rw [if_neg hguard]
  have hvtc2 : vectorToConfig P kin2 (configToVector (Kinematics.make P t yup) q) =
      .ok (buildGroups (Kinematics.make P t yup).map
        (configToVector (Kinematics.make P t yup) q)) :=
    vtc_ok_of_static P t yup kin2 hstat2 _ hw (configToVector_length _ _)
  refine ⟨⟨buildGroups (Kinematics.make P t yup).map
      (configToVector (Kinematics.make P t yup) q),
    target.subv (getPosition m), 0, links, kin2⟩, ?_, rfl, ?_⟩
  · simp only [inverseKinematics, hvtc, hfk, hm, hloop, hvtc2]
  · intro n
    exact bg_lookup_eq P t yup q hw hndq hcov1 hcov2 hshape n

/-- Witness for C6 at a concrete engine with a converged start. -/
theorem C6_witness :
    wellNamed (treeB : Object3DK ℚ) ∧ (treeB : Object3DK ℚ).names.Nodup ∧
      nA ∈ (treeB : Object3DK ℚ).names ∧
      (Vector3K.lengthSq (K := ℚ) ⟨0, 0, 0⟩ ≤ 1 / 10000) ∧
    (∃ out, inverseKinematics Pq (Kinematics.make Pq treeB false)
        [(nA, JointValue.num 1), (nB, JointValue.num 2)] nA ⟨0, 0, 0⟩
        Matrix4K.ident (1 / 2) (1 / 10000) 7 = .ok out ∧ out.count = 0 ∧
      ∀ n, objGet out.finalQ n =
        objGet [(nA, JointValue.num 1), (nB, JointValue.num 2)] n) :=
  ⟨by decide, by decide, by decide, by norm_num [Vector3K.lengthSq],
    C6_converged_identity Pq treeB false
      [(nA, JointValue.num 1), (nB, JointValue.num 2)] nA ⟨0, 0, 0⟩
      Matrix4K.ident (1 / 2) (1 / 10000) 7
      (by decide) (by decide) (by decide) (by decide) (by decide) (by decide)
      (by decide) ⟨0, 0, 0⟩ (by with_unfolding_all rfl)
      (by norm_num [Vector3K.lengthSq])⟩

end Claims
